import Mathlib

/-!
# upbc: the data-module engine of the upb compiler

A shallow embedding of `tools/upbc.c` (string interning, type buckets, the
traversal `add_value` / `add_submsgs`, and the emission pass of
`write_message_c`) together with theorems about it.

Conventions of the embedding.

* A `upb_string` is the list of its bytes; `byte_len` is the list length.
* The C `int` counters (`offset`, `num`, `values_len`, `arrays_len`, ...) are
  natural numbers; `values_len` and `arrays_len` are the lengths of the lists
  that model the live prefix of the `realloc`-grown buffers, the capacities
  `values_size` / `arrays_size` are kept as counters.
* A pointer to a message or to an array is the node it points to together with
  its address; pointer comparison is comparison of addresses.
* Reading a member of a `union upb_value` that the slot does not hold (for
  instance `*p.msg` on an `int32` array element) is a memory fault: the
  function returns `none`.
* The text written to the stream is kept as a list of items, one item per
  `fprintf` / `fputs` group of the source.
-/

namespace Upbc

/-- A `struct upb_string`: its bytes. -/
abbrev Bytes := List Nat

/-- The part of `struct upb_fielddef` the compiler reads: `name`, `number`,
`label`, `type` (the descriptor field type number, `1..18`) and the
fully-qualified name of `f->def`. -/
structure upb_fielddef where
  name : Bytes
  number : Nat
  label : Nat
  type : Nat
  def_fqname : Bytes
deriving DecidableEq, Repr

/-- Modelled from the spec: `upb_isarray` (declared in `upb_def.h`, absent
here) holds for fields whose label is `repeated`, label number `3` as in the
`labels` table of `write_h`. -/
def upb_isarray (f : upb_fielddef) : Bool := f.label == 3

/-- Modelled from the spec: `upb_isstringtype` (declared in `upb_def.h`)
holds for the field kinds `string` and `bytes`, type numbers `9` and `12`,
the two entries `struct upb_string*` of the `c_types` tables of `write_h`. -/
def upb_isstringtype (type : Nat) : Bool := type == 9 || type == 12

/-- Modelled from the spec: `upb_isstring f` is `upb_isstringtype f->type`. -/
def upb_isstring (f : upb_fielddef) : Bool := upb_isstringtype f.type

/-- Modelled from the spec: `upb_issubmsg` (declared in `upb_def.h`) holds for
the field kinds `group` and `message`, type numbers `10` and `11`, the two
entries the `c_types` tables of `write_h` leave empty. -/
def upb_issubmsg (f : upb_fielddef) : Bool := f.type == 10 || f.type == 11

mutual
/-- A message instance: its address, the fully-qualified name of `msg->def`,
and for every field of the definition, in declaration order, the field, its
`upb_msg_isset` flag and what `upb_msg_getptr` points to. -/
inductive upb_msg where
  | mk (addr : Nat) (fqname : Bytes) (fields : List (upb_fielddef × Bool × upb_value))
/-- What a `union upb_value` slot holds. -/
inductive upb_value where
  | scalar (raw : Int)
  | str (s : Bytes)
  | msg (m : upb_msg)
  | arr (a : upb_array)
/-- A `struct upb_array`: its address and its elements (`len` is the length). -/
inductive upb_array where
  | mk (addr : Nat) (elements : List upb_value)
end

/-- The address of a message. -/
def upb_msg.addr : upb_msg → Nat
  | .mk a _ _ => a

/-- The name of the definition of a message, `msg->def->fqname`. -/
def upb_msg.fqname : upb_msg → Bytes
  | .mk _ n _ => n

/-- The field slots of a message. -/
def upb_msg.fields : upb_msg → List (upb_fielddef × Bool × upb_value)
  | .mk _ _ fs => fs

/-- The address of an array. -/
def upb_array.addr : upb_array → Nat
  | .mk a _ => a

/-- The elements of an array. -/
def upb_array.elements : upb_array → List upb_value
  | .mk _ es => es

/-- The field `len` of an array. -/
def upb_array.len (a : upb_array) : Nat := a.elements.length

/-! ## The string table -/

/-- A `struct strtable_entry`: key, `offset` and `num`. -/
structure strtable_entry where
  key : Bytes
  offset : Nat
  num : Nat
deriving DecidableEq, Repr

/-- Modelled from the spec: `upb_strtable_lookup` on the string table, a
lookup by content (the hash table itself is not part of this file). -/
def upb_strtable_lookup (t : List strtable_entry) (key : Bytes) : Option strtable_entry :=
  t.find? (fun e => decide (e.key = key))

/-- Modelled from the spec: `upb_strtable_insert` adds a copy of the entry. -/
def upb_strtable_insert (t : List strtable_entry) (e : strtable_entry) : List strtable_entry :=
  t ++ [e]

mutual
/-- The function `add_strings_from_msg`. -/
def add_strings_from_msg : upb_msg → List strtable_entry → Option (List strtable_entry)
  | .mk _ _ fields, t => add_strings_from_fields fields t
/-- The loop over the fields in `add_strings_from_msg`. -/
def add_strings_from_fields :
    List (upb_fielddef × Bool × upb_value) → List strtable_entry → Option (List strtable_entry)
  | [], t => some t
  | (f, isset, p) :: rest, t =>
    if !isset then add_strings_from_fields rest t
    else if upb_isarray f then
      match p with
      | .arr (.mk _ elements) =>
        match add_strings_from_elements elements f t with
        | some t1 => add_strings_from_fields rest t1
        | none => none
      | _ => none
    else
      match add_strings_from_value p f t with
      | some t1 => add_strings_from_fields rest t1
      | none => none
/-- The loop over the elements of an array in `add_strings_from_msg`. -/
def add_strings_from_elements :
    List upb_value → upb_fielddef → List strtable_entry → Option (List strtable_entry)
  | [], _, t => some t
  | p :: rest, f, t =>
    match add_strings_from_value p f t with
    | some t1 => add_strings_from_elements rest f t1
    | none => none
/-- The function `add_strings_from_value`. -/
def add_strings_from_value :
    upb_value → upb_fielddef → List strtable_entry → Option (List strtable_entry)
  | p, f, t =>
    if upb_isstringtype f.type then
      match p with
      | .str s =>
        if upb_strtable_lookup t s = none then
          some (upb_strtable_insert t { key := s, offset := 0, num := 0 })
        else some t
      | _ => none
    else if upb_issubmsg f then
      match p with
      | .msg m => add_strings_from_msg m t
      | _ => none
    else some t
end

/-- Modelled from the spec: `upb_strcmp`, the comparison of two strings in
lexicographic byte order; negative, zero or positive. -/
def upb_strcmp : Bytes → Bytes → Int
  | [], [] => 0
  | [], _ :: _ => -1
  | _ :: _, [] => 1
  | a :: s1, b :: s2 => if a = b then upb_strcmp s1 s2 else (a : Int) - (b : Int)

/-- The function `compare_entries`. -/
def compare_entries (e1 e2 : strtable_entry) : Int := upb_strcmp e1.key e2.key

/-- The function `strtable_to_array`: the entries of the table. -/
def strtable_to_array (t : List strtable_entry) : List strtable_entry := t

/-- The order `qsort` sorts by: `compare_entries` is not positive. -/
def entries_le (e1 e2 : strtable_entry) : Prop := compare_entries e1 e2 ≤ 0

instance : DecidableRel entries_le := fun e1 e2 => by
  unfold entries_le; exact inferInstance

/-- The call of `qsort` with `compare_entries`. -/
def qsort_entries (l : List strtable_entry) : List strtable_entry :=
  List.insertionSort entries_le l

/-- The loop of `write_message_c` that gives every entry its `offset` and
`num`, from the running `offset` and the index `i`. -/
def assign_offsets : List strtable_entry → Nat → Nat → List strtable_entry
  | [], _, _ => []
  | e :: rest, offset, i =>
    { e with offset := offset, num := i } :: assign_offsets rest (offset + e.key.length) (i + 1)

/-- The string pool `str_entries` after `qsort` and the numbering loop. -/
def str_entries (strings : List strtable_entry) : List strtable_entry :=
  assign_offsets (qsort_entries (strtable_to_array strings)) 0 0

/-! ## The type table -/

/-- The `struct array` of a type table entry: `offset`, `len` and `ptr`. -/
structure array where
  offset : Nat
  len : Nat
  ptr : upb_array

/-- A `struct typetable_entry`. The lists `values` and `arrays` hold the first
`values_len` and `arrays_len` slots of the two buffers. -/
structure typetable_entry where
  key : Bytes
  field : upb_fielddef
  cident : Bytes
  values : List upb_value
  values_size : Nat
  arrays : List array
  arrays_size : Nat

/-- The counter `values_len`. -/
def typetable_entry.values_len (e : typetable_entry) : Nat := e.values.length

/-- The counter `arrays_len`. -/
def typetable_entry.arrays_len (e : typetable_entry) : Nat := e.arrays.length

/-- The function `to_cident`: every `.` and every `/` becomes `_`. -/
def to_cident (str : Bytes) : Bytes :=
  str.map (fun c => if c = 46 ∨ c = 47 then 95 else c)

/-- Modelled from the spec: `upb_strtable_lookup` on the type table, a lookup
by type key. -/
def types_lookup (t : List typetable_entry) (key : Bytes) : Option typetable_entry :=
  t.find? (fun e => decide (e.key = key))

/-- Modelled from the spec: `upb_strtable_insert` on the type table. The hash
table is not part of this file; the list keeps the entries in the order of
their creation. The order in which `upb_strtable_begin` / `upb_strtable_next`
enumerate the table is a parameter of `write_message_c_by`; `write_message_c`
takes the order of creation, as the specification has it. -/
def types_insert (t : List typetable_entry) (e : typetable_entry) : List typetable_entry :=
  t ++ [e]

/-- A write through the pointer `upb_strtable_lookup` returned: the entry found
for the key of `e` (the first one with that key) becomes `e`. -/
def types_store : List typetable_entry → typetable_entry → List typetable_entry
  | [], _ => []
  | x :: rest, e => if x.key = e.key then e :: rest else x :: types_store rest e

/-- The type key computed at the head of `get_or_insert_typeentry`: the
fully-qualified name of the message definition for a submessage field,
`upb_type_info[f->type].ctype` otherwise. The table `upb_type_info` is not part
of this file and is the parameter `ctype`. -/
def type_name (ctype : Nat → Bytes) (f : upb_fielddef) : Bytes :=
  if upb_issubmsg f then f.def_fqname else ctype f.type

/-- The function `get_or_insert_typeentry`: the table afterwards and the entry
returned. -/
def get_or_insert_typeentry (ctype : Nat → Bytes) (t : List typetable_entry)
    (f : upb_fielddef) : List typetable_entry × typetable_entry :=
  match types_lookup t (type_name ctype f) with
  | none =>
    let new_type_e : typetable_entry :=
      { key := type_name ctype f, field := f, cident := to_cident (type_name ctype f),
        values := [], values_size := 0, arrays := [], arrays_size := 0 }
    let t1 := types_insert t new_type_e
    match types_lookup t1 (type_name ctype f) with
    | some type_e => (t1, type_e)
    | none => (t1, new_type_e)
  | some type_e => (t, type_e)

/-- Modelled from the spec: `upb_value_read` reads the slot `p` as a value of
the given field type. -/
def upb_value_read (p : upb_value) (_type : Nat) : upb_value := p

/-- The growth step of `add_value`: when `values_len == values_size` the
capacity becomes `UPB_MAX(values_size * 2, 4)`; `realloc` keeps the contents. -/
def grow_values (type_e : typetable_entry) : typetable_entry :=
  if type_e.values_len = type_e.values_size then
    { type_e with values_size := max (type_e.values_size * 2) 4 }
  else type_e

/-- The store `type_e->values[type_e->values_len++] = v`. -/
def push_value (type_e : typetable_entry) (v : upb_value) : typetable_entry :=
  { type_e with values := type_e.values ++ [v] }

/-- The function `add_value`. -/
def add_value (ctype : Nat → Bytes) (p : upb_value) (f : upb_fielddef)
    (t : List typetable_entry) : List typetable_entry :=
  let r := get_or_insert_typeentry ctype t f
  types_store r.1 (push_value (grow_values r.2) (upb_value_read p f.type))

/-- The growth step of the array branch of `add_submsgs`: when
`arrays_len == arrays_size` the capacity becomes `UPB_MAX(arrays_size * 2, 4)`. -/
def grow_arrays (arr_type_e : typetable_entry) : typetable_entry :=
  if arr_type_e.arrays_len = arr_type_e.arrays_size then
    { arr_type_e with arrays_size := max (arr_type_e.arrays_size * 2) 4 }
  else arr_type_e

/-- The stores into `arrays[arrays_len]` and `arrays_len++`: the record gets
the current `values_len` as `offset`, `arr->len` as `len` and the array as
`ptr`. -/
def push_array (arr_type_e : typetable_entry) (arr : upb_array) : typetable_entry :=
  { arr_type_e with
    arrays := arr_type_e.arrays ++
      [{ offset := arr_type_e.values_len, len := arr.len, ptr := arr }] }

/-- The first half of the array branch of `add_submsgs`: the record
`{offset, len, ptr}` is appended to the arrays of the entry of `f`. -/
def add_array (ctype : Nat → Bytes) (arr : upb_array) (f : upb_fielddef)
    (t : List typetable_entry) : List typetable_entry :=
  let r := get_or_insert_typeentry ctype t f
  types_store r.1 (push_array (grow_arrays r.2) arr)

/-- The loop `for j < arr->len: add_value(upb_array_getelementptr(arr, j), f, t)`. -/
def add_values (ctype : Nat → Bytes) :
    List upb_value → upb_fielddef → List typetable_entry → List typetable_entry
  | [], _, t => t
  | p :: rest, f, t => add_values ctype rest f (add_value ctype p f t)

mutual
/-- The function `add_submsgs`. -/
def add_submsgs (ctype : Nat → Bytes) :
    upb_msg → List typetable_entry → Option (List typetable_entry)
  | .mk _ _ fields, t => add_submsgs_fields ctype fields t
/-- The loop over the fields in `add_submsgs`. -/
def add_submsgs_fields (ctype : Nat → Bytes) :
    List (upb_fielddef × Bool × upb_value) → List typetable_entry →
      Option (List typetable_entry)
  | [], t => some t
  | (f, isset, p) :: rest, t =>
    if !isset then add_submsgs_fields ctype rest t
    else if upb_isarray f then
      if upb_isstring f then add_submsgs_fields ctype rest t
      else
        match p with
        | .arr (.mk addr elements) =>
          let t1 := add_array ctype (.mk addr elements) f t
          let t2 := add_values ctype elements f t1
          match add_submsgs_elements ctype elements t2 with
          | some t3 => add_submsgs_fields ctype rest t3
          | none => none
        | _ => none
    else if !upb_issubmsg f then add_submsgs_fields ctype rest t
    else
      let t1 := add_value ctype p f t
      match p with
      | .msg m =>
        match add_submsgs ctype m t1 with
        | some t2 => add_submsgs_fields ctype rest t2
        | none => none
      | _ => none
/-- The loop `for j < arr->len: add_submsgs( *upb_array_getelementptr(arr, j).msg, t)`:
every element is read as a message pointer. -/
def add_submsgs_elements (ctype : Nat → Bytes) :
    List upb_value → List typetable_entry → Option (List typetable_entry)
  | [], t => some t
  | p :: rest, t =>
    match p with
    | .msg m =>
      match add_submsgs ctype m t with
      | some t1 => add_submsgs_elements ctype rest t1
      | none => none
    | _ => none
end

/-- The `fake_field` of `write_message_c`: a message field whose definition is
the definition of the root. -/
def fake_field (msg : upb_msg) : upb_fielddef :=
  { name := [], number := 0, label := 0, type := 11, def_fqname := msg.fqname }

/-- The traversal of `write_message_c`: `add_value` of the root on the empty
table, then `add_submsgs`. -/
def gather_types (ctype : Nat → Bytes) (msg : upb_msg) : Option (List typetable_entry) :=
  add_submsgs ctype msg (add_value ctype (.msg msg) (fake_field msg) [])

/-! ## Emission -/

/-- What is written after `.name = ` for one field of a message value. -/
inductive payload where
  /-- The text `0,   /* Not set. */`. -/
  | not_set
  /-- The text `&strings[num],   /* "s" */`. -/
  | string_ref (num : Nat) (s : Bytes)
  /-- The text `&<cident>_arrays[arr_num],`. -/
  | array_ref (cident : Bytes) (arr_num : Nat)
  /-- The text `&<cident>_values[msg_num],`. -/
  | value_ref (cident : Bytes) (msg_num : Nat)
  /-- The text of `upb_text_printval(f->type, val, stream)` and a comma. -/
  | literal (type : Nat) (val : upb_value)

/-- One group of writes to the stream of `write_message_c`. -/
inductive item where
  /-- The comment at the head of the file and the `#include` line. -/
  | prologue (argv : List Bytes) (infile_name : Bytes) (hfile_name : Bytes)
  /-- The definition `static char strdata[] = "..."`, recorded by the bytes of
  the entries handed to `fputc`, in order. The text written for them (the bytes
  as they are, with the literal closed and reopened at column 80) is
  `strdata_initializer`. -/
  | strdata (data : Bytes)
  /-- The table `static struct upb_string strings[]`: for every entry the pair
  `{.ptr = &strdata[offset], .byte_len = byte_len}`. -/
  | strings (entries : List (Nat × Nat))
  /-- The forward declaration `static <cident> <cident>_values[values_len];`. -/
  | forward_decl (cident : Bytes) (values_len : Nat)
  /-- The table `<cident>_array_elems[]`: for every line `&<cident>_values[i],`
  the index `i`. -/
  | array_elems (cident : Bytes) (indices : List Nat)
  /-- The table `<cident>_arrays[arrays_len]`: for every line
  `{.elements = &<cident>_array_elems[cum_offset], .len = len}` the pair. -/
  | arrays (cident : Bytes) (arrays_len : Nat) (headers : List (Nat × Nat))
  /-- The line `static <cident> <cident>_values[values_len] = {`. -/
  | values_begin (cident : Bytes) (values_len : Nat)
  /-- The opening `{.set_flags = {.has = {` of a message value. -/
  | flags_begin
  /-- One line `.<name> = true,` or `.<name> = false,` of the set flags. -/
  | flag (name : Bytes) (isset : Bool)
  /-- The closing `}},` of the set flags. -/
  | flags_end
  /-- The text `.<name> = ` that opens the data of a field. -/
  | field_name (name : Bytes)
  /-- The data written for the field. -/
  | field_value (v : payload)
  /-- The closing `},` of a message value. -/
  | msg_end
  /-- A value that is neither a string nor a message, written by
  `upb_text_printval`. -/
  | scalar_value (type : Nat) (val : upb_value)
  /-- The closing `};` of a values table. -/
  | values_end
  /-- The line `<type cident> *<cident> = &<type cident>_values[0];`. -/
  | root (type_cident : Bytes) (cident : Bytes)

/-- How the run of `write_message_c` stands: still running (or returned), left
by `exit(1)` after the message about string arrays, stopped by a failed
`assert`, or stopped by a read of a union member that is not there. -/
inductive run_status where
  | ok
  | unsupported
  | assertion_failed
  | fault
deriving DecidableEq, Repr

/-- The state of the emission pass: the type table (the pass calls
`get_or_insert_typeentry`), what has been written to the stream, and the
status. -/
structure emitter where
  types : List typetable_entry
  stream : List item
  status : run_status

/-- One write to the stream. -/
def emitter.put (s : emitter) (i : item) : emitter :=
  { s with stream := s.stream ++ [i] }

/-- The type table becomes the given one. -/
def emitter.set_types (s : emitter) (types : List typetable_entry) : emitter :=
  { s with types := types }

/-- The run stops with the given status. -/
def emitter.stop (s : emitter) (st : run_status) : emitter :=
  { s with status := st }

/-- A loop of the emission pass: the body runs for every element as long as
the run has not stopped. -/
def emit_each {α : Type} (body : α → emitter → emitter) : List α → emitter → emitter
  | [], s => s
  | x :: rest, s =>
    match s.status with
    | .ok => emit_each body rest (body x s)
    | _ => s

/-- The lines `&<cident>_values[arr->offset + j]` of the element table. -/
def array_elems (arrays : List array) : List Nat :=
  arrays.flatMap (fun arr => (List.range arr.len).map (fun j => arr.offset + j))

/-- The lines of the arrays table, from the running `cum_offset`. -/
def array_headers : List array → Nat → List (Nat × Nat)
  | [], _ => []
  | arr :: rest, cum_offset => (cum_offset, arr.len) :: array_headers rest (cum_offset + arr.len)

/-- The body of the loop that emits the forward declarations and defines the
arrays. -/
def emit_decl (e : typetable_entry) (s : emitter) : emitter :=
  let s1 := s.put (.forward_decl e.cident e.values_len)
  if e.arrays_len > 0 then
    (s1.put (.array_elems e.cident (array_elems e.arrays))).put
      (.arrays e.cident e.arrays_len (array_headers e.arrays 0))
  else s1

/-- The loop `for k < arrays_len: if(arrays[k].ptr == val.arr)`: the first
index whose record has the address of the array. -/
def find_array : List array → upb_array → Option Nat
  | [], _ => none
  | r :: rest, a =>
    if r.ptr.addr = a.addr then some 0 else (find_array rest a).map (fun k => k + 1)

/-- The comparison `values[k].msg == val.msg`. -/
def is_msg_at (v : upb_value) (m : upb_msg) : Bool :=
  match v with
  | .msg m1 => m1.addr == m.addr
  | _ => false

/-- The loop `for k < values_len: if(values[k].msg == val.msg)`: the first
index whose value has the address of the message. -/
def find_value : List upb_value → upb_msg → Option Nat
  | [], _ => none
  | v :: rest, m =>
    if is_msg_at v m then some 0 else (find_value rest m).map (fun k => k + 1)

/-- The body of the loop that prints the data of a message value, for one
field. -/
def emit_field (ctype : Nat → Bytes) (strings : List strtable_entry)
    (fd : upb_fielddef × Bool × upb_value) (s : emitter) : emitter :=
  let f := fd.1
  let val := upb_value_read fd.2.2 f.type
  let s1 := s.put (.field_name f.name)
  if !fd.2.1 then s1.put (.field_value .not_set)
  else if upb_isstring f then
    if upb_isarray f then s1.stop .unsupported
    else
      match val with
      | .str str =>
        match upb_strtable_lookup strings str with
        | some str_e => s1.put (.field_value (.string_ref str_e.num str))
        | none => s1.stop .assertion_failed
      | _ => s1.stop .fault
  else if upb_isarray f then
    let r := get_or_insert_typeentry ctype s1.types f
    let s2 := s1.set_types r.1
    match val with
    | .arr a =>
      match find_array r.2.arrays a with
      | some arr_num => s2.put (.field_value (.array_ref r.2.cident arr_num))
      | none => s2.stop .assertion_failed
    | _ => s2.stop .fault
  else if upb_issubmsg f then
    let r := get_or_insert_typeentry ctype s1.types f
    let s2 := s1.set_types r.1
    match val with
    | .msg m =>
      match find_value r.2.values m with
      | some msg_num => s2.put (.field_value (.value_ref r.2.cident msg_num))
      | none => s2.stop .assertion_failed
    | _ => s2.stop .fault
  else s1.put (.field_value (.literal f.type val))

/-- The body of the loop that prints the set flags of a message value, for one
field: `true` when `upb_msg_isset(msgdata, f)`, `false` otherwise. -/
def emit_flag (fd : upb_fielddef × Bool × upb_value) (s : emitter) : emitter :=
  s.put (.flag fd.1.name fd.2.1)

/-- The body of the loop over the values of an entry. A message value is
printed with the fields of its own definition: the instance conforms to the
schema, so the definition of the entry's field is the definition of every
message stored in the entry. -/
def emit_value (ctype : Nat → Bytes) (strings : List strtable_entry)
    (field : upb_fielddef) (val : upb_value) (s : emitter) : emitter :=
  if upb_issubmsg field then
    match val with
    | .msg msgdata =>
      let s1 := s.put .flags_begin
      let s2 := emit_each emit_flag msgdata.fields s1
      let s3 := s2.put .flags_end
      let s4 := emit_each (emit_field ctype strings) msgdata.fields s3
      match s4.status with
      | .ok => s4.put .msg_end
      | _ => s4
    | _ => s.stop .fault
  else if upb_isstring field then s
  else s.put (.scalar_value field.type val)

/-- The body of the loop that emits the definitions. -/
def emit_def (ctype : Nat → Bytes) (strings : List strtable_entry)
    (e : typetable_entry) (s : emitter) : emitter :=
  let s1 := s.put (.values_begin e.cident e.values_len)
  let s2 := emit_each (emit_value ctype strings e.field) e.values s1
  match s2.status with
  | .ok => s2.put .values_end
  | _ => s2

/-- The part of `write_message_c` that emits the strings: the definition of
`strdata` and the table `strings`. The item of `strdata` keeps the bytes handed
to `fputc`; the characters that reach the file, line breaks included, and the
array they define are `strdata_initializer` and `c_char_array`. -/
def emit_strings (strings : List strtable_entry) (s : emitter) : emitter :=
  (s.put (.strdata (strings.flatMap (fun e => e.key)))).put
    (.strings (strings.map (fun e => (e.offset, e.key.length))))

/-- The end of `write_message_c`: the entry of the root type is looked up with
`get_or_insert_typeentry` and the externally visible definition is written. -/
def emit_root (ctype : Nat → Bytes) (msg : upb_msg) (cident : Bytes) (s : emitter) : emitter :=
  match s.status with
  | .ok =>
    let r := get_or_insert_typeentry ctype s.types (fake_field msg)
    (s.set_types r.1).put (.root r.2.cident cident)
  | _ => s

/-- The function `write_message_c`: the state when the run ends. The entries of
the type table are visited in the order of their creation. -/
def write_message_c (ctype : Nat → Bytes) (msg : upb_msg) (cident : Bytes)
    (hfile_name : Bytes) (argv : List Bytes) (infile_name : Bytes) : emitter :=
  let s0 : emitter :=
    { types := [], stream := [.prologue argv infile_name hfile_name], status := .ok }
  match add_strings_from_msg msg [] with
  | none => s0.stop .fault
  | some strings0 =>
    let strings := str_entries strings0
    let s1 := emit_strings strings s0
    match gather_types ctype msg with
    | none => s1.stop .fault
    | some types =>
      emit_root ctype msg cident
        (emit_each (emit_def ctype strings) types
          (emit_each emit_decl types (s1.set_types types)))

/-! ## Notions used by the statements -/

/-- The values list of the entry for a key (empty when there is no entry). -/
def values_of (t : List typetable_entry) (key : Bytes) : List upb_value :=
  match types_lookup t key with
  | some e => e.values
  | none => []

/-- The array records of the entry for a key (empty when there is no entry). -/
def arrays_of (t : List typetable_entry) (key : Bytes) : List array :=
  match types_lookup t key with
  | some e => e.arrays
  | none => []

/-- A later state of the type table: what a sequence of calls of `add_value`
and of returning calls of `add_submsgs` makes of a table. -/
inductive later_table (ctype : Nat → Bytes) :
    List typetable_entry → List typetable_entry → Prop where
  | refl (t : List typetable_entry) : later_table ctype t t
  | add_value {t t1 : List typetable_entry} (p : upb_value) (f : upb_fielddef) :
      later_table ctype t t1 → later_table ctype t (add_value ctype p f t1)
  | add_submsgs {t t1 t2 : List typetable_entry} (m : upb_msg) :
      later_table ctype t t1 → add_submsgs ctype m t1 = some t2 → later_table ctype t t2

/-- A relation between type tables that is reflexive, transitive and holds
across the two steps of the traversal: `add_value`, and the array step (the
record followed by the values of the elements). -/
def step_closed (ctype : Nat → Bytes)
    (R : List typetable_entry → List typetable_entry → Prop) : Prop :=
  (∀ t, R t t) ∧ (∀ a b c, R a b → R b c → R a c) ∧
    (∀ p f t, R t (add_value ctype p f t)) ∧
    (∀ arr f t, R t (add_values ctype arr.elements f (add_array ctype arr f t)))

/-- The table `t1` extends the table `t`: every entry of `t` is still there,
with the same field and C identifier, and its values and array records are an
initial segment of the later ones. -/
def table_extends (t t1 : List typetable_entry) : Prop :=
  ∀ k e, types_lookup t k = some e →
    ∃ e1, types_lookup t1 k = some e1 ∧ e.values <+: e1.values ∧ e.arrays <+: e1.arrays ∧
      e1.field = e.field ∧ e1.cident = e.cident

/-- A table of scalar type names used in the examples: the entries of the
`c_types` table that `write_h` uses for singular fields. -/
def c_types : Nat → Bytes
  | 1 => [100, 111, 117, 98, 108, 101]
  | 2 => [102, 108, 111, 97, 116]
  | 3 => [105, 110, 116, 54, 52, 95, 116]
  | 4 => [117, 105, 110, 116, 54, 52, 95, 116]
  | 5 => [105, 110, 116, 51, 50, 95, 116]
  | 6 => [117, 105, 110, 116, 54, 52, 95, 116]
  | 7 => [117, 105, 110, 116, 51, 50, 95, 116]
  | 8 => [98, 111, 111, 108]
  | 9 => [115, 116, 114, 117, 99, 116, 32, 117, 112, 98, 95, 115, 116, 114, 105, 110, 103, 42]
  | 12 => [115, 116, 114, 117, 99, 116, 32, 117, 112, 98, 95, 115, 116, 114, 105, 110, 103, 42]
  | 13 => [117, 105, 110, 116, 51, 50, 95, 116]
  | 14 => [105, 110, 116, 51, 50, 95, 116]
  | 15 => [105, 110, 116, 51, 50, 95, 116]
  | 16 => [105, 110, 116, 54, 52, 95, 116]
  | 17 => [105, 110, 116, 51, 50, 95, 116]
  | 18 => [105, 110, 116, 54, 52, 95, 116]
  | _ => []

/-- An example field: `repeated int32 f = 3`. -/
def example_int32s : upb_fielddef :=
  { name := [102], number := 3, label := 3, type := 5, def_fqname := [] }

/-! ## The scenario `Person` -/

/-- The name `Person`. -/
def person_fqname : Bytes := [80, 101, 114, 115, 111, 110]

/-- The field `name : string` of `Person`. -/
def person_name : upb_fielddef :=
  { name := [110, 97, 109, 101], number := 1, label := 1, type := 9, def_fqname := [] }

/-- The field `age : optional int32` of `Person`. -/
def person_age : upb_fielddef :=
  { name := [97, 103, 101], number := 2, label := 1, type := 5, def_fqname := [] }

/-- The field `friends : repeated Person` of `Person`. -/
def person_friends : upb_fielddef :=
  { name := [102, 114, 105, 101, 110, 100, 115], number := 3, label := 3, type := 11,
    def_fqname := person_fqname }

/-- The string `Alice`. -/
def alice : Bytes := [65, 108, 105, 99, 101]

/-- The string `Bob`. -/
def bob : Bytes := [66, 111, 98]

/-- The message `Person{name = "Bob"}`, at address 101. -/
def person_bob : upb_msg :=
  .mk 101 person_fqname
    [(person_name, true, .str bob), (person_age, false, .scalar 0),
      (person_friends, false, .scalar 0)]

/-- The message `Person{name = "Alice"}` of the array, at address 102. -/
def person_alice_copy : upb_msg :=
  .mk 102 person_fqname
    [(person_name, true, .str alice), (person_age, false, .scalar 0),
      (person_friends, false, .scalar 0)]

/-- The array `[Person{name = "Bob"}, Person{name = "Alice"}]`, at address 200. -/
def person_array : upb_array :=
  .mk 200 [.msg person_bob, .msg person_alice_copy]

/-- The root `Person{name = "Alice", friends = [...]}`, at address 100. -/
def person_root : upb_msg :=
  .mk 100 person_fqname
    [(person_name, true, .str alice), (person_age, false, .scalar 0),
      (person_friends, true, .arr person_array)]

/-- An array record is backed by the values: the run `[offset, offset + len)`
lies inside the values, `len` is the length of the source array, and the value
at `offset + j` is element `j` of the source array. -/
def array_backed (values : List upb_value) (r : array) : Prop :=
  r.offset + r.len ≤ values.length ∧ r.len = r.ptr.len ∧
    ∀ j, j < r.len → values[r.offset + j]? = r.ptr.elements[j]?

/-- The invariant of the array records of a table: in every entry, every record
is backed by the values and an earlier record ends before a later one begins. -/
def arrays_inv (t : List typetable_entry) : Prop :=
  ∀ k, (∀ r ∈ arrays_of t k, array_backed (values_of t k) r) ∧
    (arrays_of t k).Pairwise (fun r1 r2 => r1.offset + r1.len ≤ r2.offset)

/-- No two entries of the table have the same key. -/
def keys_nodup (t : List typetable_entry) : Prop := (t.map (fun e => e.key)).Nodup

/-- The type table of the scenario `Person` after the traversal: one entry,
for `Person`, with the root, `Bob` and the copy of `Alice` as values and one
array record. -/
def person_types : List typetable_entry :=
  [{ key := person_fqname, field := fake_field person_root, cident := person_fqname,
     values := [.msg person_root, .msg person_bob, .msg person_alice_copy],
     values_size := 4,
     arrays := [{ offset := 1, len := 2, ptr := person_array }],
     arrays_size := 4 }]

/-- The string branch of `add_strings_from_value`: the string is inserted when
the lookup does not find it. -/
def intern (t : List strtable_entry) (s : Bytes) : List strtable_entry :=
  if upb_strtable_lookup t s = none then
    upb_strtable_insert t { key := s, offset := 0, num := 0 }
  else t

mutual
/-- The contents of the present string fields of an instance, in the order of
the fields: the string of a present singular string field, the elements of a
present repeated string field, and the same for every message that is the value
of a present submessage field or an element of a present array of
submessages. -/
def present_strings : upb_msg → List Bytes
  | .mk _ _ fields => present_strings_fields fields
/-- The contents of the present string fields, for a list of field slots. -/
def present_strings_fields : List (upb_fielddef × Bool × upb_value) → List Bytes
  | [] => []
  | (f, isset, p) :: rest =>
    (if isset then
      if upb_isarray f then
        match p with
        | .arr (.mk _ elements) => present_strings_elements f elements
        | _ => []
      else present_strings_value f p
    else []) ++ present_strings_fields rest
/-- The contents of the present string fields, for the elements of an array of
the field `f`. -/
def present_strings_elements : upb_fielddef → List upb_value → List Bytes
  | _, [] => []
  | f, p :: rest => present_strings_value f p ++ present_strings_elements f rest
/-- The contents of the present string fields, for one value of the field `f`. -/
def present_strings_value : upb_fielddef → upb_value → List Bytes
  | f, .str s => if upb_isstring f then [s] else []
  | f, .msg m => if upb_isstring f then [] else if upb_issubmsg f then present_strings m else []
  | _, _ => []
end

/-- The offsets of the pool are strictly increasing with the pool index. -/
def offsets_strictly_increasing (pool : List strtable_entry) : Prop :=
  (pool.map (fun e => e.offset)).Pairwise (fun a b => a < b)

/-- A message with two present string fields, the first one empty: `{a = "",
b = "a"}`. -/
def empty_string_msg : upb_msg :=
  .mk 1 [77]
    [({ name := [97], number := 1, label := 1, type := 9, def_fqname := [] }, true, .str []),
     ({ name := [98], number := 2, label := 1, type := 9, def_fqname := [] }, true, .str [97])]

/-- The string pool of the scenario `Person`: `Alice` at offset 0 with index 0,
`Bob` at offset 5 with index 1. -/
def person_pool : List strtable_entry :=
  [{ key := alice, offset := 0, num := 0 }, { key := bob, offset := 5, num := 1 }]

/-- The state of the emission pass of the scenario `Person` before the first
value is written. -/
def person_start : emitter :=
  { types := person_types, stream := [], status := .ok }

/-! ## The instance as a tree -/

mutual
/-- The instance conforms to its schema: every present field holds what its
descriptor says (an array for a repeated field; strings for a string field,
messages of the named definition for a submessage field, scalars otherwise),
and so do the messages below. -/
def conforms : upb_msg → Bool
  | .mk _ _ fields => conforms_fields fields
/-- Conformance of a list of field slots. -/
def conforms_fields : List (upb_fielddef × Bool × upb_value) → Bool
  | [] => true
  | (f, isset, p) :: rest =>
    (if isset then
      if upb_isarray f then
        match p with
        | .arr (.mk _ elements) => conforms_elements f elements
        | _ => false
      else conforms_value f p
    else true) && conforms_fields rest
/-- Conformance of the elements of an array of the field `f`. -/
def conforms_elements : upb_fielddef → List upb_value → Bool
  | _, [] => true
  | f, p :: rest => conforms_value f p && conforms_elements f rest
/-- Conformance of one value of the field `f`. -/
def conforms_value : upb_fielddef → upb_value → Bool
  | f, .str _ => upb_isstring f
  | f, .msg m =>
    !upb_isstring f && upb_issubmsg f && decide (m.fqname = f.def_fqname) && conforms m
  | f, .scalar _ => !upb_isstring f && !upb_issubmsg f
  | _, .arr _ => false
end

mutual
/-- What the traversal meets below a message, in order: the message of every
present singular submessage field followed by what is below it, and for every
present repeated field that is not a string field the array, its elements, and
what is below the elements. -/
def walked : upb_msg → List upb_value
  | .mk _ _ fields => walked_fields fields
/-- What the traversal meets, for a list of field slots. -/
def walked_fields : List (upb_fielddef × Bool × upb_value) → List upb_value
  | [] => []
  | (f, isset, p) :: rest =>
    (if isset then
      if upb_isarray f then
        if upb_isstring f then []
        else
          match p with
          | .arr (.mk addr elements) =>
            .arr (.mk addr elements) :: (elements ++ walked_elements elements)
          | _ => []
      else if upb_issubmsg f then
        match p with
        | .msg m => .msg m :: walked m
        | _ => []
      else []
    else []) ++ walked_fields rest
/-- What the traversal meets below the elements of an array. -/
def walked_elements : List upb_value → List upb_value
  | [] => []
  | .msg m :: rest => walked m ++ walked_elements rest
  | _ :: rest => walked_elements rest
end

/-- The address of a value that is a message. -/
def msg_addr : upb_value → Option Nat
  | .msg m => some m.addr
  | _ => none

/-- The address of a value that is an array. -/
def arr_addr : upb_value → Option Nat
  | .arr a => some a.addr
  | _ => none

/-- The instance is a tree: the root and the messages below it have pairwise
different addresses, and so have the arrays. -/
def instance_tree (msg : upb_msg) : Prop :=
  ((upb_value.msg msg :: walked msg).filterMap msg_addr).Nodup ∧
    ((walked msg).filterMap arr_addr).Nodup

instance (msg : upb_msg) : Decidable (instance_tree msg) := by
  unfold instance_tree; exact inferInstance

/-- A present field is registered in the table: the array of a repeated field
that is not a string field has a record in the entry of the field's type key,
the message of a singular submessage field is among the values of that
entry. -/
def field_closed (ctype : Nat → Bytes) (t : List typetable_entry)
    (fd : upb_fielddef × Bool × upb_value) : Prop :=
  fd.2.1 = true →
    (upb_isarray fd.1 = true → upb_isstring fd.1 = false →
      ∃ a, fd.2.2 = .arr a ∧ ∃ r ∈ arrays_of t (type_name ctype fd.1), r.ptr = a) ∧
    (upb_isarray fd.1 = false → upb_issubmsg fd.1 = true →
      ∃ m, fd.2.2 = .msg m ∧ upb_value.msg m ∈ values_of t (type_name ctype fd.1))

/-- Every present field of the message is registered in the table. -/
def msg_closed (ctype : Nat → Bytes) (t : List typetable_entry) (m : upb_msg) : Prop :=
  ∀ fd ∈ m.fields, field_closed ctype t fd

/-- Every value of the later table `t1` is a value of `t` at the same key or
a message all of whose present fields are registered in `t1`. -/
def new_closed (ctype : Nat → Bytes) (t t1 : List typetable_entry) : Prop :=
  ∀ k v, v ∈ values_of t1 k →
    v ∈ values_of t k ∨ ∃ x, v = upb_value.msg x ∧ msg_closed ctype t1 x

/-- Every value of the later table `t1` is a value of `t` at the same key or
one of the values `S`, and every array record of `t1` is a record of `t` at the
same key or the record of an array of `S`. -/
def table_from (t t1 : List typetable_entry) (S : List upb_value) : Prop :=
  (∀ k v, v ∈ values_of t1 k → v ∈ values_of t k ∨ v ∈ S) ∧
    (∀ k r, r ∈ arrays_of t1 k → r ∈ arrays_of t k ∨ upb_value.arr r.ptr ∈ S)

/-- Every present singular string field of the message holds a string that is
one of the contents `L`. -/
def strings_among (L : List Bytes) (x : upb_msg) : Prop :=
  ∀ fd ∈ x.fields, fd.2.1 = true → upb_isstring fd.1 = true → upb_isarray fd.1 = false →
    ∃ s, fd.2.2 = upb_value.str s ∧ s ∈ L

/-- The lookups the emission pass makes for a present field succeed and find
what the field holds: (a) the string of a singular string field is found in
the string table, under its own content; (b) for the array of a repeated field
that is not a string field, `get_or_insert_typeentry` returns an entry of the
unchanged table, the search over its array records succeeds, and the record
found has that very array as its source; (c) for the message of a singular
submessage field, likewise with the search over the values, and the slot found
holds that very message. -/
def field_resolves (ctype : Nat → Bytes) (strings : List strtable_entry)
    (types : List typetable_entry) (fd : upb_fielddef × Bool × upb_value) : Prop :=
  fd.2.1 = true →
    (upb_isstring fd.1 = true → upb_isarray fd.1 = false →
      ∃ s str_e, fd.2.2 = upb_value.str s ∧ upb_strtable_lookup strings s = some str_e ∧
        str_e.key = s) ∧
    (upb_isstring fd.1 = false → upb_isarray fd.1 = true →
      ∃ a type_e k r, fd.2.2 = upb_value.arr a ∧
        get_or_insert_typeentry ctype types fd.1 = (types, type_e) ∧
        find_array type_e.arrays a = some k ∧ type_e.arrays[k]? = some r ∧ r.ptr = a) ∧
    (upb_isarray fd.1 = false → upb_issubmsg fd.1 = true →
      ∃ m type_e k, fd.2.2 = upb_value.msg m ∧
        get_or_insert_typeentry ctype types fd.1 = (types, type_e) ∧
        find_value type_e.values m = some k ∧ type_e.values[k]? = some (upb_value.msg m))

/-- The field is a present repeated string field, the case `write_message_c`
does not support. -/
def unsupported_field (fd : upb_fielddef × Bool × upb_value) : Bool :=
  fd.2.1 && upb_isstring fd.1 && upb_isarray fd.1

/-- The value is printed as a message (the field of its entry is a submessage
field) and the message has a present repeated string field. -/
def unsupported_value (field : upb_fielddef) (v : upb_value) : Bool :=
  upb_issubmsg field &&
    match v with
    | .msg x => x.fields.any unsupported_field
    | _ => false

/-- Some value of the entry is printed as a message with a present repeated
string field. -/
def unsupported_entry (e : typetable_entry) : Bool :=
  e.values.any (unsupported_value e.field)

/-- The lookups the emission pass makes for a present field succeed: the string
of a singular string field is in the string table, and for an array or a
singular submessage `get_or_insert_typeentry` returns an entry of the
unchanged table and the search succeeds. -/
def field_found (ctype : Nat → Bytes) (strings : List strtable_entry)
    (types : List typetable_entry) (fd : upb_fielddef × Bool × upb_value) : Prop :=
  fd.2.1 = true →
    (upb_isstring fd.1 = true → upb_isarray fd.1 = false →
      ∃ s str_e, fd.2.2 = upb_value.str s ∧ upb_strtable_lookup strings s = some str_e) ∧
    (upb_isstring fd.1 = false → upb_isarray fd.1 = true →
      ∃ a type_e k, fd.2.2 = upb_value.arr a ∧
        get_or_insert_typeentry ctype types fd.1 = (types, type_e) ∧
        find_array type_e.arrays a = some k) ∧
    (upb_isarray fd.1 = false → upb_issubmsg fd.1 = true →
      ∃ m type_e k, fd.2.2 = upb_value.msg m ∧
        get_or_insert_typeentry ctype types fd.1 = (types, type_e) ∧
        find_value type_e.values m = some k)

/-- When the run has stopped with the message about string arrays, the last
thing written is the name of a present repeated string field. -/
def stopped_at_field (s : emitter) : Prop :=
  s.status = .unsupported →
    ∃ fd, unsupported_field fd = true ∧ s.stream.getLast? = some (item.field_name fd.1.name)

mutual
/-- Every present repeated field of the message, and of every message the
traversal meets below it, is a string field or a submessage field. -/
def no_scalar_arrays : upb_msg → Bool
  | .mk _ _ fields => no_scalar_arrays_fields fields
/-- The same for a list of field slots. -/
def no_scalar_arrays_fields : List (upb_fielddef × Bool × upb_value) → Bool
  | [] => true
  | (f, isset, p) :: rest =>
    (if isset then
      if upb_isarray f then
        upb_isstring f ||
          (upb_issubmsg f &&
            match p with
            | .arr (.mk _ elements) => no_scalar_arrays_elements elements
            | _ => true)
      else
        match p with
        | .msg m => no_scalar_arrays m
        | _ => true
    else true) && no_scalar_arrays_fields rest
/-- The same for the elements of an array. -/
def no_scalar_arrays_elements : List upb_value → Bool
  | [] => true
  | .msg m :: rest => no_scalar_arrays m && no_scalar_arrays_elements rest
  | _ :: rest => no_scalar_arrays_elements rest
end

/-- Every entry of the table was created for a submessage field. -/
def fields_submsg (t : List typetable_entry) : Prop :=
  ∀ k e, types_lookup t k = some e → upb_issubmsg e.field = true

/-- A message with one present field, a repeated string field holding one
string: `{tags = ["x"]}`. -/
def string_array_msg : upb_msg :=
  .mk 1 [77]
    [({ name := [116, 97, 103, 115], number := 1, label := 3, type := 9, def_fqname := [] },
      true, .arr (.mk 2 [.str [120]]))]

/-- A message with one present field, a repeated `int32` field holding the one
element 7: `{f = [7]}`. -/
def int32_array_msg : upb_msg :=
  .mk 1 [77] [(example_int32s, true, .arr (.mk 2 [.scalar 7]))]

/-! ## The header of constants -/

/-- The C library function `toupper` in the "C" locale, on a byte: the letters
`a`..`z` become `A`..`Z`, every other byte (the bytes above 127 included) is
unchanged. -/
def toupper (c : Nat) : Nat := if 97 ≤ c ∧ c ≤ 122 then c - 32 else c

/-- The function `to_preproc`: `to_cident`, then `toupper` on every byte. -/
def to_preproc (str : Bytes) : Bytes := (to_cident str).map toupper

/-- The loop of `my_memrchr`, from the index `off`:
`while(off > 0 && data[off] != c) --off;`. -/
def my_memrchr_loop (data : Bytes) (c : Nat) : Nat → Nat
  | 0 => 0
  | off + 1 => if data[off + 1]? = some c then off + 1 else my_memrchr_loop data c off

/-- The function `my_memrchr`: `off` starts at `len - 1` (that is `-1` for an
empty string, where the loop does not run) and the loop stops at index 0 or at
the last index that holds `c`. -/
def my_memrchr (data : Bytes) (c : Nat) (len : Nat) : Int :=
  if len = 0 then -1 else (my_memrchr_loop data c (len - 1) : Nat)

/-- Modelled from the spec: the macro `UPB_SYMBOL_SEPARATOR` (declared in
`upb_def.h`), the separator `.` of fully-qualified names. -/
def UPB_SYMBOL_SEPARATOR : Nat := 46

/-- The string `enum_val_prefix` of `write_const_h`: a copy of the
fully-qualified name whose `byte_len` (a `uint32_t`) is set to the result of
`my_memrchr` and incremented, converted with `to_preproc`. -/
def enum_val_prefix (fqname : Bytes) : Bytes :=
  let byte_len : Int := my_memrchr fqname UPB_SYMBOL_SEPARATOR fqname.length % 4294967296
  to_preproc (fqname.take ((byte_len + 1) % 4294967296).toNat)

/-- The part of `struct upb_msgdef` that `write_h` reads: the fully-qualified
name, `set_flags_bytes` and the fields in their order. -/
structure upb_msgdef where
  fqname : Bytes
  set_flags_bytes : Nat
  fields : List upb_fielddef

/-- A definition handed to `write_h` and `write_const_h`: an enum with its
fully-qualified name and its values (name and number, in the order of the
iteration), a message definition, or a definition of another kind. -/
inductive upb_def where
  | enumdef (fqname : Bytes) (values : List (Bytes × Nat))
  | other (fqname : Bytes)
  | msgdef (m : upb_msgdef)

/-- One group of writes to the stream of `write_const_h`. -/
inductive const_item where
  /-- The head of the file: the comment, `#ifndef` and `#define` of the include
  guard, and the opening of `extern "C"`. -/
  | prologue (include_guard_name : Bytes)
  /-- The line `typedef enum <enum_name> {`. -/
  | enum_begin (enum_name : Bytes)
  /-- The line `  <enum_val_prefix><value_name> = <val>`. -/
  | enum_value ( enum_val_prefix : Bytes) (value_name : Bytes) (val : Nat)
  /-- The line `} <enum_name>;`. -/
  | enum_end (enum_name : Bytes)
  /-- The end of the file. -/
  | epilogue (include_guard_name : Bytes)
deriving DecidableEq, Repr

/-- The name written for a constant: the prefix followed by the value name. -/
def const_item.constant_name : const_item → Option Bytes
  | .enum_value p v _ => some (p ++ v)
  | _ => none

/-- The body of the loop over the definitions in `write_const_h`: nothing for
a definition that is not an enum. -/
def write_enum : upb_def → List const_item
  | .other _ => []
  | .msgdef _ => []
  | .enumdef fqname values =>
    let enum_name := to_cident fqname
    [.enum_begin enum_name] ++
      values.map (fun v => .enum_value ( enum_val_prefix fqname) (to_preproc v.1) v.2) ++
      [.enum_end enum_name]

/-- The function `write_const_h`. The include guard is the name of the output
file converted with `to_preproc`, with `C` stored in its last byte; with an
empty file name that store is outside the string (`none`). -/
def write_const_h (defs : List upb_def) (outfile_name : Bytes) : Option (List const_item) :=
  match outfile_name with
  | [] => none
  | _ :: _ =>
    let include_guard_name := (to_preproc outfile_name).dropLast ++ [67]
    some ([.prologue include_guard_name] ++ defs.flatMap write_enum ++
      [.epilogue include_guard_name])

/-- The scope prefix of a fully-qualified name, in the words of the
specification: the part up to and including the last separator `.`; empty when
the name has no separator. -/
def scope_prefix : Bytes → Bytes
  | [] => []
  | c :: rest =>
    if UPB_SYMBOL_SEPARATOR ∈ rest then c :: scope_prefix rest
    else if c = UPB_SYMBOL_SEPARATOR then [c] else []

/-- The enum `Color` with the one value `RED = 0`, defined without a package. -/
def color_enum : upb_def := .enumdef [67, 111, 108, 111, 114] [([82, 69, 68], 0)]

/-- The name `foo.bar.Baz`. -/
def foo_bar_baz : Bytes := [102, 111, 111, 46, 98, 97, 114, 46, 66, 97, 122]

/-- A message with one present field, a repeated `int32` field holding no
element: `{f = []}`. -/
def empty_int32_array_msg : upb_msg :=
  .mk 1 [77] [(example_int32s, true, .arr (.mk 2 []))]

/-- The entry a line of the stream begins to declare: the C identifier and the
`values_len` of a forward declaration. -/
def item.decl_line : item → Option (Bytes × Nat)
  | .forward_decl cident values_len => some (cident, values_len)
  | _ => none

/-- The entry a line of the stream begins to define: the C identifier and the
`values_len` of the opening line of a values table. -/
def item.def_line : item → Option (Bytes × Nat)
  | .values_begin cident values_len => some (cident, values_len)
  | _ => none

/-- The entries in the order in which the stream declares them. -/
def decl_order (stream : List item) : List (Bytes × Nat) := stream.filterMap item.decl_line

/-- The entries in the order in which the stream defines their values. -/
def def_order (stream : List item) : List (Bytes × Nat) := stream.filterMap item.def_line

/-- The later state of the emission pass declares and defines the same entries
as the earlier one: what was written in between opens no declaration and no
values table. -/
def same_order (a b : emitter) : Prop :=
  decl_order b.stream = decl_order a.stream ∧ def_order b.stream = def_order a.stream

/-! ## The header of message types -/

/-- The table `labels` of `write_h`. -/
def labels : Nat → Bytes
  | 1 => [111, 112, 116, 105, 111, 110, 97, 108]
  | 2 => [114, 101, 113, 117, 105, 114, 101, 100]
  | 3 => [114, 101, 112, 101, 97, 116, 101, 100]
  | _ => []

/-- The table `c_types` of `write_h` for repeated fields: the storage type by
field type number. -/
def c_types_repeated : Nat → Bytes
  | 1 => [115, 116, 114, 117, 99, 116, 32, 117, 112, 98, 95, 100, 111, 117, 98, 108, 101, 95,
          97, 114, 114, 97, 121, 42]
  | 2 => [115, 116, 114, 117, 99, 116, 32, 117, 112, 98, 95, 102, 108, 111, 97, 116, 95, 97,
          114, 114, 97, 121, 42]
  | 3 => [115, 116, 114, 117, 99, 116, 32, 117, 112, 98, 95, 105, 110, 116, 54, 52, 95, 97,
          114, 114, 97, 121, 42]
  | 4 => [115, 116, 114, 117, 99, 116, 32, 117, 112, 98, 95, 117, 105, 110, 116, 54, 52, 95,
          97, 114, 114, 97, 121, 42]
  | 5 => [115, 116, 114, 117, 99, 116, 32, 117, 112, 98, 95, 105, 110, 116, 51, 50, 95, 97,
          114, 114, 97, 121, 42]
  | 6 => [115, 116, 114, 117, 99, 116, 32, 117, 112, 98, 95, 117, 105, 110, 116, 54, 52, 95,
          97, 114, 114, 97, 121, 42]
  | 7 => [115, 116, 114, 117, 99, 116, 32, 117, 112, 98, 95, 117, 105, 110, 116, 51, 50, 95,
          97, 114, 114, 97, 121, 42]
  | 8 => [115, 116, 114, 117, 99, 116, 32, 117, 112, 98, 95, 98, 111, 111, 108, 95, 97, 114,
          114, 97, 121, 42]
  | 9 => [115, 116, 114, 117, 99, 116, 32, 117, 112, 98, 95, 115, 116, 114, 105, 110, 103, 95,
          97, 114, 114, 97, 121, 42]
  | 12 => [115, 116, 114, 117, 99, 116, 32, 117, 112, 98, 95, 115, 116, 114, 105, 110, 103,
           95, 97, 114, 114, 97, 121, 42]
  | 13 => [115, 116, 114, 117, 99, 116, 32, 117, 112, 98, 95, 117, 105, 110, 116, 51, 50, 95,
           97, 114, 114, 97, 121, 42]
  | 14 => [115, 116, 114, 117, 99, 116, 32, 117, 112, 98, 95, 117, 105, 110, 116, 51, 50, 95,
           97, 114, 114, 97, 121, 42]
  | 15 => [115, 116, 114, 117, 99, 116, 32, 117, 112, 98, 95, 105, 110, 116, 51, 50, 95, 97,
           114, 114, 97, 121, 42]
  | 16 => [115, 116, 114, 117, 99, 116, 32, 117, 112, 98, 95, 105, 110, 116, 54, 52, 95, 97,
           114, 114, 97, 121, 42]
  | 17 => [115, 116, 114, 117, 99, 116, 32, 117, 112, 98, 95, 105, 110, 116, 51, 50, 95, 97,
           114, 114, 97, 121, 42]
  | 18 => [115, 116, 114, 117, 99, 116, 32, 117, 112, 98, 95, 105, 110, 116, 54, 52, 95, 97,
           114, 114, 97, 121, 42]
  | _ => []

/-- Modelled from the spec: the constant
`GOOGLE_PROTOBUF_FIELDDESCRIPTORPROTO_LABEL_REPEATED` (declared in
`descriptor.h`), the label number of repeated fields, the index of `repeated`
in the table `labels`. -/
def LABEL_REPEATED : Nat := 3

/-- One group of writes to the stream of `write_h`. -/
inductive h_item where
  /-- The head of the file: the comment, the include guard, the `#include`, the
  opening of `extern "C"`, and the declaration of the descriptor when a C
  identifier was given. -/
  | prologue (include_guard_name : Bytes) (descriptor_cident : Option Bytes)
  /-- The lines `struct <msg_name>;` and `typedef struct <msg_name> <msg_name>;`. -/
  | forward (msg_name : Bytes)
  /-- The opening of a message struct up to `uint8_t bytes[<set_flags_bytes>];`
  and `struct {`. -/
  | struct_begin (msg_name : Bytes) (set_flags_bytes : Nat)
  /-- The line `bool <name>:1;  /* = <number>, <label>. */`. -/
  | has_bit (name : Bytes) (number : Nat) (label : Bytes)
  /-- The lines `} has;` and `} set_flags;`. -/
  | has_end
  /-- The line `  <storage type> <name>;` of a field. -/
  | member (storage : Bytes) (name : Bytes)
  /-- The lines `};` and `UPB_DEFINE_MSG_ARRAY(<msg_name>)`. -/
  | struct_end (msg_name : Bytes)
  /-- The end of the file. -/
  | epilogue (include_guard_name : Bytes)
deriving DecidableEq, Repr

/-- The storage type `write_h` declares for a field: for a submessage field the
C identifier of the message type, as `UPB_MSG_ARRAY(<type_name>)*` when the
field is repeated and as `<type_name>*` otherwise; for another field the entry
of the table `c_types` for repeated fields, or of the one for singular
fields. -/
def storage_type (f : upb_fielddef) : Bytes :=
  if upb_issubmsg f then
    let type_name := to_cident f.def_fqname
    if f.label = LABEL_REPEATED then
      [85, 80, 66, 95, 77, 83, 71, 95, 65, 82, 82, 65, 89, 40] ++ type_name ++ [41, 42]
    else type_name ++ [42]
  else if f.label = LABEL_REPEATED then c_types_repeated f.type
  else c_types f.type

/-- The lines `write_h` writes for the definition of one message. -/
def write_msg_struct (m : upb_msgdef) : List h_item :=
  let msg_name := to_cident m.fqname
  [.struct_begin msg_name m.set_flags_bytes] ++
    m.fields.map (fun f => .has_bit f.name f.number (labels f.label)) ++
    [.has_end] ++
    m.fields.map (fun f => .member (storage_type f) f.name) ++
    [.struct_end msg_name]

/-- The function `write_h`: the forward declarations of all message types, then
the message definitions. A field whose `label` is outside the table `labels`
or whose `type` is outside the tables `c_types` is a read outside the table
(`none`). -/
def write_h (defs : List upb_def) (outfile_name : Bytes) (descriptor_cident : Option Bytes) :
    Option (List h_item) :=
  let msgs := defs.filterMap (fun d => match d with | .msgdef m => some m | _ => none)
  if msgs.all (fun m => m.fields.all (fun f => decide (f.label ≤ 3) &&
      (upb_issubmsg f || decide (f.type ≤ 18)))) then
    some ([.prologue (to_preproc outfile_name) descriptor_cident] ++
      msgs.map (fun m => .forward (to_cident m.fqname)) ++
      msgs.flatMap write_msg_struct ++
      [.epilogue (to_preproc outfile_name)])
  else none

/-- The array type of a storage type, in the words of the specification:
`double` and `upb_double_array`, `int32_t` and `upb_int32_array`,
`struct upb_string*` and `upb_string_array`: the name without its ending `_t`
(for the string pointer, `string`) between `struct upb_` and `_array*`. -/
def array_type_of (storage : Bytes) : Bytes :=
  let base : Bytes :=
    if storage = [115, 116, 114, 117, 99, 116, 32, 117, 112, 98, 95, 115, 116, 114, 105, 110,
        103, 42] then [115, 116, 114, 105, 110, 103]
    else if storage.drop (storage.length - 2) = [95, 116] then storage.dropLast.dropLast
    else storage
  [115, 116, 114, 117, 99, 116, 32, 117, 112, 98, 95] ++ base ++ [95, 97, 114, 114, 97, 121, 42]

/-- The field type numbers 1 to 18. -/
def field_types : List Nat := List.range' 1 18

/-- A message type `M` with a singular and a repeated field of an enum type:
`optional E a = 1; repeated E b = 2;`. -/
def enum_fields_msg : upb_msgdef :=
  { fqname := [77], set_flags_bytes := 1,
    fields :=
      [{ name := [97], number := 1, label := 1, type := 14, def_fqname := [69] },
       { name := [98], number := 2, label := 3, type := 14, def_fqname := [69] }] }

/-! ## The command line -/

/-- How a run of `main` ends: with one of the calls of `usage_err` or of
`error` (both end in `exit(1)`), inside one of the writers, or with `return 0`. -/
inductive main_exit where
  /-- The message `-o must be followed by a FILE-BASE.` -/
  | usage_o_needs_base
  /-- The message `-o was specified multiple times.` -/
  | usage_o_multiple
  /-- The message `-i must be followed by a C-IDENTIFIER.` -/
  | usage_i_needs_identifier
  /-- The message `-i was specified multiple times.` -/
  | usage_i_multiple
  /-- The message `You can only specify one input file.` -/
  | usage_one_input_file
  /-- The message `You must specify an input file.` -/
  | usage_no_input_file
  /-- The message `Couldn't read input file.` -/
  | read_failed
  /-- The message `Failed to parse input file descriptor`. -/
  | parse_failed
  /-- The message `Failed to add descriptor`. -/
  | add_desc_failed
  /-- The message `File base too long.` -/
  | file_base_too_long
  /-- The message `Failed to open .h output file`, from the open of the `.h`
  file. -/
  | open_h_failed
  /-- The message `Failed to open _const.h output file`. -/
  | open_const_failed
  /-- The message `Failed to open .h output file`, from the open of the `.c`
  file. -/
  | open_c_failed
  /-- A read or a store outside a string or a table in `write_h` or
  `write_const_h`. -/
  | header_fault
  /-- The run of `write_message_c` stopped with the given status. -/
  | data_stopped (st : run_status)
  /-- The statement `return 0`. -/
  | returned
deriving DecidableEq, Repr

/-- The three variables the argument loop of `main` fills. -/
structure main_args where
  outfile_base : Option Bytes
  input_file : Option Bytes
  cident : Option Bytes
deriving DecidableEq, Repr

/-- The argument loop of `main`, over `argv[1]`, ..., `argv[argc - 1]`. -/
def parse_args : List Bytes → main_args → Except main_exit main_args
  | [], a => .ok a
  | arg :: rest, a =>
    if arg = [45, 111] then
      match rest with
      | [] => .error .usage_o_needs_base
      | base :: rest1 =>
        if a.outfile_base.isSome then .error .usage_o_multiple
        else parse_args rest1 { a with outfile_base := some base }
    else if arg = [45, 105] then
      match rest with
      | [] => .error .usage_i_needs_identifier
      | ident :: rest1 =>
        if a.cident.isSome then .error .usage_i_multiple
        else parse_args rest1 { a with cident := some ident }
    else if a.input_file.isSome then .error .usage_one_input_file
    else parse_args rest { a with input_file := some arg }

/-- The C library function `snprintf` with the format `%s<suffix>`: what is
stored in the buffer of `maxsize` bytes (at most `maxsize - 1` bytes before the
terminating zero) and the value returned, the length of the whole text. -/
def snprintf (maxsize : Nat) (s suffix : Bytes) : Bytes × Nat :=
  ((s ++ suffix).take (maxsize - 1), (s ++ suffix).length)

/-- The constant `maxsize` of `main`. -/
def maxsize : Nat := 256

/-- What `main` takes from outside: whether `upb_strreadfile` reads a file,
whether `upb_msg_parsestr` and `upb_symtab_add_desc` succeed, the parsed
descriptor set and the definitions of the symbol table, whether `fopen`
opens a file for writing, and the table of C type names. -/
structure main_world where
  readfile : Bytes → Bool
  parse_ok : Bool
  add_desc_ok : Bool
  fds_msg : upb_msg
  defs : List upb_def
  fopen : Bytes → Bool
  ctype : Nat → Bytes

/-- The outcome of a run of `main`: how it ended and the names of the files it
has opened for writing, in the order of the opens. -/
structure main_run where
  exit : main_exit
  opened : List Bytes

/-- The end of `main`, after the three file names are made: the opens of the
output files and the calls of the writers. -/
def emit_output_files (argv : List Bytes) (w : main_world) (a : main_args) (input_file : Bytes)
    (h_filename c_filename h_const_filename : Bytes) : main_run :=
  if !w.fopen h_filename then { exit := .open_h_failed, opened := [] }
  else if !w.fopen h_const_filename then { exit := .open_const_failed, opened := [h_filename] }
  else
    match write_h w.defs h_filename a.cident, write_const_h w.defs h_filename with
    | some _, some _ =>
      match a.cident with
      | none => { exit := .returned, opened := [h_filename, h_const_filename] }
      | some cident =>
        if !w.fopen c_filename then
          { exit := .open_c_failed, opened := [h_filename, h_const_filename] }
        else
          match (write_message_c w.ctype w.fds_msg cident h_filename argv input_file).status with
          | .ok => { exit := .returned, opened := [h_filename, h_const_filename, c_filename] }
          | st =>
            { exit := .data_stopped st, opened := [h_filename, h_const_filename, c_filename] }
    | _, _ => { exit := .header_fault, opened := [h_filename, h_const_filename] }

/-- The function `main`. -/
def main (argv : List Bytes) (w : main_world) : main_run :=
  match parse_args argv.tail { outfile_base := none, input_file := none, cident := none } with
  | .error e => { exit := e, opened := [] }
  | .ok a =>
    match a.input_file with
    | none => { exit := .usage_no_input_file, opened := [] }
    | some input_file =>
      let outfile_base := a.outfile_base.getD input_file
      if !w.readfile input_file then { exit := .read_failed, opened := [] }
      else if !w.parse_ok then { exit := .parse_failed, opened := [] }
      else if !w.add_desc_ok then { exit := .add_desc_failed, opened := [] }
      else
        let h_filename := snprintf maxsize outfile_base [46, 104]
        let c_filename := snprintf maxsize outfile_base [46, 99]
        let h_const_filename := snprintf maxsize outfile_base [95, 99, 111, 110, 115, 116, 46, 104]
        if h_filename.2 ≥ maxsize ∨ c_filename.2 ≥ maxsize ∨ h_const_filename.2 ≥ maxsize then
          { exit := .file_base_too_long, opened := [] }
        else
          emit_output_files argv w a input_file h_filename.1 c_filename.1 h_const_filename.1

/-- A world in which every outside step succeeds, with the scenario `Person`
as the parsed message and no definitions. -/
def example_world : main_world :=
  { readfile := fun _ => true, parse_ok := true, add_desc_ok := true,
    fds_msg := person_root, defs := [], fopen := fun _ => true, ctype := c_types }

/-- A file base of 248 bytes: 248 times the letter `a`. -/
def long_base : Bytes := List.replicate 248 97

/-! ## The traversal with a bound on the nesting of calls

The functions `add_strings_from_msg` and `add_submsgs` once more, as the C
functions run: every call takes one unit of a bound on the nesting of calls,
and a call that finds the bound used up has no answer (`none`). An answer
`some r` is what the call returns: `r` is `none` after a fault. -/

/-- The function `add_strings_from_value`, the call of `add_strings_from_msg`
being the given one. -/
def strings_value_with
    (call : upb_msg → List strtable_entry → Option (Option (List strtable_entry)))
    (p : upb_value) (f : upb_fielddef) (t : List strtable_entry) :
    Option (Option (List strtable_entry)) :=
  if upb_isstringtype f.type then
    match p with
    | .str s =>
      if upb_strtable_lookup t s = none then
        some (some (upb_strtable_insert t { key := s, offset := 0, num := 0 }))
      else some (some t)
    | _ => some none
  else if upb_issubmsg f then
    match p with
    | .msg m => call m t
    | _ => some none
  else some (some t)

/-- The loop over the elements of an array in `add_strings_from_msg`. -/
def strings_elements_with
    (call : upb_msg → List strtable_entry → Option (Option (List strtable_entry))) :
    List upb_value → upb_fielddef → List strtable_entry → Option (Option (List strtable_entry))
  | [], _, t => some (some t)
  | p :: rest, f, t =>
    match strings_value_with call p f t with
    | some (some t1) => strings_elements_with call rest f t1
    | r => r

/-- The loop over the fields in `add_strings_from_msg`. -/
def strings_fields_with
    (call : upb_msg → List strtable_entry → Option (Option (List strtable_entry))) :
    List (upb_fielddef × Bool × upb_value) → List strtable_entry →
      Option (Option (List strtable_entry))
  | [], t => some (some t)
  | (f, isset, p) :: rest, t =>
    if !isset then strings_fields_with call rest t
    else if upb_isarray f then
      match p with
      | .arr a =>
        match strings_elements_with call a.elements f t with
        | some (some t1) => strings_fields_with call rest t1
        | r => r
      | _ => some none
    else
      match strings_value_with call p f t with
      | some (some t1) => strings_fields_with call rest t1
      | r => r

/-- The function `add_strings_from_msg` with a bound on the nesting of its
calls. -/
def add_strings_from_msg_bounded :
    Nat → upb_msg → List strtable_entry → Option (Option (List strtable_entry))
  | 0, _, _ => none
  | n + 1, msg, t => strings_fields_with (add_strings_from_msg_bounded n) msg.fields t

/-- The second loop of the array branch of `add_submsgs`, the call of
`add_submsgs` being the given one. -/
def submsgs_elements_with
    (call : upb_msg → List typetable_entry → Option (Option (List typetable_entry))) :
    List upb_value → List typetable_entry → Option (Option (List typetable_entry))
  | [], t => some (some t)
  | p :: rest, t =>
    match p with
    | .msg m =>
      match call m t with
      | some (some t1) => submsgs_elements_with call rest t1
      | r => r
    | _ => some none

/-- The loop over the fields in `add_submsgs`. -/
def submsgs_fields_with (ctype : Nat → Bytes)
    (call : upb_msg → List typetable_entry → Option (Option (List typetable_entry))) :
    List (upb_fielddef × Bool × upb_value) → List typetable_entry →
      Option (Option (List typetable_entry))
  | [], t => some (some t)
  | (f, isset, p) :: rest, t =>
    if !isset then submsgs_fields_with ctype call rest t
    else if upb_isarray f then
      if upb_isstring f then submsgs_fields_with ctype call rest t
      else
        match p with
        | .arr a =>
          match submsgs_elements_with call a.elements
              (add_values ctype a.elements f (add_array ctype a f t)) with
          | some (some t3) => submsgs_fields_with ctype call rest t3
          | r => r
        | _ => some none
    else if !upb_issubmsg f then submsgs_fields_with ctype call rest t
    else
      match p with
      | .msg m =>
        match call m (add_value ctype p f t) with
        | some (some t2) => submsgs_fields_with ctype call rest t2
        | r => r
      | _ => some none

/-- The function `add_submsgs` with a bound on the nesting of its calls. -/
def add_submsgs_bounded (ctype : Nat → Bytes) :
    Nat → upb_msg → List typetable_entry → Option (Option (List typetable_entry))
  | 0, _, _ => none
  | n + 1, msg, t => submsgs_fields_with ctype (add_submsgs_bounded ctype n) msg.fields t

mutual
/-- The depth of an instance: the longest chain of messages, each the value of
a field (or an element of an array) of the one before, from the message
down. -/
def depth : upb_msg → Nat
  | .mk _ _ fields => depth_fields fields + 1
/-- The depth below a list of field slots. -/
def depth_fields : List (upb_fielddef × Bool × upb_value) → Nat
  | [] => 0
  | (_, _, p) :: rest => max (depth_value p) (depth_fields rest)
/-- The depth below a value. -/
def depth_value : upb_value → Nat
  | .msg m => depth m
  | .arr a => depth_array a
  | _ => 0
/-- The depth below an array. -/
def depth_array : upb_array → Nat
  | .mk _ elements => depth_elements elements
/-- The depth below the elements of an array. -/
def depth_elements : List upb_value → Nat
  | [] => 0
  | p :: rest => max (depth_value p) (depth_elements rest)
end

/-! ## What the present fields hold -/

mutual
/-- The instance with the slot of every field that is not present blanked (a
zero in its place), in the message and in every message and array below it: two
instances agree on which fields are present and on what the present fields hold
exactly when this gives the same for both. -/
def present_part : upb_msg → upb_msg
  | .mk addr fqname fields => .mk addr fqname (present_part_fields fields)
/-- The same for a list of field slots. -/
def present_part_fields :
    List (upb_fielddef × Bool × upb_value) → List (upb_fielddef × Bool × upb_value)
  | [] => []
  | (f, isset, p) :: rest =>
    (f, isset, if isset then present_part_value p else .scalar 0) :: present_part_fields rest
/-- The same for a value. -/
def present_part_value : upb_value → upb_value
  | .msg m => .msg (present_part m)
  | .arr a => .arr (present_part_array a)
  | .scalar r => .scalar r
  | .str s => .str s
/-- The same for an array. -/
def present_part_array : upb_array → upb_array
  | .mk addr elements => .mk addr (present_part_elements elements)
/-- The same for the elements of an array. -/
def present_part_elements : List upb_value → List upb_value
  | [] => []
  | p :: rest => present_part_value p :: present_part_elements rest
end

/-- An entry of the type table, with the slots of the fields that are not
present blanked in its values and in the arrays of its records. -/
def present_part_entry (e : typetable_entry) : typetable_entry :=
  { e with
    values := e.values.map present_part_value,
    arrays := e.arrays.map (fun r => { r with ptr := present_part_array r.ptr }) }

/-- A type table, with the slots of the fields that are not present blanked. -/
def present_part_table (t : List typetable_entry) : List typetable_entry :=
  t.map present_part_entry

/-- The root of the scenario `Person` with other contents in the slots of the
fields that are not present: `age` holds 42 in the root, and the slot of
`friends` of `Bob` holds a string. -/
def person_root_other : upb_msg :=
  .mk 100 person_fqname
    [(person_name, true, .str alice), (person_age, false, .scalar 42),
      (person_friends, true, .arr (.mk 200
        [.msg (.mk 101 person_fqname
            [(person_name, true, .str bob), (person_age, false, .scalar 7),
              (person_friends, false, .str alice)]),
          .msg person_alice_copy]))]

/-! ## The messages of an instance, type by type -/

/-- The value is a message of the type with the given fully-qualified name. -/
def has_fqname (k : Bytes) : upb_value → Bool
  | .msg m => decide (m.fqname = k)
  | _ => false

/-- The messages of the type `k` among the values, in their order. -/
def instances_of (k : Bytes) (l : List upb_value) : List upb_value := l.filter (has_fqname k)

/-- The root of an instance followed by what the traversal meets below it. -/
def tree_nodes (msg : upb_msg) : List upb_value := .msg msg :: walked msg

/-! ## The enumeration of the type table -/

/-- The function `write_message_c`, with the order in which
`upb_strtable_begin` / `upb_strtable_next` enumerate the type table as a
parameter: the loop of the forward declarations and the loop of the
definitions run over `enumerate types`. The enumeration of a hash table is
decided by the table, which is not part of this file; `write_message_c` is the
case of the order of creation. -/
def write_message_c_by (enumerate : List typetable_entry → List typetable_entry)
    (ctype : Nat → Bytes) (msg : upb_msg) (cident : Bytes)
    (hfile_name : Bytes) (argv : List Bytes) (infile_name : Bytes) : emitter :=
  let s0 : emitter :=
    { types := [], stream := [.prologue argv infile_name hfile_name], status := .ok }
  match add_strings_from_msg msg [] with
  | none => s0.stop .fault
  | some strings0 =>
    let strings := str_entries strings0
    let s1 := emit_strings strings s0
    match gather_types ctype msg with
    | none => s1.stop .fault
    | some types =>
      emit_root ctype msg cident
        (emit_each (emit_def ctype strings) (enumerate types)
          (emit_each emit_decl (enumerate types) (s1.set_types types)))

/-- The inner loop of the string data in `write_message_c`, over the bytes of
all entries one after the other, from the column `col`: before a byte that
would reach column 80 the literal is closed and reopened on a new line (the
text `"`, newline, two blanks, `"`) and `col` becomes 3; the byte itself is
written as it is, by `fputc`. -/
def strdata_chars : Bytes → Nat → Bytes
  | [], _ => []
  | c :: rest, col =>
    if col + 1 = 80 then [34, 10, 32, 32, 34] ++ c :: strdata_chars rest 3
    else c :: strdata_chars rest (col + 1)

/-- The text `write_message_c` writes between `static char strdata[] =` and the
closing `;`: a newline, two blanks, the opening `"`, the bytes of the entries
with the line breaks of `strdata_chars`, and the closing `"`. -/
def strdata_initializer (strings : List strtable_entry) : Bytes :=
  [10, 32, 32, 34] ++ strdata_chars (strings.flatMap (fun e => e.key)) 2 ++ [34]

/-- Where the reading of a sequence of C string literals stands: between two
literals, inside a literal, after a backslash, in an octal escape (the value
so far and the number of digits it may still take), or in a hexadecimal escape
(the value so far and the number of its digits). -/
inductive c_mode where
  | outside
  | inside
  | escape
  | octal (val : Nat) (left : Nat)
  | hex (val : Nat) (digits : Nat)

/-- The value of an octal digit. -/
def octal_digit (c : Nat) : Option Nat :=
  if 48 ≤ c ∧ c ≤ 55 then some (c - 48) else none

/-- The value of a hexadecimal digit. -/
def hex_digit (c : Nat) : Option Nat :=
  if 48 ≤ c ∧ c ≤ 57 then some (c - 48)
  else if 97 ≤ c ∧ c ≤ 102 then some (c - 87)
  else if 65 ≤ c ∧ c ≤ 70 then some (c - 55)
  else none

/-- The simple escape sequences of C: the byte denoted by the character after
the backslash (`n`, `t`, `r`, `a`, `b`, `f`, `v`, `\`, `'`, `"`, `?`). -/
def simple_escape (c : Nat) : Option Nat :=
  if c = 110 then some 10 else if c = 116 then some 9 else if c = 114 then some 13
  else if c = 97 then some 7 else if c = 98 then some 8 else if c = 102 then some 12
  else if c = 118 then some 11 else if c = 92 then some 92 else if c = 39 then some 39
  else if c = 34 then some 34 else if c = 63 then some 63 else none

/-- One character inside a string literal: `"` closes the literal, `\` opens an
escape sequence, a newline is not allowed, every other character denotes
itself. -/
def c_step_inside (c : Nat) : Option (c_mode × Bytes) :=
  if c = 34 then some (.outside, [])
  else if c = 92 then some (.escape, [])
  else if c = 10 then none
  else some (.inside, [c])

/-- One character of the text: the next mode and the bytes denoted so far by
what has been read; `none` when the text is not a sequence of string
literals. -/
def c_step : c_mode → Nat → Option (c_mode × Bytes)
  | .outside, c =>
    if c = 32 ∨ c = 10 ∨ c = 9 ∨ c = 13 then some (.outside, [])
    else if c = 34 then some (.inside, [])
    else none
  | .inside, c => c_step_inside c
  | .escape, c =>
    match simple_escape c with
    | some b => some (.inside, [b])
    | none =>
      match octal_digit c with
      | some d => some (.octal d 2, [])
      | none => if c = 120 then some (.hex 0 0, []) else none
  | .octal val left, c =>
    match (if left = 0 then none else octal_digit c) with
    | some d => some (.octal (val * 8 + d) (left - 1), [])
    | none =>
      if val < 256 then (c_step_inside c).map (fun r => (r.1, val :: r.2)) else none
  | .hex val digits, c =>
    match hex_digit c with
    | some d => some (.hex (val * 16 + d) (digits + 1), [])
    | none =>
      if digits = 0 ∨ 256 ≤ val then none
      else (c_step_inside c).map (fun r => (r.1, val :: r.2))

/-- The reading of a text as a sequence of adjacent string literals, from the
given mode: the bytes the literals denote, one after the other. -/
def c_scan : c_mode → Bytes → Option Bytes
  | .outside, [] => some []
  | _, [] => none
  | m, c :: rest =>
    match c_step m c with
    | none => none
    | some r => (c_scan r.1 rest).map (fun out => r.2 ++ out)

/-- The C language, not this program: the array that the definition
`char strdata[] = <text>;` defines, when the text is a sequence of adjacent
string literals: the bytes the literals denote (escape sequences read as C
reads them; trigraphs are not replaced) followed by the terminating zero. -/
def c_char_array (text : Bytes) : Option Bytes :=
  (c_scan .outside text).map (fun bytes => bytes ++ [0])

/-- What a record `{.ptr = &strdata[offset], .byte_len = byte_len}` denotes in
the array `strdata`. -/
def record_bytes (strdata : Bytes) (offset byte_len : Nat) : Bytes :=
  (strdata.drop offset).take byte_len

/-- The byte needs no escape in a string literal: it is not `"`, not `\` and
not a newline. -/
def plain_byte (c : Nat) : Bool := c != 34 && c != 92 && c != 10

/-- A message with two present string fields, the first one holding a
backslash and the letter `n`: `{a = "\n", b = "z"}` with the two bytes 92, 110
in `a`. -/
def backslash_msg : upb_msg :=
  .mk 1 [77]
    [({ name := [97], number := 1, label := 1, type := 9, def_fqname := [] }, true,
        .str [92, 110]),
     ({ name := [98], number := 2, label := 1, type := 9, def_fqname := [] }, true,
        .str [122])]

/-! ## Theorems -/

/-! ### The type table as a map -/

theorem types_lookup_key {t : List typetable_entry} {k : Bytes} {e : typetable_entry}
    (h : types_lookup t k = some e) : e.key = k := by
  have := List.find?_some h
  simpa using this

theorem types_lookup_mem {t : List typetable_entry} {k : Bytes} {e : typetable_entry}
    (h : types_lookup t k = some e) : e ∈ t :=
  List.mem_of_find?_eq_some h

theorem types_lookup_cons (x : typetable_entry) (t : List typetable_entry) (k : Bytes) :
    types_lookup (x :: t) k = if x.key = k then some x else types_lookup t k := by
  unfold types_lookup
  by_cases h : x.key = k <;> simp [List.find?_cons, h]

theorem types_store_same :
    ∀ (t : List typetable_entry) (e x : typetable_entry),
      types_lookup t e.key = some x → types_lookup (types_store t e) e.key = some e
  | [], e, x, h => by simp [types_lookup] at h
  | y :: t, e, x, h => by
    rw [types_lookup_cons] at h
    unfold types_store
    by_cases hy : y.key = e.key
    · simp [hy, types_lookup_cons]
    · simp only [hy, if_false] at h ⊢
      rw [types_lookup_cons]
      simp only [hy, if_false]
      exact types_store_same t e x h

theorem types_store_other :
    ∀ (t : List typetable_entry) (e : typetable_entry) (k : Bytes),
      k ≠ e.key → types_lookup (types_store t e) k = types_lookup t k
  | [], e, k, _ => by simp [types_store]
  | y :: t, e, k, h => by
    unfold types_store
    by_cases hy : y.key = e.key
    · have hyk : ¬ y.key = k := fun h1 => h (h1.symm.trans hy)
      have hek : ¬ e.key = k := fun h1 => h h1.symm
      simp [hy, types_lookup_cons, hek]
    · simp only [hy, if_false]
      rw [types_lookup_cons, types_lookup_cons, types_store_other t e k h]

theorem types_insert_lookup (t : List typetable_entry) (e : typetable_entry) (k : Bytes) :
    types_lookup (types_insert t e) k =
      match types_lookup t k with
      | some x => some x
      | none => if e.key = k then some e else none := by
  unfold types_lookup types_insert
  rw [List.find?_append]
  cases h : List.find? (fun e => decide (e.key = k)) t with
  | some x => simp
  | none =>
    by_cases hk : e.key = k <;> simp [List.find?_cons, hk]

/-- What `get_or_insert_typeentry` returns is the entry of the returned table
for the type key; the entries for the other keys are those of the old table. -/
theorem get_or_insert_spec (ctype : Nat → Bytes) (t : List typetable_entry) (f : upb_fielddef) :
    types_lookup (get_or_insert_typeentry ctype t f).1 (type_name ctype f) =
        some (get_or_insert_typeentry ctype t f).2 ∧
      (∀ k, k ≠ type_name ctype f →
        types_lookup (get_or_insert_typeentry ctype t f).1 k = types_lookup t k) := by
  unfold get_or_insert_typeentry
  cases h : types_lookup t (type_name ctype f) with
  | some e => simp [h]
  | none =>
    have h1 := types_insert_lookup t
      { key := type_name ctype f, field := f, cident := to_cident (type_name ctype f),
        values := [], values_size := 0, arrays := [], arrays_size := 0 } (type_name ctype f)
    simp only [h, if_true] at h1
    simp only [h1]
    refine ⟨trivial, ?_⟩
    intro k hk
    rw [types_insert_lookup]
    cases types_lookup t k with
    | some x => rfl
    | none => simp [Ne.symm hk]

theorem get_or_insert_found (ctype : Nat → Bytes) (t : List typetable_entry) (f : upb_fielddef)
    (e : typetable_entry) (h : types_lookup t (type_name ctype f) = some e) :
    get_or_insert_typeentry ctype t f = (t, e) := by
  unfold get_or_insert_typeentry
  simp [h]

theorem get_or_insert_new (ctype : Nat → Bytes) (t : List typetable_entry) (f : upb_fielddef)
    (h : types_lookup t (type_name ctype f) = none) :
    (get_or_insert_typeentry ctype t f).2 =
      { key := type_name ctype f, field := f, cident := to_cident (type_name ctype f),
        values := [], values_size := 0, arrays := [], arrays_size := 0 } := by
  have h1 := types_insert_lookup t
    { key := type_name ctype f, field := f, cident := to_cident (type_name ctype f),
      values := [], values_size := 0, arrays := [], arrays_size := 0 } (type_name ctype f)
  simp only [h, if_true] at h1
  unfold get_or_insert_typeentry
  simp only [h, h1]

/-- What the entry returned by `get_or_insert_typeentry` holds, in terms of the
old table. -/
theorem get_or_insert_entry (ctype : Nat → Bytes) (t : List typetable_entry) (f : upb_fielddef) :
    (get_or_insert_typeentry ctype t f).2.values = values_of t (type_name ctype f) ∧
      (get_or_insert_typeentry ctype t f).2.arrays = arrays_of t (type_name ctype f) ∧
      (get_or_insert_typeentry ctype t f).2.key = type_name ctype f ∧
      (∀ e, types_lookup t (type_name ctype f) = some e →
        (get_or_insert_typeentry ctype t f).2 = e) ∧
      (types_lookup t (type_name ctype f) = none →
        (get_or_insert_typeentry ctype t f).2.field = f ∧
        (get_or_insert_typeentry ctype t f).2.cident = to_cident (type_name ctype f)) := by
  cases h : types_lookup t (type_name ctype f) with
  | some e =>
    rw [get_or_insert_found ctype t f e h]
    simp [values_of, arrays_of, h, types_lookup_key h]
  | none =>
    rw [get_or_insert_new ctype t f h]
    simp [values_of, arrays_of, h]

theorem grow_values_fields (e : typetable_entry) :
    (grow_values e).key = e.key ∧ (grow_values e).field = e.field ∧
      (grow_values e).cident = e.cident ∧ (grow_values e).values = e.values ∧
      (grow_values e).arrays = e.arrays := by
  unfold grow_values; split <;> simp

theorem grow_arrays_fields (e : typetable_entry) :
    (grow_arrays e).key = e.key ∧ (grow_arrays e).field = e.field ∧
      (grow_arrays e).cident = e.cident ∧ (grow_arrays e).values = e.values ∧
      (grow_arrays e).arrays = e.arrays := by
  unfold grow_arrays; split <;> simp

/-- The effect of `add_value` on the table. -/
theorem add_value_spec (ctype : Nat → Bytes) (p : upb_value) (f : upb_fielddef)
    (t : List typetable_entry) :
    (∃ e1, types_lookup (add_value ctype p f t) (type_name ctype f) = some e1 ∧
      e1.values = values_of t (type_name ctype f) ++ [p] ∧
      e1.arrays = arrays_of t (type_name ctype f) ∧
      (∀ e, types_lookup t (type_name ctype f) = some e →
        e1.field = e.field ∧ e1.cident = e.cident) ∧
      (types_lookup t (type_name ctype f) = none →
        e1.field = f ∧ e1.cident = to_cident (type_name ctype f))) ∧
    (∀ k, k ≠ type_name ctype f →
      types_lookup (add_value ctype p f t) k = types_lookup t k) := by
  obtain ⟨hv, ha, hk, hfound, hnew⟩ := get_or_insert_entry ctype t f
  obtain ⟨hl, ho⟩ := get_or_insert_spec ctype t f
  obtain ⟨gk, gf, gc, gv, ga⟩ := grow_values_fields (get_or_insert_typeentry ctype t f).2
  have hkey : (push_value (grow_values (get_or_insert_typeentry ctype t f).2)
      (upb_value_read p f.type)).key = type_name ctype f := by
    simp [push_value, gk, hk]
  constructor
  · refine ⟨push_value (grow_values (get_or_insert_typeentry ctype t f).2)
      (upb_value_read p f.type), ?_, ?_, ?_, ?_, ?_⟩
    · have := types_store_same (get_or_insert_typeentry ctype t f).1
        (push_value (grow_values (get_or_insert_typeentry ctype t f).2)
          (upb_value_read p f.type)) (get_or_insert_typeentry ctype t f).2
      rw [hkey] at this
      exact this hl
    · simp [push_value, gv, hv, upb_value_read]
    · simp [push_value, ga, ha]
    · intro e he
      rw [← hfound e he]
      simp [push_value, gf, gc]
    · intro hn
      simp [push_value, gf, gc, hnew hn]
  · intro k hne
    unfold add_value
    simp only []
    rw [types_store_other _ _ _ (by rw [hkey]; exact hne), ho k hne]

/-- The effect of the array record step on the table. -/
theorem add_array_spec (ctype : Nat → Bytes) (arr : upb_array) (f : upb_fielddef)
    (t : List typetable_entry) :
    (∃ e1, types_lookup (add_array ctype arr f t) (type_name ctype f) = some e1 ∧
      e1.values = values_of t (type_name ctype f) ∧
      e1.arrays = arrays_of t (type_name ctype f) ++
        [{ offset := (values_of t (type_name ctype f)).length, len := arr.len, ptr := arr }] ∧
      (∀ e, types_lookup t (type_name ctype f) = some e →
        e1.field = e.field ∧ e1.cident = e.cident) ∧
      (types_lookup t (type_name ctype f) = none →
        e1.field = f ∧ e1.cident = to_cident (type_name ctype f))) ∧
    (∀ k, k ≠ type_name ctype f →
      types_lookup (add_array ctype arr f t) k = types_lookup t k) := by
  obtain ⟨hv, ha, hk, hfound, hnew⟩ := get_or_insert_entry ctype t f
  obtain ⟨hl, ho⟩ := get_or_insert_spec ctype t f
  obtain ⟨gk, gf, gc, gv, ga⟩ := grow_arrays_fields (get_or_insert_typeentry ctype t f).2
  have hkey : (push_array (grow_arrays (get_or_insert_typeentry ctype t f).2) arr).key =
      type_name ctype f := by
    simp [push_array, gk, hk]
  constructor
  · refine ⟨push_array (grow_arrays (get_or_insert_typeentry ctype t f).2) arr,
      ?_, ?_, ?_, ?_, ?_⟩
    · have := types_store_same (get_or_insert_typeentry ctype t f).1
        (push_array (grow_arrays (get_or_insert_typeentry ctype t f).2) arr)
        (get_or_insert_typeentry ctype t f).2
      rw [hkey] at this
      exact this hl
    · simp [push_array, gv, hv]
    · simp [push_array, ga, ha, typetable_entry.values_len, gv, hv]
    · intro e he
      rw [← hfound e he]
      simp [push_array, gf, gc]
    · intro hn
      simp [push_array, gf, gc, hnew hn]
  · intro k hne
    unfold add_array
    simp only []
    rw [types_store_other _ _ _ (by rw [hkey]; exact hne), ho k hne]

/-! ### Unfolding the traversal -/

theorem add_submsgs_mk (ctype : Nat → Bytes) (t : List typetable_entry) (a : Nat) (n : Bytes)
    (fields : List (upb_fielddef × Bool × upb_value)) :
    add_submsgs ctype (.mk a n fields) t = add_submsgs_fields ctype fields t := rfl

theorem add_submsgs_eq (ctype : Nat → Bytes) (t : List typetable_entry) (m : upb_msg) :
    add_submsgs ctype m t = add_submsgs_fields ctype m.fields t := by
  cases m; rfl

theorem add_submsgs_fields_nil (ctype : Nat → Bytes) (t : List typetable_entry) :
    add_submsgs_fields ctype [] t = some t := rfl

theorem add_submsgs_fields_cons (ctype : Nat → Bytes) (t : List typetable_entry)
    (f : upb_fielddef) (isset : Bool) (p : upb_value)
    (rest : List (upb_fielddef × Bool × upb_value)) :
    add_submsgs_fields ctype ((f, isset, p) :: rest) t =
    if !isset then add_submsgs_fields ctype rest t
    else if upb_isarray f then
      if upb_isstring f then add_submsgs_fields ctype rest t
      else
        match p with
        | .arr a =>
          match add_submsgs_elements ctype a.elements
              (add_values ctype a.elements f (add_array ctype a f t)) with
          | some t3 => add_submsgs_fields ctype rest t3
          | none => none
        | _ => none
    else if !upb_issubmsg f then add_submsgs_fields ctype rest t
    else
      match p with
      | .msg m =>
        match add_submsgs ctype m (add_value ctype p f t) with
        | some t2 => add_submsgs_fields ctype rest t2
        | none => none
      | _ => none := by
  cases p with
  | arr a => cases a; rfl
  | _ => rfl

theorem add_submsgs_elements_nil (ctype : Nat → Bytes) (t : List typetable_entry) :
    add_submsgs_elements ctype [] t = some t := rfl

theorem add_submsgs_elements_cons (ctype : Nat → Bytes) (t : List typetable_entry)
    (p : upb_value) (rest : List upb_value) :
    add_submsgs_elements ctype (p :: rest) t =
    match p with
    | .msg m =>
      match add_submsgs ctype m t with
      | some t1 => add_submsgs_elements ctype rest t1
      | none => none
    | _ => none := by
  cases p <;> rfl

/-- The shape of a returning step of the loop over the fields: the field is
skipped, or it is a submessage that is registered and walked, or an array that
is recorded and whose elements are walked. -/
theorem add_submsgs_fields_cons_some (ctype : Nat → Bytes) (t t1 : List typetable_entry)
    (f : upb_fielddef) (isset : Bool) (p : upb_value)
    (rest : List (upb_fielddef × Bool × upb_value))
    (h : add_submsgs_fields ctype ((f, isset, p) :: rest) t = some t1) :
    ((isset = false ∨ (upb_isarray f = true ∧ upb_isstring f = true) ∨
        (upb_isarray f = false ∧ upb_issubmsg f = false)) ∧
      add_submsgs_fields ctype rest t = some t1) ∨
    (isset = true ∧ upb_isarray f = true ∧ upb_isstring f = false ∧
      ∃ a t3, p = .arr a ∧
        add_submsgs_elements ctype a.elements
          (add_values ctype a.elements f (add_array ctype a f t)) = some t3 ∧
        add_submsgs_fields ctype rest t3 = some t1) ∨
    (isset = true ∧ upb_isarray f = false ∧ upb_issubmsg f = true ∧
      ∃ m t2, p = .msg m ∧ add_submsgs ctype m (add_value ctype p f t) = some t2 ∧
        add_submsgs_fields ctype rest t2 = some t1) := by
  rw [add_submsgs_fields_cons] at h
  cases isset with
  | false => left; exact ⟨Or.inl rfl, by simpa using h⟩
  | true =>
    cases ha : upb_isarray f with
    | true =>
      cases hs : upb_isstring f with
      | true => left; exact ⟨Or.inr (Or.inl ⟨rfl, rfl⟩), by simpa [ha, hs] using h⟩
      | false =>
        right; left
        simp only [ha, hs, Bool.not_true, Bool.false_eq_true, if_false, if_true] at h
        refine ⟨rfl, rfl, rfl, ?_⟩
        cases p with
        | arr a =>
          simp only [] at h
          cases h2 : add_submsgs_elements ctype a.elements
              (add_values ctype a.elements f (add_array ctype a f t)) with
          | none => simp [h2] at h
          | some t3 => exact ⟨a, t3, rfl, h2, by simpa [h2] using h⟩
        | _ => simp at h
    | false =>
      cases hm : upb_issubmsg f with
      | false => left; exact ⟨Or.inr (Or.inr ⟨rfl, rfl⟩), by simpa [ha, hm] using h⟩
      | true =>
        right; right
        simp only [ha, hm, Bool.not_true, Bool.false_eq_true, if_false] at h
        refine ⟨rfl, rfl, rfl, ?_⟩
        cases p with
        | msg m =>
          simp only [] at h
          cases h2 : add_submsgs ctype m (add_value ctype (.msg m) f t) with
          | none => simp [h2] at h
          | some t2 => exact ⟨m, t2, rfl, h2, by simpa [h2] using h⟩
        | _ => simp at h

/-- The shape of a returning step of the loop over the elements. -/
theorem add_submsgs_elements_cons_some (ctype : Nat → Bytes) (t t1 : List typetable_entry)
    (p : upb_value) (rest : List upb_value)
    (h : add_submsgs_elements ctype (p :: rest) t = some t1) :
    ∃ m t2, p = .msg m ∧ add_submsgs ctype m t = some t2 ∧
      add_submsgs_elements ctype rest t2 = some t1 := by
  rw [add_submsgs_elements_cons] at h
  cases p with
  | msg m =>
    simp only [] at h
    cases h2 : add_submsgs ctype m t with
    | none => simp [h2] at h
    | some t2 => exact ⟨m, t2, rfl, h2, by simpa [h2] using h⟩
  | _ => simp at h

mutual
/-- A relation closed under the steps of the traversal holds across every
returning call of `add_submsgs`. -/
theorem add_submsgs_steps (ctype : Nat → Bytes)
    (R : List typetable_entry → List typetable_entry → Prop) (hR : step_closed ctype R) :
    ∀ (m : upb_msg) (t t1 : List typetable_entry),
      add_submsgs ctype m t = some t1 → R t t1
  | .mk _ _ fields, t, t1, h => by
    rw [add_submsgs_mk] at h
    exact add_submsgs_fields_steps ctype R hR fields t t1 h
/-- The loop over the fields, likewise. -/
theorem add_submsgs_fields_steps (ctype : Nat → Bytes)
    (R : List typetable_entry → List typetable_entry → Prop) (hR : step_closed ctype R) :
    ∀ (fs : List (upb_fielddef × Bool × upb_value)) (t t1 : List typetable_entry),
      add_submsgs_fields ctype fs t = some t1 → R t t1
  | [], t, t1, h => by
    rw [add_submsgs_fields_nil, Option.some.injEq] at h
    subst h; exact hR.1 t
  | (f, isset, .scalar r) :: rest, t, t1, h => by
    rcases add_submsgs_fields_cons_some ctype t t1 f isset _ rest h with
      ⟨_, h1⟩ | ⟨_, _, _, a, t3, hp, _, _⟩ | ⟨_, _, _, m, t2, hp, _, _⟩
    · exact add_submsgs_fields_steps ctype R hR rest t t1 h1
    · cases hp
    · cases hp
  | (f, isset, .str r) :: rest, t, t1, h => by
    rcases add_submsgs_fields_cons_some ctype t t1 f isset _ rest h with
      ⟨_, h1⟩ | ⟨_, _, _, a, t3, hp, _, _⟩ | ⟨_, _, _, m, t2, hp, _, _⟩
    · exact add_submsgs_fields_steps ctype R hR rest t t1 h1
    · cases hp
    · cases hp
  | (f, isset, .msg m) :: rest, t, t1, h => by
    rcases add_submsgs_fields_cons_some ctype t t1 f isset _ rest h with
      ⟨_, h1⟩ | ⟨_, _, _, a, t3, hp, _, _⟩ | ⟨_, _, _, m1, t2, hp, h2, h3⟩
    · exact add_submsgs_fields_steps ctype R hR rest t t1 h1
    · cases hp
    · cases hp
      exact hR.2.1 _ _ _ (hR.2.2.1 _ f t)
        (hR.2.1 _ _ _ (add_submsgs_steps ctype R hR m _ t2 h2)
          (add_submsgs_fields_steps ctype R hR rest t2 t1 h3))
  | (f, isset, .arr (.mk addr elements)) :: rest, t, t1, h => by
    rcases add_submsgs_fields_cons_some ctype t t1 f isset _ rest h with
      ⟨_, h1⟩ | ⟨_, _, _, a, t3, hp, h2, h3⟩ | ⟨_, _, _, m1, t2, hp, _, _⟩
    · exact add_submsgs_fields_steps ctype R hR rest t t1 h1
    · cases hp
      exact hR.2.1 _ _ _ (hR.2.2.2 (.mk addr elements) f t)
        (hR.2.1 _ _ _ (add_submsgs_elements_steps ctype R hR elements _ t3 h2)
          (add_submsgs_fields_steps ctype R hR rest t3 t1 h3))
    · cases hp
/-- The loop over the elements of an array, likewise. -/
theorem add_submsgs_elements_steps (ctype : Nat → Bytes)
    (R : List typetable_entry → List typetable_entry → Prop) (hR : step_closed ctype R) :
    ∀ (es : List upb_value) (t t1 : List typetable_entry),
      add_submsgs_elements ctype es t = some t1 → R t t1
  | [], t, t1, h => by
    rw [add_submsgs_elements_nil, Option.some.injEq] at h
    subst h; exact hR.1 t
  | .msg m :: rest, t, t1, h => by
    obtain ⟨m1, t2, hp, h2, h3⟩ := add_submsgs_elements_cons_some ctype t t1 _ rest h
    cases hp
    exact hR.2.1 _ _ _ (add_submsgs_steps ctype R hR m t t2 h2)
      (add_submsgs_elements_steps ctype R hR rest t2 t1 h3)
  | .scalar _ :: rest, t, t1, h => by
    obtain ⟨m1, t2, hp, h2, h3⟩ := add_submsgs_elements_cons_some ctype t t1 _ rest h
    cases hp
  | .str _ :: rest, t, t1, h => by
    obtain ⟨m1, t2, hp, h2, h3⟩ := add_submsgs_elements_cons_some ctype t t1 _ rest h
    cases hp
  | .arr _ :: rest, t, t1, h => by
    obtain ⟨m1, t2, hp, h2, h3⟩ := add_submsgs_elements_cons_some ctype t t1 _ rest h
    cases hp
end

/-! ### Tables only grow -/

theorem table_extends_refl (t : List typetable_entry) : table_extends t t :=
  fun _ e h => ⟨e, h, List.prefix_refl _, List.prefix_refl _, rfl, rfl⟩

theorem table_extends_trans (a b c : List typetable_entry)
    (h1 : table_extends a b) (h2 : table_extends b c) : table_extends a c := by
  intro k e he
  obtain ⟨e1, h1l, h1v, h1a, h1f, h1c⟩ := h1 k e he
  obtain ⟨e2, h2l, h2v, h2a, h2f, h2c⟩ := h2 k e1 h1l
  exact ⟨e2, h2l, h1v.trans h2v, h1a.trans h2a, h2f.trans h1f, h2c.trans h1c⟩

theorem add_value_extends (ctype : Nat → Bytes) (p : upb_value) (f : upb_fielddef)
    (t : List typetable_entry) : table_extends t (add_value ctype p f t) := by
  intro k e he
  obtain ⟨⟨e1, hl, hv, ha, hfound, _⟩, ho⟩ := add_value_spec ctype p f t
  by_cases hk : k = type_name ctype f
  · subst hk
    refine ⟨e1, hl, ?_, ?_, (hfound e he).1, (hfound e he).2⟩
    · rw [hv]; simp [values_of, he]
    · rw [ha]; simp [arrays_of, he]
  · rw [← ho k hk] at he
    exact ⟨e, he, List.prefix_refl _, List.prefix_refl _, rfl, rfl⟩

theorem add_array_extends (ctype : Nat → Bytes) (arr : upb_array) (f : upb_fielddef)
    (t : List typetable_entry) : table_extends t (add_array ctype arr f t) := by
  intro k e he
  obtain ⟨⟨e1, hl, hv, ha, hfound, _⟩, ho⟩ := add_array_spec ctype arr f t
  by_cases hk : k = type_name ctype f
  · subst hk
    refine ⟨e1, hl, ?_, ?_, (hfound e he).1, (hfound e he).2⟩
    · rw [hv]; simp [values_of, he]
    · rw [ha]; simp [arrays_of, he]
  · rw [← ho k hk] at he
    exact ⟨e, he, List.prefix_refl _, List.prefix_refl _, rfl, rfl⟩

theorem add_values_extends (ctype : Nat → Bytes) (f : upb_fielddef) :
    ∀ (es : List upb_value) (t : List typetable_entry),
      table_extends t (add_values ctype es f t)
  | [], t => table_extends_refl t
  | p :: rest, t => by
    unfold add_values
    exact table_extends_trans _ _ _ (add_value_extends ctype p f t)
      (add_values_extends ctype f rest _)

theorem table_extends_step_closed (ctype : Nat → Bytes) : step_closed ctype table_extends :=
  ⟨table_extends_refl, table_extends_trans, add_value_extends ctype,
    fun arr f t => table_extends_trans _ _ _ (add_array_extends ctype arr f t)
      (add_values_extends ctype f arr.elements _)⟩

theorem add_submsgs_extends (ctype : Nat → Bytes) (m : upb_msg) (t t1 : List typetable_entry)
    (h : add_submsgs ctype m t = some t1) : table_extends t t1 :=
  add_submsgs_steps ctype table_extends (table_extends_step_closed ctype) m t t1 h

theorem later_table_extends (ctype : Nat → Bytes) (t t1 : List typetable_entry)
    (h : later_table ctype t t1) : table_extends t t1 := by
  induction h with
  | refl => exact table_extends_refl _
  | add_value p f _ ih => exact table_extends_trans _ _ _ ih (add_value_extends ctype p f _)
  | add_submsgs m _ h2 ih =>
    exact table_extends_trans _ _ _ ih (add_submsgs_extends ctype m _ _ h2)

theorem table_extends_values (t t1 : List typetable_entry) (h : table_extends t t1)
    (k : Bytes) : values_of t k <+: values_of t1 k := by
  unfold values_of
  cases he : types_lookup t k with
  | none => exact List.nil_prefix
  | some e =>
    obtain ⟨e1, h1, hv, _⟩ := h k e he
    simp only [h1]; exact hv

theorem table_extends_arrays (t t1 : List typetable_entry) (h : table_extends t t1)
    (k : Bytes) : arrays_of t k <+: arrays_of t1 k := by
  unfold arrays_of
  cases he : types_lookup t k with
  | none => exact List.nil_prefix
  | some e =>
    obtain ⟨e1, h1, _, ha, _⟩ := h k e he
    simp only [h1]; exact ha

theorem prefix_getElem? {α : Type} {l1 l2 : List α} (h : l1 <+: l2) (i : Nat) (v : α)
    (hv : l1[i]? = some v) : l2[i]? = some v := by
  obtain ⟨s, rfl⟩ := h
  have hi : i < l1.length := by
    by_contra hc
    rw [List.getElem?_eq_none (by omega)] at hv
    cases hv
  rw [List.getElem?_append_left hi]; exact hv

/-- C10 (bucket append-only). `add_value(p, f, t)` makes the values of the
entry for the type key of `f` one longer, the new value sits at the old
`values_len`, every value stored before (in this entry or another) keeps its
index, the values of the other entries are unchanged, and after any later
sequence of `add_value` and `add_submsgs` calls every value is still at its
index. The growth of the backing storage (`grow_values`) is part of
`add_value`. -/
theorem add_value_append_only (ctype : Nat → Bytes) (p : upb_value) (f : upb_fielddef)
    (t : List typetable_entry) :
    (values_of (add_value ctype p f t) (type_name ctype f)).length =
        (values_of t (type_name ctype f)).length + 1 ∧
      (values_of (add_value ctype p f t) (type_name ctype f))[
        (values_of t (type_name ctype f)).length]? = some p ∧
      (∀ (k : Bytes) (i : Nat) (v : upb_value), (values_of t k)[i]? = some v →
        (values_of (add_value ctype p f t) k)[i]? = some v) ∧
      (∀ k, k ≠ type_name ctype f → values_of (add_value ctype p f t) k = values_of t k) ∧
      (∀ t1, later_table ctype (add_value ctype p f t) t1 →
        ∀ (k : Bytes) (i : Nat) (v : upb_value),
          (values_of (add_value ctype p f t) k)[i]? = some v →
          (values_of t1 k)[i]? = some v) := by
  obtain ⟨⟨e1, hl, hv, _, _, _⟩, ho⟩ := add_value_spec ctype p f t
  have hvo : values_of (add_value ctype p f t) (type_name ctype f) =
      values_of t (type_name ctype f) ++ [p] := by
    rw [← hv]; simp [values_of, hl]
  refine ⟨?_, ?_, ?_, ?_, ?_⟩
  · rw [hvo]; simp
  · rw [hvo]; simp
  · intro k i v h
    exact prefix_getElem? (table_extends_values _ _ (add_value_extends ctype p f t) k) i v h
  · intro k hk
    simp only [values_of, ho k hk]
  · intro t1 h k i v hv1
    exact prefix_getElem? (table_extends_values _ _ (later_table_extends ctype _ _ h) k) i v hv1

/-- C10, at an example: a value stored first keeps index 0 when a second value
is added. -/
theorem add_value_append_only_witness :
    (values_of (add_value c_types (.scalar 2) example_int32s
      (add_value c_types (.scalar 1) example_int32s [])) (type_name c_types example_int32s))[0]? =
      some (.scalar 1) :=
  (add_value_append_only c_types (.scalar 1) example_int32s []).2.2.2.2 _
    (later_table.add_value (.scalar 2) example_int32s (later_table.refl _)) _ 0 _
    (add_value_append_only c_types (.scalar 1) example_int32s []).2.1

/-! ### The emission pass and the type table -/

theorem get_or_insert_keeps (ctype : Nat → Bytes) (t : List typetable_entry) (f : upb_fielddef)
    (k : Bytes) (e : typetable_entry) (h : types_lookup t k = some e) :
    types_lookup (get_or_insert_typeentry ctype t f).1 k = some e := by
  by_cases hk : k = type_name ctype f
  · subst hk
    rw [get_or_insert_found ctype t f e h]; exact h
  · rw [(get_or_insert_spec ctype t f).2 k hk]; exact h

theorem get_or_insert_extends (ctype : Nat → Bytes) (t : List typetable_entry)
    (f : upb_fielddef) : table_extends t (get_or_insert_typeentry ctype t f).1 :=
  fun k e h => ⟨e, get_or_insert_keeps ctype t f k e h, List.prefix_refl _,
    List.prefix_refl _, rfl, rfl⟩

theorem emit_each_nil {α : Type} (body : α → emitter → emitter) (s : emitter) :
    emit_each body [] s = s := rfl

theorem emit_each_cons_ok {α : Type} (body : α → emitter → emitter) (x : α) (rest : List α)
    (s : emitter) (h : s.status = .ok) :
    emit_each body (x :: rest) s = emit_each body rest (body x s) := by
  simp [emit_each, h]

theorem emit_each_stopped {α : Type} (body : α → emitter → emitter) (l : List α)
    (s : emitter) (h : s.status ≠ .ok) : emit_each body l s = s := by
  cases l with
  | nil => rfl
  | cons x rest =>
    unfold emit_each
    split
    · next h1 => exact absurd h1 h
    · rfl

/-- A reflexive and transitive relation that holds across the body of a loop of
the emission pass holds across the loop. -/
theorem emit_each_rel {α : Type} (R : emitter → emitter → Prop) (hrefl : ∀ s, R s s)
    (htrans : ∀ a b c, R a b → R b c → R a c) (body : α → emitter → emitter)
    (hbody : ∀ x s, R s (body x s)) : ∀ (l : List α) (s : emitter), R s (emit_each body l s)
  | [], s => hrefl s
  | x :: rest, s => by
    by_cases h : s.status = .ok
    · rw [emit_each_cons_ok body x rest s h]
      exact htrans _ _ _ (hbody x s) (emit_each_rel R hrefl htrans body hbody rest _)
    · rw [emit_each_stopped body _ s h]; exact hrefl s

theorem emit_field_extends (ctype : Nat → Bytes) (strings : List strtable_entry)
    (fd : upb_fielddef × Bool × upb_value) (s : emitter) :
    table_extends s.types (emit_field ctype strings fd s).types := by
  unfold emit_field
  simp only [emitter.put, emitter.stop]
  split
  · exact table_extends_refl _
  · split
    · split
      · exact table_extends_refl _
      · split
        · split <;> exact table_extends_refl _
        · exact table_extends_refl _
    · split
      · split
        · split <;> exact get_or_insert_extends ctype _ _
        · exact get_or_insert_extends ctype _ _
      · split
        · split
          · split <;> exact get_or_insert_extends ctype _ _
          · exact get_or_insert_extends ctype _ _
        · exact table_extends_refl _

theorem emit_fields_extends (ctype : Nat → Bytes) (strings : List strtable_entry)
    (l : List (upb_fielddef × Bool × upb_value)) (s : emitter) :
    table_extends s.types (emit_each (emit_field ctype strings) l s).types :=
  emit_each_rel (fun a b => table_extends a.types b.types) (fun _ => table_extends_refl _)
    (fun _ _ _ => table_extends_trans _ _ _) _ (emit_field_extends ctype strings) l s

theorem emit_flags_types (l : List (upb_fielddef × Bool × upb_value)) (s : emitter) :
    (emit_each emit_flag l s).types = s.types :=
  emit_each_rel (fun a b => b.types = a.types) (fun _ => rfl)
    (fun _ _ _ h1 h2 => h2.trans h1) emit_flag (fun _ _ => rfl) l s

theorem emit_value_extends (ctype : Nat → Bytes) (strings : List strtable_entry)
    (field : upb_fielddef) (val : upb_value) (s : emitter) :
    table_extends s.types (emit_value ctype strings field val s).types := by
  unfold emit_value
  split
  · split
    · next m =>
      have h1 := emit_fields_extends ctype strings m.fields
        ((emit_each emit_flag m.fields
          (s.put .flags_begin)).put .flags_end)
      have h2 : ((emit_each emit_flag m.fields
          (s.put .flags_begin)).put .flags_end).types = s.types := by
        show (emit_each emit_flag m.fields (s.put .flags_begin)).types = s.types
        rw [emit_flags_types]; rfl
      rw [h2] at h1
      simp only []
      split
      · exact h1
      · exact h1
    · exact table_extends_refl _
  · split
    · exact table_extends_refl _
    · exact table_extends_refl _

theorem emit_def_extends (ctype : Nat → Bytes) (strings : List strtable_entry)
    (e : typetable_entry) (s : emitter) :
    table_extends s.types (emit_def ctype strings e s).types := by
  unfold emit_def
  have h := emit_each_rel (fun a b => table_extends a.types b.types)
    (fun _ => table_extends_refl _) (fun _ _ _ => table_extends_trans _ _ _) _
    (emit_value_extends ctype strings e.field) e.values
    (s.put (.values_begin e.cident e.values_len))
  simp only []
  split
  · exact h
  · exact h

theorem emit_decl_types (e : typetable_entry) (s : emitter) :
    (emit_decl e s).types = s.types := by
  unfold emit_decl
  simp only [emitter.put]
  split <;> rfl

theorem type_name_fake_field (ctype : Nat → Bytes) (msg : upb_msg) :
    type_name ctype (fake_field msg) = msg.fqname := by
  simp [type_name, fake_field, upb_issubmsg]

theorem gather_types_root (ctype : Nat → Bytes) (msg : upb_msg) (types : List typetable_entry)
    (h : gather_types ctype msg = some types) :
    ∃ e, types_lookup types msg.fqname = some e ∧ e.values[0]? = some (.msg msg) := by
  unfold gather_types at h
  obtain ⟨⟨e1, hl, hv, _⟩, _⟩ := add_value_spec ctype (.msg msg) (fake_field msg) []
  rw [type_name_fake_field] at hl hv
  obtain ⟨e, he, hpre, _⟩ := add_submsgs_extends ctype msg _ types h msg.fqname e1 hl
  refine ⟨e, he, prefix_getElem? hpre 0 _ ?_⟩
  rw [hv]; simp [values_of, types_lookup]

theorem emit_defs_extends (ctype : Nat → Bytes) (strings : List strtable_entry)
    (l : List typetable_entry) (s : emitter) :
    table_extends s.types (emit_each (emit_def ctype strings) l s).types :=
  emit_each_rel (fun a b => table_extends a.types b.types) (fun _ => table_extends_refl _)
    (fun _ _ _ => table_extends_trans _ _ _) _ (emit_def_extends ctype strings) l s

theorem emit_decls_types (l : List typetable_entry) (s : emitter) :
    (emit_each emit_decl l s).types = s.types :=
  emit_each_rel (fun a b => b.types = a.types) (fun _ => rfl)
    (fun _ _ _ h1 h2 => h2.trans h1) emit_decl emit_decl_types l s

/-! ### The entries after a step, key by key -/

theorem values_of_add_value (ctype : Nat → Bytes) (p : upb_value) (f : upb_fielddef)
    (t : List typetable_entry) (k : Bytes) :
    values_of (add_value ctype p f t) k =
      if k = type_name ctype f then values_of t k ++ [p] else values_of t k := by
  obtain ⟨⟨e1, hl, hv, _, _, _⟩, ho⟩ := add_value_spec ctype p f t
  by_cases hk : k = type_name ctype f
  · subst hk; simp only [if_true, ← hv]; simp [values_of, hl]
  · simp only [hk, if_false, values_of, ho k hk]

theorem arrays_of_add_value (ctype : Nat → Bytes) (p : upb_value) (f : upb_fielddef)
    (t : List typetable_entry) (k : Bytes) :
    arrays_of (add_value ctype p f t) k = arrays_of t k := by
  obtain ⟨⟨e1, hl, _, ha, _, _⟩, ho⟩ := add_value_spec ctype p f t
  by_cases hk : k = type_name ctype f
  · subst hk; rw [← ha]; simp [arrays_of, hl]
  · simp only [arrays_of, ho k hk]

theorem values_of_add_array (ctype : Nat → Bytes) (arr : upb_array) (f : upb_fielddef)
    (t : List typetable_entry) (k : Bytes) :
    values_of (add_array ctype arr f t) k = values_of t k := by
  obtain ⟨⟨e1, hl, hv, _, _, _⟩, ho⟩ := add_array_spec ctype arr f t
  by_cases hk : k = type_name ctype f
  · subst hk; rw [← hv]; simp [values_of, hl]
  · simp only [values_of, ho k hk]

theorem arrays_of_add_array (ctype : Nat → Bytes) (arr : upb_array) (f : upb_fielddef)
    (t : List typetable_entry) (k : Bytes) :
    arrays_of (add_array ctype arr f t) k =
      if k = type_name ctype f then
        arrays_of t k ++ [{ offset := (values_of t k).length, len := arr.len, ptr := arr }]
      else arrays_of t k := by
  obtain ⟨⟨e1, hl, _, ha, _, _⟩, ho⟩ := add_array_spec ctype arr f t
  by_cases hk : k = type_name ctype f
  · subst hk; simp only [if_true, ← ha]; simp [arrays_of, hl]
  · simp only [hk, if_false, arrays_of, ho k hk]

theorem values_of_add_values (ctype : Nat → Bytes) (f : upb_fielddef) (k : Bytes) :
    ∀ (es : List upb_value) (t : List typetable_entry),
      values_of (add_values ctype es f t) k =
        if k = type_name ctype f then values_of t k ++ es else values_of t k
  | [], t => by simp [add_values]
  | p :: rest, t => by
    unfold add_values
    rw [values_of_add_values ctype f k rest, values_of_add_value]
    by_cases hk : k = type_name ctype f <;> simp [hk]

theorem arrays_of_add_values (ctype : Nat → Bytes) (f : upb_fielddef) (k : Bytes) :
    ∀ (es : List upb_value) (t : List typetable_entry),
      arrays_of (add_values ctype es f t) k = arrays_of t k
  | [], t => by simp [add_values]
  | p :: rest, t => by
    unfold add_values
    rw [arrays_of_add_values ctype f k rest, arrays_of_add_value]

/-! ### Array records stay backed by contiguous values -/

theorem array_backed_append (values more : List upb_value) (r : array)
    (h : array_backed values r) : array_backed (values ++ more) r := by
  obtain ⟨h1, h2, h3⟩ := h
  refine ⟨by rw [List.length_append]; omega, h2, ?_⟩
  intro j hj
  rw [List.getElem?_append_left (by omega)]
  exact h3 j hj

theorem arrays_inv_add_value (ctype : Nat → Bytes) (p : upb_value) (f : upb_fielddef)
    (t : List typetable_entry) (h : arrays_inv t) : arrays_inv (add_value ctype p f t) := by
  intro k
  rw [arrays_of_add_value, values_of_add_value]
  obtain ⟨h1, h2⟩ := h k
  refine ⟨?_, h2⟩
  intro r hr
  split
  · exact array_backed_append _ _ r (h1 r hr)
  · exact h1 r hr

theorem arrays_inv_add_values (ctype : Nat → Bytes) (f : upb_fielddef) :
    ∀ (es : List upb_value) (t : List typetable_entry),
      arrays_inv t → arrays_inv (add_values ctype es f t)
  | [], _, h => h
  | p :: rest, t, h => by
    unfold add_values
    exact arrays_inv_add_values ctype f rest _ (arrays_inv_add_value ctype p f t h)

theorem arrays_inv_array_step (ctype : Nat → Bytes) (arr : upb_array) (f : upb_fielddef)
    (t : List typetable_entry) (h : arrays_inv t) :
    arrays_inv (add_values ctype arr.elements f (add_array ctype arr f t)) := by
  intro k
  rw [arrays_of_add_values, values_of_add_values, arrays_of_add_array, values_of_add_array]
  obtain ⟨h1, h2⟩ := h k
  by_cases hk : k = type_name ctype f
  · simp only [hk, if_true] at h1 h2 ⊢
    constructor
    · intro r hr
      rcases List.mem_append.1 hr with hr | hr
      · exact array_backed_append _ _ r (h1 r hr)
      · rw [List.mem_singleton] at hr
        subst hr
        refine ⟨by simp [upb_array.len], rfl, ?_⟩
        intro j hj
        simp only [upb_array.len] at hj
        show (values_of t (type_name ctype f) ++ arr.elements)[
          (values_of t (type_name ctype f)).length + j]? = arr.elements[j]?
        rw [List.getElem?_append_right (by omega)]
        congr 1
        omega
    · rw [List.pairwise_append]
      refine ⟨h2, List.pairwise_singleton _ _, ?_⟩
      intro r hr r2 hr2
      rw [List.mem_singleton] at hr2
      subst hr2
      exact (h1 r hr).1
  · simp only [hk, if_false]
    exact ⟨h1, h2⟩

theorem arrays_inv_step_closed (ctype : Nat → Bytes) :
    step_closed ctype (fun t t1 => arrays_inv t → arrays_inv t1) :=
  ⟨fun _ h => h, fun _ _ _ h1 h2 h => h2 (h1 h),
    fun p f t h => arrays_inv_add_value ctype p f t h,
    fun arr f t h => arrays_inv_array_step ctype arr f t h⟩

theorem arrays_inv_nil : arrays_inv [] := by
  intro k
  simp [arrays_of, values_of, types_lookup]

theorem gather_types_arrays_inv (ctype : Nat → Bytes) (msg : upb_msg)
    (types : List typetable_entry) (h : gather_types ctype msg = some types) :
    arrays_inv types :=
  add_submsgs_steps ctype _ (arrays_inv_step_closed ctype) msg _ types h
    (arrays_inv_add_value ctype _ _ _ arrays_inv_nil)

/-! ### Keys of the type table are distinct -/

theorem types_store_keys :
    ∀ (t : List typetable_entry) (e : typetable_entry),
      (types_store t e).map (fun x => x.key) = t.map (fun x => x.key)
  | [], _ => rfl
  | x :: rest, e => by
    unfold types_store
    by_cases h : x.key = e.key
    · simp [h]
    · simp [h, types_store_keys rest e]

theorem types_lookup_none {t : List typetable_entry} {k : Bytes}
    (h : types_lookup t k = none) : k ∉ t.map (fun x => x.key) := by
  unfold types_lookup at h
  rw [List.find?_eq_none] at h
  intro hk
  obtain ⟨x, hx, hxk⟩ := List.mem_map.1 hk
  exact h x hx (by simpa using hxk)

theorem get_or_insert_keys_nodup (ctype : Nat → Bytes) (t : List typetable_entry)
    (f : upb_fielddef) (h : keys_nodup t) :
    keys_nodup (get_or_insert_typeentry ctype t f).1 := by
  unfold get_or_insert_typeentry
  cases hl : types_lookup t (type_name ctype f) with
  | some e => simpa using h
  | none =>
    have hk := types_lookup_none hl
    have : keys_nodup (types_insert t
        { key := type_name ctype f, field := f, cident := to_cident (type_name ctype f),
          values := [], values_size := 0, arrays := [], arrays_size := 0 }) := by
      unfold keys_nodup types_insert
      rw [List.map_append, List.nodup_append]
      refine ⟨h, by simp, ?_⟩
      intro a ha hb
      simp only [List.map_cons, List.map_nil, List.mem_singleton] at hb
      subst hb
      exact hk ha
    simp only []
    split <;> exact this

theorem keys_nodup_add_value (ctype : Nat → Bytes) (p : upb_value) (f : upb_fielddef)
    (t : List typetable_entry) (h : keys_nodup t) : keys_nodup (add_value ctype p f t) := by
  unfold add_value keys_nodup
  simp only []
  rw [types_store_keys]
  exact get_or_insert_keys_nodup ctype t f h

theorem keys_nodup_add_array (ctype : Nat → Bytes) (arr : upb_array) (f : upb_fielddef)
    (t : List typetable_entry) (h : keys_nodup t) : keys_nodup (add_array ctype arr f t) := by
  unfold add_array keys_nodup
  simp only []
  rw [types_store_keys]
  exact get_or_insert_keys_nodup ctype t f h

theorem keys_nodup_add_values (ctype : Nat → Bytes) (f : upb_fielddef) :
    ∀ (es : List upb_value) (t : List typetable_entry),
      keys_nodup t → keys_nodup (add_values ctype es f t)
  | [], _, h => h
  | p :: rest, t, h => by
    unfold add_values
    exact keys_nodup_add_values ctype f rest _ (keys_nodup_add_value ctype p f t h)

theorem keys_nodup_step_closed (ctype : Nat → Bytes) :
    step_closed ctype (fun t t1 => keys_nodup t → keys_nodup t1) :=
  ⟨fun _ h => h, fun _ _ _ h1 h2 h => h2 (h1 h),
    fun p f t h => keys_nodup_add_value ctype p f t h,
    fun arr f t h => keys_nodup_add_values ctype f _ _ (keys_nodup_add_array ctype arr f t h)⟩

theorem gather_types_keys_nodup (ctype : Nat → Bytes) (msg : upb_msg)
    (types : List typetable_entry) (h : gather_types ctype msg = some types) :
    keys_nodup types :=
  add_submsgs_steps ctype _ (keys_nodup_step_closed ctype) msg _ types h
    (keys_nodup_add_value ctype _ _ _ (by simp [keys_nodup]))

theorem types_lookup_of_mem :
    ∀ (t : List typetable_entry) (e : typetable_entry),
      keys_nodup t → e ∈ t → types_lookup t e.key = some e
  | [], _, _, h => by cases h
  | x :: rest, e, hn, h => by
    rw [types_lookup_cons]
    unfold keys_nodup at hn
    rw [List.map_cons, List.nodup_cons] at hn
    rcases List.mem_cons.1 h with h | h
    · subst h; simp
    · have : x.key ≠ e.key := by
        intro hx
        exact hn.1 (hx ▸ List.mem_map_of_mem (fun x => x.key) h)
      simp only [this, if_false]
      exact types_lookup_of_mem rest e hn.2 h

theorem person_gather_types : gather_types c_types person_root = some person_types := rfl

/-! ### The comparison of strings -/

theorem upb_strcmp_self : ∀ (a : Bytes), upb_strcmp a a = 0
  | [] => rfl
  | x :: a => by simp [upb_strcmp, upb_strcmp_self a]

theorem upb_strcmp_eq_zero : ∀ (a b : Bytes), upb_strcmp a b = 0 → a = b
  | [], [], _ => rfl
  | [], _ :: _, h => by simp [upb_strcmp] at h
  | _ :: _, [], h => by simp [upb_strcmp] at h
  | x :: a, y :: b, h => by
    unfold upb_strcmp at h
    by_cases hxy : x = y
    · simp only [hxy, if_true] at h
      rw [hxy, upb_strcmp_eq_zero a b h]
    · simp only [hxy, if_false] at h
      omega

theorem upb_strcmp_antisymm : ∀ (a b : Bytes), 0 < upb_strcmp a b ↔ upb_strcmp b a < 0
  | [], [] => by simp [upb_strcmp]
  | [], _ :: _ => by simp [upb_strcmp]
  | _ :: _, [] => by simp [upb_strcmp]
  | x :: a, y :: b => by
    unfold upb_strcmp
    by_cases hxy : x = y
    · subst hxy; simp only [if_true]; exact upb_strcmp_antisymm a b
    · have hyx : ¬ y = x := fun h => hxy h.symm
      simp only [hxy, hyx, if_false]
      omega

theorem upb_strcmp_trans : ∀ (a b c : Bytes),
    upb_strcmp a b ≤ 0 → upb_strcmp b c ≤ 0 → upb_strcmp a c ≤ 0
  | [], [], c, _, h => h
  | [], _ :: _, [], _, h => by simp [upb_strcmp] at h
  | [], _ :: _, _ :: _, _, _ => by simp [upb_strcmp]
  | _ :: _, [], _, h, _ => by simp [upb_strcmp] at h
  | _ :: _, _ :: _, [], _, h => by simp [upb_strcmp] at h
  | x :: a, y :: b, z :: c, h1, h2 => by
    unfold upb_strcmp at h1 h2 ⊢
    by_cases hxy : x = y
    · subst hxy
      simp only [if_true] at h1
      by_cases hxz : x = z
      · subst hxz
        simp only [if_true] at h2 ⊢
        exact upb_strcmp_trans a b c h1 h2
      · simp only [hxz, if_false] at h2 ⊢
        exact h2
    · simp only [hxy, if_false] at h1
      by_cases hyz : y = z
      · subst hyz
        simp only [hxy, if_false]
        exact h1
      · simp only [hyz, if_false] at h2
        by_cases hxz : x = z
        · omega
        · simp only [hxz, if_false]
          omega

theorem upb_strcmp_total (a b : Bytes) : upb_strcmp a b ≤ 0 ∨ upb_strcmp b a ≤ 0 := by
  by_cases h : upb_strcmp a b ≤ 0
  · exact Or.inl h
  · right
    have := (upb_strcmp_antisymm a b).1 (by omega)
    omega

theorem upb_strcmp_nil_le (a : Bytes) : upb_strcmp [] a ≤ 0 := by
  cases a <;> simp [upb_strcmp]

theorem qsort_entries_sorted (l : List strtable_entry) :
    (qsort_entries l).Sorted entries_le := by
  haveI : IsTotal strtable_entry entries_le :=
    ⟨fun a b => upb_strcmp_total a.key b.key⟩
  haveI : IsTrans strtable_entry entries_le :=
    ⟨fun a b c => upb_strcmp_trans a.key b.key c.key⟩
  exact List.sorted_insertionSort entries_le l

theorem qsort_entries_perm (l : List strtable_entry) : (qsort_entries l).Perm l :=
  List.perm_insertionSort entries_le l

/-! ### Unfolding the walk over the strings -/

theorem add_strings_from_msg_mk (t : List strtable_entry) (a : Nat) (n : Bytes)
    (fields : List (upb_fielddef × Bool × upb_value)) :
    add_strings_from_msg (.mk a n fields) t = add_strings_from_fields fields t := rfl

theorem add_strings_from_fields_nil (t : List strtable_entry) :
    add_strings_from_fields [] t = some t := rfl

theorem add_strings_from_fields_cons (t : List strtable_entry) (f : upb_fielddef)
    (isset : Bool) (p : upb_value) (rest : List (upb_fielddef × Bool × upb_value)) :
    add_strings_from_fields ((f, isset, p) :: rest) t =
    if !isset then add_strings_from_fields rest t
    else if upb_isarray f then
      match p with
      | .arr a =>
        match add_strings_from_elements a.elements f t with
        | some t1 => add_strings_from_fields rest t1
        | none => none
      | _ => none
    else
      match add_strings_from_value p f t with
      | some t1 => add_strings_from_fields rest t1
      | none => none := by
  cases p with
  | arr a => cases a; rfl
  | _ => rfl

theorem add_strings_from_elements_nil (f : upb_fielddef) (t : List strtable_entry) :
    add_strings_from_elements [] f t = some t := rfl

theorem add_strings_from_elements_cons (p : upb_value) (rest : List upb_value)
    (f : upb_fielddef) (t : List strtable_entry) :
    add_strings_from_elements (p :: rest) f t =
    match add_strings_from_value p f t with
    | some t1 => add_strings_from_elements rest f t1
    | none => none := rfl

theorem add_strings_from_value_eq (p : upb_value) (f : upb_fielddef) (t : List strtable_entry) :
    add_strings_from_value p f t =
    if upb_isstringtype f.type then
      match p with
      | .str s => some (intern t s)
      | _ => none
    else if upb_issubmsg f then
      match p with
      | .msg m => add_strings_from_msg m t
      | _ => none
    else some t := by
  cases p with
  | str s =>
    show (if upb_isstringtype f.type then
        (if upb_strtable_lookup t s = none then
          some (upb_strtable_insert t { key := s, offset := 0, num := 0 }) else some t)
      else if upb_issubmsg f then none else some t) = _
    unfold intern
    by_cases h1 : upb_isstringtype f.type = true
    · by_cases h2 : upb_strtable_lookup t s = none <;> simp [h1, h2]
    · simp [h1]
  | _ => rfl

theorem present_strings_mk (a : Nat) (n : Bytes)
    (fields : List (upb_fielddef × Bool × upb_value)) :
    present_strings (.mk a n fields) = present_strings_fields fields := rfl

theorem present_strings_fields_nil : present_strings_fields [] = [] := rfl

theorem present_strings_fields_cons (f : upb_fielddef) (isset : Bool) (p : upb_value)
    (rest : List (upb_fielddef × Bool × upb_value)) :
    present_strings_fields ((f, isset, p) :: rest) =
    (if isset then
      if upb_isarray f then
        match p with
        | .arr a => present_strings_elements f a.elements
        | _ => []
      else present_strings_value f p
    else []) ++ present_strings_fields rest := by
  cases p with
  | arr a => cases a; rfl
  | _ => rfl

theorem present_strings_elements_nil (f : upb_fielddef) :
    present_strings_elements f [] = [] := rfl

theorem present_strings_elements_cons (f : upb_fielddef) (p : upb_value)
    (rest : List upb_value) :
    present_strings_elements f (p :: rest) =
      present_strings_value f p ++ present_strings_elements f rest := rfl

theorem present_strings_value_eq (f : upb_fielddef) (p : upb_value) :
    present_strings_value f p =
    match p with
    | .str s => if upb_isstring f then [s] else []
    | .msg m =>
      if upb_isstring f then [] else if upb_issubmsg f then present_strings m else []
    | _ => [] := by
  cases p <;> rfl

mutual
/-- A returning walk over the strings of a message interns the contents of its
present string fields, in order. -/
theorem add_strings_from_msg_foldl :
    ∀ (m : upb_msg) (t t1 : List strtable_entry),
      add_strings_from_msg m t = some t1 → t1 = (present_strings m).foldl intern t
  | .mk _ _ fields, t, t1, h => by
    rw [add_strings_from_msg_mk] at h
    rw [present_strings_mk]
    exact add_strings_from_fields_foldl fields t t1 h
/-- The loop over the fields, likewise. -/
theorem add_strings_from_fields_foldl :
    ∀ (fs : List (upb_fielddef × Bool × upb_value)) (t t1 : List strtable_entry),
      add_strings_from_fields fs t = some t1 → t1 = (present_strings_fields fs).foldl intern t
  | [], t, t1, h => by
    rw [add_strings_from_fields_nil, Option.some.injEq] at h
    rw [present_strings_fields_nil]; exact h.symm
  | (f, isset, .arr (.mk addr elements)) :: rest, t, t1, h => by
    rw [add_strings_from_fields_cons] at h
    rw [present_strings_fields_cons, List.foldl_append]
    cases isset with
    | false => simpa using add_strings_from_fields_foldl rest t t1 (by simpa using h)
    | true =>
      cases ha : upb_isarray f with
      | true =>
        simp only [ha, Bool.not_true, Bool.false_eq_true, if_false, if_true,
          upb_array.elements] at h ⊢
        cases h2 : add_strings_from_elements elements f t with
        | none => simp [h2] at h
        | some t2 =>
          simp only [h2] at h
          rw [← add_strings_from_elements_foldl elements f t t2 h2]
          exact add_strings_from_fields_foldl rest t2 t1 h
      | false =>
        simp only [ha, Bool.not_true, Bool.false_eq_true, if_false, if_true] at h ⊢
        cases h2 : add_strings_from_value (.arr (.mk addr elements)) f t with
        | none => simp [h2] at h
        | some t2 =>
          simp only [h2] at h
          have h3 := add_strings_from_fields_foldl rest t2 t1 h
          rw [add_strings_from_value_eq] at h2
          rw [present_strings_value_eq]
          simp only [List.foldl_nil]
          split at h2
          · cases h2
          · split at h2
            · cases h2
            · cases h2; exact h3
  | (f, isset, .scalar r) :: rest, t, t1, h => by
    rw [add_strings_from_fields_cons] at h
    rw [present_strings_fields_cons, List.foldl_append]
    cases isset with
    | false => simpa using add_strings_from_fields_foldl rest t t1 (by simpa using h)
    | true =>
      cases ha : upb_isarray f with
      | true => simp [ha] at h
      | false =>
        simp only [ha, Bool.not_true, Bool.false_eq_true, if_false, if_true] at h ⊢
        cases h2 : add_strings_from_value (.scalar r) f t with
        | none => simp [h2] at h
        | some t2 =>
          simp only [h2] at h
          have h3 := add_strings_from_fields_foldl rest t2 t1 h
          rw [add_strings_from_value_eq] at h2
          rw [present_strings_value_eq]
          simp only [List.foldl_nil]
          split at h2
          · cases h2
          · split at h2
            · cases h2
            · cases h2; exact h3
  | (f, isset, .str s) :: rest, t, t1, h => by
    rw [add_strings_from_fields_cons] at h
    rw [present_strings_fields_cons, List.foldl_append]
    cases isset with
    | false => simpa using add_strings_from_fields_foldl rest t t1 (by simpa using h)
    | true =>
      cases ha : upb_isarray f with
      | true => simp [ha] at h
      | false =>
        simp only [ha, Bool.not_true, Bool.false_eq_true, if_false, if_true] at h ⊢
        cases h2 : add_strings_from_value (.str s) f t with
        | none => simp [h2] at h
        | some t2 =>
          simp only [h2] at h
          have h3 := add_strings_from_fields_foldl rest t2 t1 h
          rw [add_strings_from_value_eq] at h2
          rw [present_strings_value_eq]
          unfold upb_isstring
          split at h2
          · next hs =>
            simp only [Option.some.injEq] at h2
            simp only [hs, if_true, List.foldl_cons, List.foldl_nil, h2]
            exact h3
          · next hs =>
            simp only [hs, Bool.false_eq_true, if_false, List.foldl_nil]
            split at h2
            · cases h2
            · cases h2; exact h3
  | (f, isset, .msg m) :: rest, t, t1, h => by
    rw [add_strings_from_fields_cons] at h
    rw [present_strings_fields_cons, List.foldl_append]
    cases isset with
    | false => simpa using add_strings_from_fields_foldl rest t t1 (by simpa using h)
    | true =>
      cases ha : upb_isarray f with
      | true => simp [ha] at h
      | false =>
        simp only [ha, Bool.not_true, Bool.false_eq_true, if_false, if_true] at h ⊢
        cases h2 : add_strings_from_value (.msg m) f t with
        | none => simp [h2] at h
        | some t2 =>
          simp only [h2] at h
          have h3 := add_strings_from_fields_foldl rest t2 t1 h
          rw [add_strings_from_value_eq] at h2
          rw [present_strings_value_eq]
          unfold upb_isstring
          split at h2
          · cases h2
          · next hs =>
            simp only [hs, Bool.false_eq_true, if_false]
            split at h2
            · next hm =>
              simp only [hm, if_true]
              rw [← add_strings_from_msg_foldl m t t2 h2]
              exact h3
            · next hm =>
              simp only [hm, Bool.false_eq_true, if_false, List.foldl_nil]
              cases h2; exact h3
/-- The loop over the elements of an array, likewise. -/
theorem add_strings_from_elements_foldl :
    ∀ (es : List upb_value) (f : upb_fielddef) (t t1 : List strtable_entry),
      add_strings_from_elements es f t = some t1 →
        t1 = (present_strings_elements f es).foldl intern t
  | [], f, t, t1, h => by
    rw [add_strings_from_elements_nil, Option.some.injEq] at h
    rw [present_strings_elements_nil]; exact h.symm
  | .msg m :: rest, f, t, t1, h => by
    rw [add_strings_from_elements_cons] at h
    rw [present_strings_elements_cons, List.foldl_append]
    cases h2 : add_strings_from_value (.msg m) f t with
    | none => simp [h2] at h
    | some t2 =>
      simp only [h2] at h
      have h3 := add_strings_from_elements_foldl rest f t2 t1 h
      rw [add_strings_from_value_eq] at h2
      rw [present_strings_value_eq]
      unfold upb_isstring
      split at h2
      · cases h2
      · next hs =>
        simp only [hs, Bool.false_eq_true, if_false]
        split at h2
        · next hm =>
          simp only [hm, if_true]
          rw [← add_strings_from_msg_foldl m t t2 h2]
          exact h3
        · next hm =>
          simp only [hm, Bool.false_eq_true, if_false, List.foldl_nil]
          cases h2; exact h3
  | .str s :: rest, f, t, t1, h => by
    rw [add_strings_from_elements_cons] at h
    rw [present_strings_elements_cons, List.foldl_append]
    cases h2 : add_strings_from_value (.str s) f t with
    | none => simp [h2] at h
    | some t2 =>
      simp only [h2] at h
      have h3 := add_strings_from_elements_foldl rest f t2 t1 h
      rw [add_strings_from_value_eq] at h2
      rw [present_strings_value_eq]
      unfold upb_isstring
      split at h2
      · next hs =>
        simp only [Option.some.injEq] at h2
        simp only [hs, if_true, List.foldl_cons, List.foldl_nil, h2]
        exact h3
      · next hs =>
        simp only [hs, Bool.false_eq_true, if_false, List.foldl_nil]
        split at h2
        · cases h2
        · cases h2; exact h3
  | .scalar r :: rest, f, t, t1, h => by
    rw [add_strings_from_elements_cons] at h
    rw [present_strings_elements_cons, List.foldl_append]
    cases h2 : add_strings_from_value (.scalar r) f t with
    | none => simp [h2] at h
    | some t2 =>
      simp only [h2] at h
      have h3 := add_strings_from_elements_foldl rest f t2 t1 h
      rw [add_strings_from_value_eq] at h2
      rw [present_strings_value_eq]
      simp only [List.foldl_nil]
      split at h2
      · cases h2
      · split at h2
        · cases h2
        · cases h2; exact h3
  | .arr a :: rest, f, t, t1, h => by
    rw [add_strings_from_elements_cons] at h
    rw [present_strings_elements_cons, List.foldl_append]
    cases h2 : add_strings_from_value (.arr a) f t with
    | none => simp [h2] at h
    | some t2 =>
      simp only [h2] at h
      have h3 := add_strings_from_elements_foldl rest f t2 t1 h
      rw [add_strings_from_value_eq] at h2
      rw [present_strings_value_eq]
      simp only [List.foldl_nil]
      split at h2
      · cases h2
      · split at h2
        · cases h2
        · cases h2; exact h3
end

/-! ### The string table holds every content once -/

theorem strtable_lookup_none_iff (t : List strtable_entry) (s : Bytes) :
    upb_strtable_lookup t s = none ↔ s ∉ t.map (fun e => e.key) := by
  unfold upb_strtable_lookup
  rw [List.find?_eq_none]
  constructor
  · intro h hs
    obtain ⟨x, hx, hxs⟩ := List.mem_map.1 hs
    exact h x hx (by simpa using hxs)
  · intro h x hx
    simp only [decide_eq_true_eq]
    intro hxs
    exact h (List.mem_map.2 ⟨x, hx, hxs⟩)

theorem strtable_lookup_some_key {t : List strtable_entry} {s : Bytes} {e : strtable_entry}
    (h : upb_strtable_lookup t s = some e) : e.key = s ∧ e ∈ t := by
  unfold upb_strtable_lookup at h
  exact ⟨by simpa using List.find?_some h, List.mem_of_find?_eq_some h⟩

theorem intern_keys (t : List strtable_entry) (s : Bytes) :
    (intern t s).map (fun e => e.key) =
      if s ∈ t.map (fun e => e.key) then t.map (fun e => e.key)
      else t.map (fun e => e.key) ++ [s] := by
  unfold intern
  by_cases h : s ∈ t.map (fun e => e.key)
  · have : ¬ upb_strtable_lookup t s = none := by
      rw [strtable_lookup_none_iff]; exact fun hc => hc h
    simp only [this, h, if_true, if_false]
  · have : upb_strtable_lookup t s = none := (strtable_lookup_none_iff t s).2 h
    simp only [this, h, if_true, if_false, upb_strtable_insert, List.map_append, List.map_cons,
      List.map_nil]

theorem foldl_intern_keys :
    ∀ (l : List Bytes) (t : List strtable_entry),
      (t.map (fun e => e.key)).Nodup →
        ((l.foldl intern t).map (fun e => e.key)).Nodup ∧
        ∀ s, s ∈ (l.foldl intern t).map (fun e => e.key) ↔
          s ∈ t.map (fun e => e.key) ∨ s ∈ l
  | [], t, h => ⟨h, fun s => by simp⟩
  | x :: l, t, h => by
    have hk := intern_keys t x
    have hn : ((intern t x).map (fun e => e.key)).Nodup := by
      rw [hk]
      split
      · exact h
      · next hx =>
        rw [List.nodup_append]
        refine ⟨h, List.nodup_singleton x, ?_⟩
        intro a ha hb
        rw [List.mem_singleton] at hb
        subst hb
        exact hx ha
    obtain ⟨h1, h2⟩ := foldl_intern_keys l (intern t x) hn
    refine ⟨h1, ?_⟩
    intro s
    rw [List.foldl_cons, h2 s, hk]
    split
    · next hx =>
      constructor
      · rintro (h3 | h3)
        · exact Or.inl h3
        · exact Or.inr (List.mem_cons_of_mem _ h3)
      · rintro (h3 | h3)
        · exact Or.inl h3
        · rcases List.mem_cons.1 h3 with h4 | h4
          · subst h4; exact Or.inl hx
          · exact Or.inr h4
    · constructor
      · rintro (h3 | h3)
        · rcases List.mem_append.1 h3 with h4 | h4
          · exact Or.inl h4
          · rw [List.mem_singleton] at h4
            subst h4; exact Or.inr (List.mem_cons_self _ _)
        · exact Or.inr (List.mem_cons_of_mem _ h3)
      · rintro (h3 | h3)
        · exact Or.inl (List.mem_append_left _ h3)
        · rcases List.mem_cons.1 h3 with h4 | h4
          · subst h4; exact Or.inl (List.mem_append_right _ (List.mem_singleton_self _))
          · exact Or.inr h4

/-! ### The numbering loop -/

theorem assign_offsets_keys :
    ∀ (l : List strtable_entry) (offset i : Nat),
      (assign_offsets l offset i).map (fun e => e.key) = l.map (fun e => e.key)
  | [], _, _ => rfl
  | e :: rest, offset, i => by
    simp [assign_offsets, assign_offsets_keys rest]

theorem assign_offsets_length :
    ∀ (l : List strtable_entry) (offset i : Nat), (assign_offsets l offset i).length = l.length
  | [], _, _ => rfl
  | e :: rest, offset, i => by
    simp [assign_offsets, assign_offsets_length rest]

theorem assign_offsets_getElem? :
    ∀ (l : List strtable_entry) (offset i j : Nat),
      (assign_offsets l offset i)[j]? =
        (l[j]?).map (fun e =>
          { e with offset := offset + ((l.take j).map (fun x => x.key.length)).sum,
                   num := i + j })
  | [], _, _, _ => by simp [assign_offsets]
  | e :: rest, offset, i, 0 => by simp [assign_offsets]
  | e :: rest, offset, i, j + 1 => by
    simp only [assign_offsets, List.getElem?_cons_succ, List.take_succ_cons, List.map_cons,
      List.sum_cons]
    rw [assign_offsets_getElem? rest]
    congr 1
    funext x
    congr 1 <;> omega

theorem str_entries_keys_perm (strings : List strtable_entry) :
    ((str_entries strings).map (fun e => e.key)).Perm (strings.map (fun e => e.key)) := by
  unfold str_entries strtable_to_array
  rw [assign_offsets_keys]
  exact (qsort_entries_perm strings).map _

theorem str_entries_num (strings : List strtable_entry) (e : strtable_entry)
    (h : e ∈ str_entries strings) : (str_entries strings)[e.num]? = some e := by
  obtain ⟨j, hj⟩ := List.getElem?_of_mem h
  have h2 := hj
  unfold str_entries at h2
  rw [assign_offsets_getElem?] at h2
  cases hq : (qsort_entries (strtable_to_array strings))[j]? with
  | none => simp [hq] at h2
  | some x =>
    simp only [hq, Option.map_some', Option.some.injEq] at h2
    have : e.num = j := by rw [← h2]; simp
    rw [this]; exact hj

/-- The keys of the finished pool: no content twice, and exactly the contents of
the present string fields. -/
theorem str_entries_keys (msg : upb_msg) (strings0 : List strtable_entry)
    (h : add_strings_from_msg msg [] = some strings0) :
    ((str_entries strings0).map (fun e => e.key)).Nodup ∧
      ∀ s, s ∈ (str_entries strings0).map (fun e => e.key) ↔ s ∈ present_strings msg := by
  have h1 := add_strings_from_msg_foldl msg [] strings0 h
  obtain ⟨hn, hm⟩ := foldl_intern_keys (present_strings msg) [] (by simp)
  rw [← h1] at hn hm
  have hp := str_entries_keys_perm strings0
  refine ⟨hp.nodup_iff.2 hn, ?_⟩
  intro s
  rw [hp.mem_iff, hm s]
  simp

theorem strtable_lookup_of_mem_keys (t : List strtable_entry) (s : Bytes)
    (h : s ∈ t.map (fun e => e.key)) :
    ∃ e, upb_strtable_lookup t s = some e := by
  cases hl : upb_strtable_lookup t s with
  | some e => exact ⟨e, rfl⟩
  | none => exact absurd h ((strtable_lookup_none_iff t s).1 hl)

/-- The present string fields of the scenario `Person`, in the order of the
walk. -/
theorem person_present_strings : present_strings person_root = [alice, bob, alice] := by
  decide

/-- The string table of the scenario `Person` after the walk: `Alice` and
`Bob`, each once. -/
theorem person_root_strings :
    add_strings_from_msg person_root [] =
      some [{ key := alice, offset := 0, num := 0 }, { key := bob, offset := 0, num := 0 }] := by
  decide

/-! ### The order and the offsets of the pool -/

theorem assign_offsets_lengths (l : List strtable_entry) (offset i : Nat) :
    (assign_offsets l offset i).map (fun x => x.key.length) = l.map (fun x => x.key.length) := by
  have h := congrArg (List.map List.length) (assign_offsets_keys l offset i)
  simpa [List.map_map] using h

theorem str_entries_offset (strings : List strtable_entry) (j : Nat)
    (h : j < (str_entries strings).length) :
    (str_entries strings)[j].offset =
      (((str_entries strings).map (fun x => x.key.length)).take j).sum := by
  have h1 : (str_entries strings)[j]? = some (str_entries strings)[j] :=
    List.getElem?_eq_getElem h
  have h2 := h1
  unfold str_entries at h2
  rw [assign_offsets_getElem?] at h2
  cases hq : (qsort_entries (strtable_to_array strings))[j]? with
  | none => simp [hq] at h2
  | some x =>
    simp only [hq, Option.map_some', Option.some.injEq] at h2
    have h3 : (str_entries strings)[j].offset =
        0 + (((qsort_entries (strtable_to_array strings)).take j).map
          (fun x => x.key.length)).sum := by
      have := congrArg (fun e => e.offset) h2
      simpa [str_entries] using this.symm
    rw [h3, Nat.zero_add, List.map_take]
    unfold str_entries
    rw [assign_offsets_lengths]

theorem str_entries_consecutive (strings : List strtable_entry) (i : Nat)
    (h : i + 1 < (str_entries strings).length) :
    (str_entries strings)[i + 1].offset =
      (str_entries strings)[i].offset + (str_entries strings)[i].key.length := by
  rw [str_entries_offset strings (i + 1) h, str_entries_offset strings i (by omega)]
  rw [List.sum_take_succ _ i (by simpa using (by omega : i < (str_entries strings).length))]
  simp

theorem upb_strcmp_nil_right (a : Bytes) (h : upb_strcmp a [] < 0) : False := by
  cases a <;> simp [upb_strcmp] at h

theorem str_entries_sorted (msg : upb_msg) (strings0 : List strtable_entry)
    (h : add_strings_from_msg msg [] = some strings0) :
    (str_entries strings0).Pairwise (fun a b => upb_strcmp a.key b.key < 0) := by
  have hn := (str_entries_keys msg strings0 h).1
  have hs : ((str_entries strings0).map (fun e => e.key)).Pairwise
      (fun a b => upb_strcmp a b ≤ 0) := by
    unfold str_entries
    rw [assign_offsets_keys, List.pairwise_map]
    exact qsort_entries_sorted _
  have hb := hs.and hn
  rw [List.pairwise_map] at hb
  refine hb.imp ?_
  intro a b hab
  by_cases h1 : upb_strcmp a.key b.key = 0
  · exact absurd (upb_strcmp_eq_zero _ _ h1) hab.2
  · have := hab.1
    omega

theorem str_entries_tail_nonempty (msg : upb_msg) (strings0 : List strtable_entry)
    (h : add_strings_from_msg msg [] = some strings0) (i : Nat)
    (hi : i + 1 < (str_entries strings0).length) :
    0 < (str_entries strings0)[i + 1].key.length := by
  have hs := str_entries_sorted msg strings0 h
  rw [List.pairwise_iff_getElem] at hs
  have := hs 0 (i + 1) (by omega) hi (by omega)
  cases hk : (str_entries strings0)[i + 1].key with
  | nil => rw [hk] at this; exact absurd this (fun hc => upb_strcmp_nil_right _ hc)
  | cons x r => simp

theorem str_entries_offset_mono (strings : List strtable_entry) (i j : Nat) (hij : i ≤ j)
    (hj : j < (str_entries strings).length) :
    (str_entries strings)[i].offset ≤ (str_entries strings)[j].offset := by
  induction j with
  | zero =>
    have : i = 0 := by omega
    subst this; exact Nat.le_refl _
  | succ n ih =>
    rcases Nat.eq_or_lt_of_le hij with h1 | h1
    · subst h1; exact Nat.le_refl _
    · have := ih (by omega) (by omega)
      rw [str_entries_consecutive strings n hj]
      omega

/-! ### What is written for a message value -/

theorem emit_flags_stream :
    ∀ (l : List (upb_fielddef × Bool × upb_value)) (s : emitter), s.status = .ok →
      (emit_each emit_flag l s).stream =
        s.stream ++ l.map (fun fd => item.flag fd.1.name fd.2.1) ∧
      (emit_each emit_flag l s).status = .ok
  | [], s, h => by simp [emit_each_nil, h]
  | fd :: rest, s, h => by
    rw [emit_each_cons_ok _ _ _ _ h]
    obtain ⟨h1, h2⟩ := emit_flags_stream rest (emit_flag fd s) h
    refine ⟨?_, h2⟩
    rw [h1]
    simp [emit_flag, emitter.put]

/-- What `emit_field` appends to the stream: the name of the field and, when
the field is not set, the text `0`; the run goes on after a field that is not
set. -/
theorem emit_field_stream (ctype : Nat → Bytes) (strings : List strtable_entry)
    (fd : upb_fielddef × Bool × upb_value) (s : emitter) :
    ∃ chunk, (emit_field ctype strings fd s).stream = s.stream ++ chunk ∧
      (fd.2.1 = false →
        chunk = [.field_name fd.1.name, .field_value .not_set] ∧
        (emit_field ctype strings fd s).status = s.status) := by
  unfold emit_field
  simp only []
  cases hset : fd.2.1 with
  | false =>
    refine ⟨[.field_name fd.1.name, .field_value .not_set], ?_, fun _ => ⟨rfl, ?_⟩⟩
    · simp [emitter.put]
    · simp [emitter.put]
  | true =>
    simp only [Bool.not_true, Bool.false_eq_true, if_false]
    split
    · split
      · exact ⟨[.field_name fd.1.name], by simp [emitter.put, emitter.stop], fun h => by cases h⟩
      · split
        · split
          · exact ⟨_, List.append_assoc _ _ _, fun h => by cases h⟩
          · exact ⟨[.field_name fd.1.name], by simp [emitter.put, emitter.stop],
              fun h => by cases h⟩
        · exact ⟨[.field_name fd.1.name], by simp [emitter.put, emitter.stop],
            fun h => by cases h⟩
    · split
      · split
        · split
          · exact ⟨_, List.append_assoc _ _ _, fun h => by cases h⟩
          · exact ⟨[.field_name fd.1.name],
              by simp [emitter.put, emitter.stop, emitter.set_types], fun h => by cases h⟩
        · exact ⟨[.field_name fd.1.name],
            by simp [emitter.put, emitter.stop, emitter.set_types], fun h => by cases h⟩
      · split
        · split
          · split
            · exact ⟨_, List.append_assoc _ _ _, fun h => by cases h⟩
            · exact ⟨[.field_name fd.1.name],
                by simp [emitter.put, emitter.stop, emitter.set_types], fun h => by cases h⟩
          · exact ⟨[.field_name fd.1.name],
              by simp [emitter.put, emitter.stop, emitter.set_types], fun h => by cases h⟩
        · exact ⟨_, List.append_assoc _ _ _, fun h => by cases h⟩

/-- What the loop over the fields appends to the stream: one chunk per field
reached; the chunk of a field that is not set is its name and the text `0`;
every field is reached when the loop ends with the run still going. -/
theorem emit_fields_stream (ctype : Nat → Bytes) (strings : List strtable_entry) :
    ∀ (l : List (upb_fielddef × Bool × upb_value)) (s : emitter), s.status = .ok →
      ∃ chunks : List (List item),
        (emit_each (emit_field ctype strings) l s).stream = s.stream ++ chunks.flatten ∧
        chunks.length ≤ l.length ∧
        (∀ (j : Nat) (hj : j < chunks.length) (hl : j < l.length), l[j].2.1 = false →
          chunks[j] = [.field_name l[j].1.name, .field_value .not_set]) ∧
        ((emit_each (emit_field ctype strings) l s).status = .ok → chunks.length = l.length)
  | [], s, _ => ⟨[], by simp [emit_each_nil], by simp, fun j hj => by simp at hj, fun _ => rfl⟩
  | fd :: rest, s, h => by
    rw [emit_each_cons_ok _ _ _ _ h]
    obtain ⟨chunk, hc, habsent⟩ := emit_field_stream ctype strings fd s
    by_cases hok : (emit_field ctype strings fd s).status = .ok
    · obtain ⟨chunks, h1, h2, h3, h4⟩ := emit_fields_stream ctype strings rest _ hok
      refine ⟨chunk :: chunks, ?_, by simpa using h2, ?_, fun h5 => by simpa using h4 h5⟩
      · rw [h1, hc]; simp
      · intro j hj hl hset
        cases j with
        | zero => simpa using (habsent (by simpa using hset)).1
        | succ n =>
          simp only [List.getElem_cons_succ] at hset ⊢
          exact h3 n (by simpa using hj) (by simpa using hl) hset
    · rw [emit_each_stopped _ _ _ hok]
      refine ⟨[chunk], by simp [hc], by simp, ?_, fun h5 => absurd h5 hok⟩
      intro j hj hl hset
      have : j = 0 := by simpa using hj
      subst this
      simpa using (habsent (by simpa using hset)).1

/-- C6 (presence fidelity). For a message value that `write_message_c` emits
(a value of an entry whose field is a submessage field), the stream gets the
opening of the set flags, then for every field of the message, in declaration
order, the flag `true` exactly when `upb_msg_isset` holds for that instance
and `false` otherwise, then the closing; and then one chunk per field reached
by the data loop, where the chunk of every field that is not set is the name
of the field and the text `0`. -/
theorem presence_fidelity (ctype : Nat → Bytes) (strings : List strtable_entry)
    (field : upb_fielddef) (m : upb_msg) (s : emitter)
    (hs : s.status = .ok) (hf : upb_issubmsg field = true) :
    ∃ (chunks : List (List item)) (closing : List item),
      (emit_value ctype strings field (.msg m) s).stream =
        s.stream ++ [.flags_begin] ++ m.fields.map (fun fd => item.flag fd.1.name fd.2.1) ++
          [.flags_end] ++ chunks.flatten ++ closing ∧
      chunks.length ≤ m.fields.length ∧
      (∀ (j : Nat) (hj : j < chunks.length) (hl : j < m.fields.length),
        m.fields[j].2.1 = false →
          chunks[j] = [.field_name m.fields[j].1.name, .field_value .not_set]) ∧
      ((emit_value ctype strings field (.msg m) s).status = .ok →
        chunks.length = m.fields.length ∧ closing = [.msg_end]) := by
  unfold emit_value
  simp only [hf, if_true]
  obtain ⟨hfl, hfs⟩ := emit_flags_stream m.fields (s.put .flags_begin) hs
  obtain ⟨chunks, h1, h2, h3, h4⟩ := emit_fields_stream ctype strings m.fields
    ((emit_each emit_flag m.fields (s.put .flags_begin)).put .flags_end) hfs
  have hstream : ((emit_each emit_flag m.fields (s.put .flags_begin)).put .flags_end).stream =
      s.stream ++ [.flags_begin] ++ m.fields.map (fun fd => item.flag fd.1.name fd.2.1) ++
        [.flags_end] := by
    show (emit_each emit_flag m.fields (s.put .flags_begin)).stream ++ [.flags_end] = _
    rw [hfl]; rfl
  rw [hstream] at h1
  split
  · next hok =>
    refine ⟨chunks, [.msg_end], ?_, h2, h3, fun _ => ⟨h4 hok, rfl⟩⟩
    show (emit_each (emit_field ctype strings) m.fields _).stream ++ [.msg_end] = _
    rw [h1]
  · next hne =>
    refine ⟨chunks, [], ?_, h2, h3, fun h5 => absurd h5 (by simpa using hne)⟩
    rw [h1]; simp

/-- C6, at the root of the scenario `Person`, whose field `age` is not set. -/
theorem presence_fidelity_witness :
    ∃ (chunks : List (List item)) (closing : List item),
      (emit_value c_types person_pool (fake_field person_root) (.msg person_root)
          person_start).stream =
        person_start.stream ++ [.flags_begin] ++
          person_root.fields.map (fun fd => item.flag fd.1.name fd.2.1) ++
          [.flags_end] ++ chunks.flatten ++ closing ∧
      chunks.length ≤ person_root.fields.length ∧
      (∀ (j : Nat) (hj : j < chunks.length) (hl : j < person_root.fields.length),
        person_root.fields[j].2.1 = false →
          chunks[j] = [.field_name person_root.fields[j].1.name, .field_value .not_set]) ∧
      ((emit_value c_types person_pool (fake_field person_root) (.msg person_root)
          person_start).status = .ok →
        chunks.length = person_root.fields.length ∧ closing = [.msg_end]) :=
  presence_fidelity c_types person_pool (fake_field person_root) person_root person_start
    rfl rfl

/-- C8 (the scenario `Person`). For `Person{name = "Alice", friends =
[Person{name = "Bob"}, Person{name = "Alice"}]}` with `age` not set anywhere:
the pool has exactly the two entries `Alice` (index 0, offset 0) and `Bob`
(index 1, offset 5); the type table has exactly one entry, for `Person`, with
exactly the three values root, `Bob`, copy of `Alice` at the indices 0, 1, 2
and exactly one array record `{offset 1, len 2}` for the array of the root; the
element table refers to the values 1 and 2 and its header is `{0, 2}`; the
field `friends` of the root refers to array 0; both fields `name` holding
`Alice` refer to string 0, the one holding `Bob` to string 1; and the flag of
`age` is `false` in all three values. -/
theorem person_scenario :
    (add_strings_from_msg person_root []).map str_entries = some person_pool ∧
    gather_types c_types person_root = some person_types ∧
    (write_message_c c_types person_root [] [] [] []).status = .ok ∧
    (write_message_c c_types person_root [] [] [] []).stream =
      [.prologue [] [] [],
       .strdata (alice ++ bob),
       .strings [(0, 5), (5, 3)],
       .forward_decl person_fqname 3,
       .array_elems person_fqname [1, 2],
       .arrays person_fqname 1 [(0, 2)],
       .values_begin person_fqname 3,
       .flags_begin,
       .flag person_name.name true, .flag person_age.name false,
       .flag person_friends.name true,
       .flags_end,
       .field_name person_name.name, .field_value (.string_ref 0 alice),
       .field_name person_age.name, .field_value .not_set,
       .field_name person_friends.name, .field_value (.array_ref person_fqname 0),
       .msg_end,
       .flags_begin,
       .flag person_name.name true, .flag person_age.name false,
       .flag person_friends.name false,
       .flags_end,
       .field_name person_name.name, .field_value (.string_ref 1 bob),
       .field_name person_age.name, .field_value .not_set,
       .field_name person_friends.name, .field_value .not_set,
       .msg_end,
       .flags_begin,
       .flag person_name.name true, .flag person_age.name false,
       .flag person_friends.name false,
       .flags_end,
       .field_name person_name.name, .field_value (.string_ref 0 alice),
       .field_name person_age.name, .field_value .not_set,
       .field_name person_friends.name, .field_value .not_set,
       .msg_end,
       .values_end,
       .root person_fqname []] :=
  ⟨by decide, rfl, by decide, rfl⟩

/-! ### Every registered message has its fields registered -/

theorem add_submsgs_fields_extends (ctype : Nat → Bytes)
    (fs : List (upb_fielddef × Bool × upb_value)) (t t1 : List typetable_entry)
    (h : add_submsgs_fields ctype fs t = some t1) : table_extends t t1 :=
  add_submsgs_fields_steps ctype table_extends (table_extends_step_closed ctype) fs t t1 h

theorem add_submsgs_elements_extends (ctype : Nat → Bytes)
    (es : List upb_value) (t t1 : List typetable_entry)
    (h : add_submsgs_elements ctype es t = some t1) : table_extends t t1 :=
  add_submsgs_elements_steps ctype table_extends (table_extends_step_closed ctype) es t t1 h

theorem field_closed_mono (ctype : Nat → Bytes) (t t1 : List typetable_entry)
    (hext : table_extends t t1) (fd : upb_fielddef × Bool × upb_value)
    (h : field_closed ctype t fd) : field_closed ctype t1 fd := by
  intro hset
  obtain ⟨h1, h2⟩ := h hset
  constructor
  · intro ha hs
    obtain ⟨a, hp, r, hr, hra⟩ := h1 ha hs
    exact ⟨a, hp, r, (table_extends_arrays t t1 hext _).subset hr, hra⟩
  · intro ha hm
    obtain ⟨m, hp, hmem⟩ := h2 ha hm
    exact ⟨m, hp, (table_extends_values t t1 hext _).subset hmem⟩

theorem msg_closed_mono (ctype : Nat → Bytes) (t t1 : List typetable_entry)
    (hext : table_extends t t1) (m : upb_msg) (h : msg_closed ctype t m) :
    msg_closed ctype t1 m :=
  fun fd hfd => field_closed_mono ctype t t1 hext fd (h fd hfd)

theorem new_closed_refl (ctype : Nat → Bytes) (t : List typetable_entry) :
    new_closed ctype t t := fun _ _ h => Or.inl h

theorem new_closed_trans (ctype : Nat → Bytes) (t t1 t2 : List typetable_entry)
    (h1 : new_closed ctype t t1) (h2 : new_closed ctype t1 t2) (hext : table_extends t1 t2) :
    new_closed ctype t t2 := by
  intro k v hv
  rcases h2 k v hv with h | h
  · rcases h1 k v h with h | ⟨x, hx, hc⟩
    · exact Or.inl h
    · exact Or.inr ⟨x, hx, msg_closed_mono ctype t1 t2 hext x hc⟩
  · exact Or.inr h

mutual
/-- After a returning call of `add_submsgs` every present field of the message
is registered, and so is every present field of every message added. -/
theorem add_submsgs_closed (ctype : Nat → Bytes) :
    ∀ (m : upb_msg) (t t1 : List typetable_entry), add_submsgs ctype m t = some t1 →
      msg_closed ctype t1 m ∧ new_closed ctype t t1
  | .mk _ _ fields, t, t1, h => by
    rw [add_submsgs_mk] at h
    exact add_submsgs_fields_closed ctype fields t t1 h
/-- The loop over the fields, likewise. -/
theorem add_submsgs_fields_closed (ctype : Nat → Bytes) :
    ∀ (fs : List (upb_fielddef × Bool × upb_value)) (t t1 : List typetable_entry),
      add_submsgs_fields ctype fs t = some t1 →
        (∀ fd ∈ fs, field_closed ctype t1 fd) ∧ new_closed ctype t t1
  | [], t, t1, h => by
    rw [add_submsgs_fields_nil, Option.some.injEq] at h
    subst h
    exact ⟨fun _ hfd => (nomatch hfd), new_closed_refl ctype t⟩
  | (f, isset, .scalar r) :: rest, t, t1, h => by
    rcases add_submsgs_fields_cons_some ctype t t1 f isset _ rest h with
      ⟨hskip, h1⟩ | ⟨_, _, _, a, t3, hp, _, _⟩ | ⟨_, _, _, m, t2, hp, _, _⟩
    · obtain ⟨ih1, ih2⟩ := add_submsgs_fields_closed ctype rest t t1 h1
      refine ⟨?_, ih2⟩
      intro fd hfd
      rcases List.mem_cons.1 hfd with hfd | hfd
      · subst hfd
        intro hset
        rcases hskip with hs | ⟨hs1, hs2⟩ | ⟨hs1, hs2⟩
        · simp [hs] at hset
        · exact ⟨fun _ hc => by simp [hs2] at hc, fun hc _ => by simp [hs1] at hc⟩
        · exact ⟨fun hc _ => by simp [hs1] at hc, fun _ hc => by simp [hs2] at hc⟩
      · exact ih1 fd hfd
    · cases hp
    · cases hp
  | (f, isset, .str r) :: rest, t, t1, h => by
    rcases add_submsgs_fields_cons_some ctype t t1 f isset _ rest h with
      ⟨hskip, h1⟩ | ⟨_, _, _, a, t3, hp, _, _⟩ | ⟨_, _, _, m, t2, hp, _, _⟩
    · obtain ⟨ih1, ih2⟩ := add_submsgs_fields_closed ctype rest t t1 h1
      refine ⟨?_, ih2⟩
      intro fd hfd
      rcases List.mem_cons.1 hfd with hfd | hfd
      · subst hfd
        intro hset
        rcases hskip with hs | ⟨hs1, hs2⟩ | ⟨hs1, hs2⟩
        · simp [hs] at hset
        · exact ⟨fun _ hc => by simp [hs2] at hc, fun hc _ => by simp [hs1] at hc⟩
        · exact ⟨fun hc _ => by simp [hs1] at hc, fun _ hc => by simp [hs2] at hc⟩
      · exact ih1 fd hfd
    · cases hp
    · cases hp
  | (f, isset, .msg m) :: rest, t, t1, h => by
    rcases add_submsgs_fields_cons_some ctype t t1 f isset _ rest h with
      ⟨hskip, h1⟩ | ⟨_, _, _, a, t3, hp, _, _⟩ | ⟨hset0, ha, hm, m1, t2, hp, h2, h3⟩
    · obtain ⟨ih1, ih2⟩ := add_submsgs_fields_closed ctype rest t t1 h1
      refine ⟨?_, ih2⟩
      intro fd hfd
      rcases List.mem_cons.1 hfd with hfd | hfd
      · subst hfd
        intro hset
        rcases hskip with hs | ⟨hs1, hs2⟩ | ⟨hs1, hs2⟩
        · simp [hs] at hset
        · exact ⟨fun _ hc => by simp [hs2] at hc, fun hc _ => by simp [hs1] at hc⟩
        · exact ⟨fun hc _ => by simp [hs1] at hc, fun _ hc => by simp [hs2] at hc⟩
      · exact ih1 fd hfd
    · cases hp
    · cases hp
      obtain ⟨im1, im2⟩ := add_submsgs_closed ctype m _ t2 h2
      obtain ⟨ih1, ih2⟩ := add_submsgs_fields_closed ctype rest t2 t1 h3
      have e12 := add_submsgs_extends ctype m _ t2 h2
      have e23 := add_submsgs_fields_extends ctype rest t2 t1 h3
      have hin : upb_value.msg m ∈ values_of (add_value ctype (.msg m) f t) (type_name ctype f) := by
        rw [values_of_add_value]; simp
      constructor
      · intro fd hfd
        rcases List.mem_cons.1 hfd with hfd | hfd
        · subst hfd
          intro _
          refine ⟨fun hc _ => by simp [ha] at hc, fun _ _ => ⟨m, rfl, ?_⟩⟩
          exact (table_extends_values _ _ (table_extends_trans _ _ _ e12 e23) _).subset hin
        · exact ih1 fd hfd
      · refine new_closed_trans ctype t t2 t1 ?_ ih2 e23
        intro k v hv
        rcases im2 k v hv with hv1 | hv1
        · rw [values_of_add_value] at hv1
          split at hv1
          · rcases List.mem_append.1 hv1 with hv2 | hv2
            · exact Or.inl hv2
            · rw [List.mem_singleton] at hv2
              exact Or.inr ⟨m, hv2, im1⟩
          · exact Or.inl hv1
        · exact Or.inr hv1
  | (f, isset, .arr (.mk addr elements)) :: rest, t, t1, h => by
    rcases add_submsgs_fields_cons_some ctype t t1 f isset _ rest h with
      ⟨hskip, h1⟩ | ⟨hset0, ha, hs, a, t3, hp, h2, h3⟩ | ⟨_, _, _, m1, t2, hp, _, _⟩
    · obtain ⟨ih1, ih2⟩ := add_submsgs_fields_closed ctype rest t t1 h1
      refine ⟨?_, ih2⟩
      intro fd hfd
      rcases List.mem_cons.1 hfd with hfd | hfd
      · subst hfd
        intro hset
        rcases hskip with hs | ⟨hs1, hs2⟩ | ⟨hs1, hs2⟩
        · simp [hs] at hset
        · exact ⟨fun _ hc => by simp [hs2] at hc, fun hc _ => by simp [hs1] at hc⟩
        · exact ⟨fun hc _ => by simp [hs1] at hc, fun _ hc => by simp [hs2] at hc⟩
      · exact ih1 fd hfd
    · cases hp
      obtain ⟨ie1, ie2⟩ := add_submsgs_elements_closed ctype elements _ t3 h2
      obtain ⟨ih1, ih2⟩ := add_submsgs_fields_closed ctype rest t3 t1 h3
      have e12 := add_submsgs_elements_extends ctype elements _ t3 h2
      have e23 := add_submsgs_fields_extends ctype rest t3 t1 h3
      have hin : array.mk (values_of t (type_name ctype f)).length
          (upb_array.mk addr elements).len (.mk addr elements) ∈
          arrays_of (add_values ctype elements f
            (add_array ctype (.mk addr elements) f t)) (type_name ctype f) := by
        rw [arrays_of_add_values, arrays_of_add_array]; simp
      constructor
      · intro fd hfd
        rcases List.mem_cons.1 hfd with hfd | hfd
        · subst hfd
          intro _
          refine ⟨fun _ _ => ⟨.mk addr elements, rfl,
            array.mk (values_of t (type_name ctype f)).length
              (upb_array.mk addr elements).len (.mk addr elements), ?_, rfl⟩,
            fun hc _ => by simp [ha] at hc⟩
          exact (table_extends_arrays _ _ (table_extends_trans _ _ _ e12 e23) _).subset hin
        · exact ih1 fd hfd
      · refine new_closed_trans ctype t t3 t1 ?_ ih2 e23
        intro k v hv
        rcases ie2 k v hv with hv1 | hv1
        · rw [values_of_add_values, values_of_add_array] at hv1
          split at hv1
          · rcases List.mem_append.1 hv1 with hv2 | hv2
            · exact Or.inl hv2
            · exact Or.inr (ie1 v hv2)
          · exact Or.inl hv1
        · exact Or.inr hv1
    · cases hp
/-- The loop over the elements of an array, likewise. -/
theorem add_submsgs_elements_closed (ctype : Nat → Bytes) :
    ∀ (es : List upb_value) (t t1 : List typetable_entry),
      add_submsgs_elements ctype es t = some t1 →
        (∀ p ∈ es, ∃ x, p = upb_value.msg x ∧ msg_closed ctype t1 x) ∧ new_closed ctype t t1
  | [], t, t1, h => by
    rw [add_submsgs_elements_nil, Option.some.injEq] at h
    subst h
    exact ⟨fun _ hp => (nomatch hp), new_closed_refl ctype t⟩
  | .msg m :: rest, t, t1, h => by
    obtain ⟨m1, t2, hp, h2, h3⟩ := add_submsgs_elements_cons_some ctype t t1 _ rest h
    cases hp
    obtain ⟨im1, im2⟩ := add_submsgs_closed ctype m t t2 h2
    obtain ⟨ih1, ih2⟩ := add_submsgs_elements_closed ctype rest t2 t1 h3
    have e23 := add_submsgs_elements_extends ctype rest t2 t1 h3
    constructor
    · intro p hp
      rcases List.mem_cons.1 hp with hp | hp
      · exact ⟨m, hp, msg_closed_mono ctype t2 t1 e23 m im1⟩
      · exact ih1 p hp
    · exact new_closed_trans ctype t t2 t1 im2 ih2 e23
  | .scalar _ :: rest, t, t1, h => by
    obtain ⟨m1, t2, hp, h2, h3⟩ := add_submsgs_elements_cons_some ctype t t1 _ rest h
    cases hp
  | .str _ :: rest, t, t1, h => by
    obtain ⟨m1, t2, hp, h2, h3⟩ := add_submsgs_elements_cons_some ctype t t1 _ rest h
    cases hp
  | .arr _ :: rest, t, t1, h => by
    obtain ⟨m1, t2, hp, h2, h3⟩ := add_submsgs_elements_cons_some ctype t t1 _ rest h
    cases hp
end

/-- After the traversal every value of every entry is a message all of whose
present fields are registered. -/
theorem gather_types_closed (ctype : Nat → Bytes) (msg : upb_msg)
    (types : List typetable_entry) (h : gather_types ctype msg = some types) :
    ∀ k v, v ∈ values_of types k → ∃ x, v = upb_value.msg x ∧ msg_closed ctype types x := by
  unfold gather_types at h
  obtain ⟨h1, h2⟩ := add_submsgs_closed ctype msg _ types h
  intro k v hv
  rcases h2 k v hv with hv1 | hv1
  · rw [values_of_add_value] at hv1
    split at hv1
    · simp only [values_of, types_lookup, List.find?_nil, List.nil_append,
        List.mem_singleton] at hv1
      exact ⟨msg, hv1, h1⟩
    · simp [values_of, types_lookup] at hv1
  · exact hv1

/-! ### Every registered value is met by the traversal -/

theorem walked_mk (a : Nat) (n : Bytes) (fields : List (upb_fielddef × Bool × upb_value)) :
    walked (.mk a n fields) = walked_fields fields := rfl

theorem walked_eq (m : upb_msg) : walked m = walked_fields m.fields := by
  cases m; rfl

theorem walked_fields_nil : walked_fields [] = [] := rfl

theorem walked_fields_cons (f : upb_fielddef) (isset : Bool) (p : upb_value)
    (rest : List (upb_fielddef × Bool × upb_value)) :
    walked_fields ((f, isset, p) :: rest) =
    (if isset then
      if upb_isarray f then
        if upb_isstring f then []
        else
          match p with
          | .arr a => .arr a :: (a.elements ++ walked_elements a.elements)
          | _ => []
      else if upb_issubmsg f then
        match p with
        | .msg m => .msg m :: walked m
        | _ => []
      else []
    else []) ++ walked_fields rest := by
  cases p with
  | arr a => cases a; rfl
  | _ => rfl

theorem walked_elements_nil : walked_elements [] = [] := rfl

theorem walked_elements_cons (p : upb_value) (rest : List upb_value) :
    walked_elements (p :: rest) =
    (match p with
    | .msg m => walked m
    | _ => []) ++ walked_elements rest := by
  cases p <;> rfl

theorem table_from_refl (t : List typetable_entry) (S : List upb_value) : table_from t t S :=
  ⟨fun _ _ h => Or.inl h, fun _ _ h => Or.inl h⟩

theorem table_from_trans (t t1 t2 : List typetable_entry) (S1 S2 S : List upb_value)
    (h1 : table_from t t1 S1) (h2 : table_from t1 t2 S2) (hs1 : S1 ⊆ S) (hs2 : S2 ⊆ S) :
    table_from t t2 S := by
  constructor
  · intro k v hv
    rcases h2.1 k v hv with h | h
    · rcases h1.1 k v h with h | h
      · exact Or.inl h
      · exact Or.inr (hs1 h)
    · exact Or.inr (hs2 h)
  · intro k r hr
    rcases h2.2 k r hr with h | h
    · rcases h1.2 k r h with h | h
      · exact Or.inl h
      · exact Or.inr (hs1 h)
    · exact Or.inr (hs2 h)

theorem table_from_add_value (ctype : Nat → Bytes) (p : upb_value) (f : upb_fielddef)
    (t : List typetable_entry) : table_from t (add_value ctype p f t) [p] := by
  constructor
  · intro k v hv
    rw [values_of_add_value] at hv
    split at hv
    · rcases List.mem_append.1 hv with h | h
      · exact Or.inl h
      · exact Or.inr h
    · exact Or.inl hv
  · intro k r hr
    rw [arrays_of_add_value] at hr
    exact Or.inl hr

theorem table_from_array_step (ctype : Nat → Bytes) (a : upb_array) (f : upb_fielddef)
    (t : List typetable_entry) :
    table_from t (add_values ctype a.elements f (add_array ctype a f t))
      (.arr a :: a.elements) := by
  constructor
  · intro k v hv
    rw [values_of_add_values, values_of_add_array] at hv
    split at hv
    · rcases List.mem_append.1 hv with h | h
      · exact Or.inl h
      · exact Or.inr (List.mem_cons_of_mem _ h)
    · exact Or.inl hv
  · intro k r hr
    rw [arrays_of_add_values, arrays_of_add_array] at hr
    split at hr
    · rcases List.mem_append.1 hr with h | h
      · exact Or.inl h
      · rw [List.mem_singleton] at h
        subst h
        exact Or.inr (List.mem_cons_self _ _)
    · exact Or.inl hr

mutual
/-- What a returning call of `add_submsgs` adds to the table is what the
traversal meets below the message. -/
theorem add_submsgs_from (ctype : Nat → Bytes) :
    ∀ (m : upb_msg) (t t1 : List typetable_entry), add_submsgs ctype m t = some t1 →
      table_from t t1 (walked m)
  | .mk _ _ fields, t, t1, h => by
    rw [add_submsgs_mk] at h
    rw [walked_mk]
    exact add_submsgs_fields_from ctype fields t t1 h
/-- The loop over the fields, likewise. -/
theorem add_submsgs_fields_from (ctype : Nat → Bytes) :
    ∀ (fs : List (upb_fielddef × Bool × upb_value)) (t t1 : List typetable_entry),
      add_submsgs_fields ctype fs t = some t1 → table_from t t1 (walked_fields fs)
  | [], t, t1, h => by
    rw [add_submsgs_fields_nil, Option.some.injEq] at h
    subst h
    exact table_from_refl t _
  | (f, isset, .scalar r) :: rest, t, t1, h => by
    rcases add_submsgs_fields_cons_some ctype t t1 f isset _ rest h with
      ⟨_, h1⟩ | ⟨_, _, _, a, t3, hp, _, _⟩ | ⟨_, _, _, m, t2, hp, _, _⟩
    · rw [walked_fields_cons]
      exact table_from_trans t t t1 [] _ _ (table_from_refl t _)
        (add_submsgs_fields_from ctype rest t t1 h1) (by simp) (by simp)
    · cases hp
    · cases hp
  | (f, isset, .str r) :: rest, t, t1, h => by
    rcases add_submsgs_fields_cons_some ctype t t1 f isset _ rest h with
      ⟨_, h1⟩ | ⟨_, _, _, a, t3, hp, _, _⟩ | ⟨_, _, _, m, t2, hp, _, _⟩
    · rw [walked_fields_cons]
      exact table_from_trans t t t1 [] _ _ (table_from_refl t _)
        (add_submsgs_fields_from ctype rest t t1 h1) (by simp) (by simp)
    · cases hp
    · cases hp
  | (f, isset, .msg m) :: rest, t, t1, h => by
    rcases add_submsgs_fields_cons_some ctype t t1 f isset _ rest h with
      ⟨_, h1⟩ | ⟨_, _, _, a, t3, hp, _, _⟩ | ⟨hset, ha, hm, m1, t2, hp, h2, h3⟩
    · rw [walked_fields_cons]
      exact table_from_trans t t t1 [] _ _ (table_from_refl t _)
        (add_submsgs_fields_from ctype rest t t1 h1) (by simp) (by simp)
    · cases hp
    · cases hp
      rw [walked_fields_cons]
      simp only [hset, ha, hm, if_true, Bool.false_eq_true, if_false]
      have s1 := table_from_add_value ctype (.msg m) f t
      have s2 := add_submsgs_from ctype m _ t2 h2
      have s3 := add_submsgs_fields_from ctype rest t2 t1 h3
      have s12 := table_from_trans _ _ _ _ _ (upb_value.msg m :: walked m) s1 s2
        (by simp) (by simp)
      exact table_from_trans _ _ _ _ _ _ s12 s3 (by simp) (by simp)
  | (f, isset, .arr (.mk addr elements)) :: rest, t, t1, h => by
    rcases add_submsgs_fields_cons_some ctype t t1 f isset _ rest h with
      ⟨_, h1⟩ | ⟨hset, ha, hs, a, t3, hp, h2, h3⟩ | ⟨_, _, _, m1, t2, hp, _, _⟩
    · rw [walked_fields_cons]
      exact table_from_trans t t t1 [] _ _ (table_from_refl t _)
        (add_submsgs_fields_from ctype rest t t1 h1) (by simp) (by simp)
    · cases hp
      rw [walked_fields_cons]
      simp only [hset, ha, hs, if_true, Bool.false_eq_true, if_false]
      have s1 := table_from_array_step ctype (.mk addr elements) f t
      have s2 := add_submsgs_elements_from ctype elements _ t3 h2
      have s3 := add_submsgs_fields_from ctype rest t3 t1 h3
      have s12 := table_from_trans _ _ _ _ _
        (upb_value.arr (.mk addr elements) ::
          ((upb_array.mk addr elements).elements ++
            walked_elements (upb_array.mk addr elements).elements)) s1 s2
        (by intro x hx; simp only [List.mem_cons, List.mem_append] at hx ⊢; tauto)
        (by intro x hx; simp only [List.mem_cons, List.mem_append]
            exact Or.inr (Or.inr hx))
      exact table_from_trans _ _ _ _ _ _ s12 s3
        (by intro x hx; simp only [List.mem_cons, List.mem_append, upb_array.elements] at hx ⊢
            tauto)
        (by intro x hx; simp only [List.mem_cons, List.mem_append]; tauto)
    · cases hp
/-- The loop over the elements of an array, likewise. -/
theorem add_submsgs_elements_from (ctype : Nat → Bytes) :
    ∀ (es : List upb_value) (t t1 : List typetable_entry),
      add_submsgs_elements ctype es t = some t1 → table_from t t1 (walked_elements es)
  | [], t, t1, h => by
    rw [add_submsgs_elements_nil, Option.some.injEq] at h
    subst h
    exact table_from_refl t _
  | .msg m :: rest, t, t1, h => by
    obtain ⟨m1, t2, hp, h2, h3⟩ := add_submsgs_elements_cons_some ctype t t1 _ rest h
    cases hp
    rw [walked_elements_cons]
    exact table_from_trans _ _ _ _ _ _ (add_submsgs_from ctype m t t2 h2)
      (add_submsgs_elements_from ctype rest t2 t1 h3) (by simp) (by simp)
  | .scalar _ :: rest, t, t1, h => by
    obtain ⟨m1, t2, hp, h2, h3⟩ := add_submsgs_elements_cons_some ctype t t1 _ rest h
    cases hp
  | .str _ :: rest, t, t1, h => by
    obtain ⟨m1, t2, hp, h2, h3⟩ := add_submsgs_elements_cons_some ctype t t1 _ rest h
    cases hp
  | .arr _ :: rest, t, t1, h => by
    obtain ⟨m1, t2, hp, h2, h3⟩ := add_submsgs_elements_cons_some ctype t t1 _ rest h
    cases hp
end

/-- After the traversal every value of every entry is the root or is met below
the root, and every array record is the record of an array met below the
root. -/
theorem gather_types_from (ctype : Nat → Bytes) (msg : upb_msg)
    (types : List typetable_entry) (h : gather_types ctype msg = some types) :
    (∀ k v, v ∈ values_of types k → v ∈ upb_value.msg msg :: walked msg) ∧
    (∀ k r, r ∈ arrays_of types k → upb_value.arr r.ptr ∈ walked msg) := by
  unfold gather_types at h
  have s1 := table_from_add_value ctype (.msg msg) (fake_field msg) []
  have s2 := add_submsgs_from ctype msg _ types h
  have s := table_from_trans _ _ _ _ _ (upb_value.msg msg :: walked msg) s1 s2
    (by simp) (by simp)
  constructor
  · intro k v hv
    rcases s.1 k v hv with h1 | h1
    · simp [values_of, types_lookup] at h1
    · exact h1
  · intro k r hr
    rcases s.2 k r hr with h1 | h1
    · simp [arrays_of, types_lookup] at h1
    · rcases List.mem_cons.1 h1 with h2 | h2
      · cases h2
      · exact h2

/-! ### The strings of every message met are present strings -/

theorem conforms_mk (a : Nat) (n : Bytes) (fields : List (upb_fielddef × Bool × upb_value)) :
    conforms (.mk a n fields) = conforms_fields fields := rfl

theorem conforms_eq (m : upb_msg) : conforms m = conforms_fields m.fields := by
  cases m; rfl

theorem conforms_fields_cons (f : upb_fielddef) (isset : Bool) (p : upb_value)
    (rest : List (upb_fielddef × Bool × upb_value)) :
    conforms_fields ((f, isset, p) :: rest) =
    ((if isset then
      if upb_isarray f then
        match p with
        | .arr a => conforms_elements f a.elements
        | _ => false
      else conforms_value f p
    else true) && conforms_fields rest) := by
  cases p with
  | arr a => cases a; rfl
  | _ => rfl

theorem conforms_elements_cons (f : upb_fielddef) (p : upb_value) (rest : List upb_value) :
    conforms_elements f (p :: rest) = (conforms_value f p && conforms_elements f rest) := rfl

theorem conforms_value_msg (f : upb_fielddef) (m : upb_msg) :
    conforms_value f (.msg m) =
      (!upb_isstring f && upb_issubmsg f && decide (m.fqname = f.def_fqname) && conforms m) :=
  rfl

theorem conforms_value_str (f : upb_fielddef) (s : Bytes) :
    conforms_value f (.str s) = upb_isstring f := rfl

theorem conforms_value_scalar (f : upb_fielddef) (r : Int) :
    conforms_value f (.scalar r) = (!upb_isstring f && !upb_issubmsg f) := rfl

theorem conforms_value_arr (f : upb_fielddef) (a : upb_array) :
    conforms_value f (.arr a) = false := rfl

theorem strings_among_mono (L L1 : List Bytes) (x : upb_msg) (hsub : L ⊆ L1)
    (h : strings_among L x) : strings_among L1 x := by
  intro fd hfd h1 h2 h3
  obtain ⟨s, hs, hmem⟩ := h fd hfd h1 h2 h3
  exact ⟨s, hs, hsub hmem⟩

theorem strings_among_cons (L : List Bytes) (a : Nat) (n : Bytes) (f : upb_fielddef)
    (isset : Bool) (p : upb_value) (rest : List (upb_fielddef × Bool × upb_value))
    (hhead : isset = true → upb_isstring f = true → upb_isarray f = false →
      ∃ s, p = upb_value.str s ∧ s ∈ L)
    (hrest : strings_among L (.mk a n rest)) :
    strings_among L (.mk a n ((f, isset, p) :: rest)) := by
  intro fd hfd
  rcases List.mem_cons.1 hfd with h | h
  · subst h; exact hhead
  · exact hrest fd h

mutual
/-- In a conforming message, the strings of the present singular string fields
of the message and of every message met below it are present strings. -/
theorem conforms_strings :
    ∀ (m : upb_msg), conforms m = true →
      strings_among (present_strings m) m ∧
      ∀ x, upb_value.msg x ∈ walked m → strings_among (present_strings m) x
  | .mk a n fields, h => by
    rw [conforms_mk] at h
    rw [present_strings_mk, walked_mk]
    obtain ⟨h1, h2⟩ := conforms_strings_fields a n fields h
    exact ⟨h1, h2⟩
/-- The same for a list of field slots. -/
theorem conforms_strings_fields (a : Nat) (n : Bytes) :
    ∀ (fs : List (upb_fielddef × Bool × upb_value)), conforms_fields fs = true →
      strings_among (present_strings_fields fs) (.mk a n fs) ∧
      ∀ x, upb_value.msg x ∈ walked_fields fs → strings_among (present_strings_fields fs) x
  | [], _ => ⟨fun _ hfd => (nomatch hfd), fun _ hx => (nomatch hx)⟩
  | (f, isset, .str s) :: rest, h => by
    rw [conforms_fields_cons, Bool.and_eq_true] at h
    obtain ⟨ih1, ih2⟩ := conforms_strings_fields a n rest h.2
    rw [present_strings_fields_cons, walked_fields_cons]
    constructor
    · refine strings_among_cons _ a n f isset _ rest ?_
        (strings_among_mono _ _ _ (by simp) ih1)
      intro h1 h2 h3
      refine ⟨s, rfl, ?_⟩
      simp [h1, h3, present_strings_value_eq, h2]
    · intro x hx
      have : upb_value.msg x ∈ walked_fields rest := by
        rcases List.mem_append.1 hx with h1 | h1
        · split at h1
          · split at h1
            · split at h1 <;> simp at h1
            · split at h1 <;> simp at h1
          · simp at h1
        · exact h1
      exact strings_among_mono _ _ _ (by simp) (ih2 x this)
  | (f, isset, .scalar r) :: rest, h => by
    rw [conforms_fields_cons, Bool.and_eq_true] at h
    obtain ⟨ih1, ih2⟩ := conforms_strings_fields a n rest h.2
    rw [present_strings_fields_cons, walked_fields_cons]
    constructor
    · refine strings_among_cons _ a n f isset _ rest ?_
        (strings_among_mono _ _ _ (by simp) ih1)
      intro h1 h2 h3
      have := h.1
      simp [h1, h3, conforms_value_scalar, h2] at this
    · intro x hx
      have : upb_value.msg x ∈ walked_fields rest := by
        rcases List.mem_append.1 hx with h1 | h1
        · split at h1
          · split at h1
            · split at h1 <;> simp at h1
            · split at h1 <;> simp at h1
          · simp at h1
        · exact h1
      exact strings_among_mono _ _ _ (by simp) (ih2 x this)
  | (f, isset, .msg m) :: rest, h => by
    rw [conforms_fields_cons, Bool.and_eq_true] at h
    obtain ⟨ih1, ih2⟩ := conforms_strings_fields a n rest h.2
    rw [present_strings_fields_cons, walked_fields_cons]
    constructor
    · refine strings_among_cons _ a n f isset _ rest ?_
        (strings_among_mono _ _ _ (by simp) ih1)
      intro h1 h2 h3
      have := h.1
      simp [h1, h3, conforms_value_msg, h2] at this
    · intro x hx
      rcases List.mem_append.1 hx with h1 | h1
      · cases hset : isset with
        | false => simp [hset] at h1
        | true =>
          cases ha : upb_isarray f with
          | true =>
            have := h.1
            simp [hset, ha] at this
          | false =>
            have hc := h.1
            simp only [hset, ha, if_true, Bool.false_eq_true, if_false, conforms_value_msg,
              Bool.and_eq_true, Bool.not_eq_true', decide_eq_true_eq] at hc
            obtain ⟨⟨⟨hs, hm⟩, _⟩, hcm⟩ := hc
            simp only [hset, ha, hm, if_true, Bool.false_eq_true, if_false] at h1
            obtain ⟨im1, im2⟩ := conforms_strings m hcm
            have hps : present_strings_value f (.msg m) = present_strings m := by
              rw [present_strings_value_eq]; simp [hs, hm]
            simp only [hset, ha, if_true, Bool.false_eq_true, if_false, hps]
            rcases List.mem_cons.1 h1 with h2 | h2
            · cases h2
              exact strings_among_mono _ _ _ (by simp) im1
            · exact strings_among_mono _ _ _ (by simp) (im2 x h2)
      · exact strings_among_mono _ _ _ (by simp) (ih2 x h1)
  | (f, isset, .arr (.mk addr elements)) :: rest, h => by
    rw [conforms_fields_cons, Bool.and_eq_true] at h
    obtain ⟨ih1, ih2⟩ := conforms_strings_fields a n rest h.2
    rw [present_strings_fields_cons, walked_fields_cons]
    constructor
    · refine strings_among_cons _ a n f isset _ rest ?_
        (strings_among_mono _ _ _ (by simp) ih1)
      intro h1 h2 h3
      have := h.1
      simp [h1, h3, conforms_value_arr] at this
    · intro x hx
      rcases List.mem_append.1 hx with h1 | h1
      · cases hset : isset with
        | false => simp [hset] at h1
        | true =>
          cases ha : upb_isarray f with
          | false =>
            have := h.1
            simp [hset, ha, conforms_value_arr] at this
          | true =>
            cases hs : upb_isstring f with
            | true => simp [hset, ha, hs] at h1
            | false =>
              have hc := h.1
              simp only [hset, ha, if_true, upb_array.elements] at hc
              simp only [hset, ha, hs, if_true, Bool.false_eq_true, if_false,
                upb_array.elements] at h1 ⊢
              obtain ⟨ie1, ie2⟩ := conforms_strings_elements f elements hc hs
              rcases List.mem_cons.1 h1 with h2 | h2
              · cases h2
              · rcases List.mem_append.1 h2 with h3 | h3
                · exact strings_among_mono _ _ _ (by simp) (ie1 x h3)
                · exact strings_among_mono _ _ _ (by simp) (ie2 x h3)
      · exact strings_among_mono _ _ _ (by simp) (ih2 x h1)
/-- The same for the elements of an array of a field that is not a string
field. -/
theorem conforms_strings_elements (f : upb_fielddef) :
    ∀ (es : List upb_value), conforms_elements f es = true → upb_isstring f = false →
      (∀ x, upb_value.msg x ∈ es → strings_among (present_strings_elements f es) x) ∧
      ∀ x, upb_value.msg x ∈ walked_elements es →
        strings_among (present_strings_elements f es) x
  | [], _, _ => ⟨fun _ hx => (nomatch hx), fun _ hx => (nomatch hx)⟩
  | .msg m :: rest, h, hs => by
    rw [conforms_elements_cons, Bool.and_eq_true] at h
    obtain ⟨ih1, ih2⟩ := conforms_strings_elements f rest h.2 hs
    have hc := h.1
    simp only [conforms_value_msg, Bool.and_eq_true, Bool.not_eq_true',
      decide_eq_true_eq] at hc
    obtain ⟨⟨⟨_, hm⟩, _⟩, hcm⟩ := hc
    obtain ⟨im1, im2⟩ := conforms_strings m hcm
    have hps : present_strings_value f (.msg m) = present_strings m := by
      rw [present_strings_value_eq]; simp [hs, hm]
    rw [present_strings_elements_cons, walked_elements_cons, hps]
    constructor
    · intro x hx
      rcases List.mem_cons.1 hx with h1 | h1
      · cases h1
        exact strings_among_mono _ _ _ (by simp) im1
      · exact strings_among_mono _ _ _ (by simp) (ih1 x h1)
    · intro x hx
      rcases List.mem_append.1 hx with h1 | h1
      · exact strings_among_mono _ _ _ (by simp) (im2 x h1)
      · exact strings_among_mono _ _ _ (by simp) (ih2 x h1)
  | .str s :: rest, h, hs => by
    rw [conforms_elements_cons, Bool.and_eq_true, conforms_value_str] at h
    rw [hs] at h
    exact absurd h.1 (by simp)
  | .scalar r :: rest, h, hs => by
    rw [conforms_elements_cons, Bool.and_eq_true] at h
    obtain ⟨ih1, ih2⟩ := conforms_strings_elements f rest h.2 hs
    rw [present_strings_elements_cons, walked_elements_cons]
    constructor
    · intro x hx
      rcases List.mem_cons.1 hx with h1 | h1
      · cases h1
      · exact strings_among_mono _ _ _ (by simp) (ih1 x h1)
    · intro x hx
      rcases List.mem_append.1 hx with h1 | h1
      · simp at h1
      · exact strings_among_mono _ _ _ (by simp) (ih2 x h1)
  | .arr a :: rest, h, hs => by
    rw [conforms_elements_cons, Bool.and_eq_true, conforms_value_arr] at h
    exact absurd h.1 (by simp)
end

/-! ### The search loops of the emission pass -/

theorem find_array_found :
    ∀ (arrays : List array) (a : upb_array), (∃ r ∈ arrays, r.ptr.addr = a.addr) →
      ∃ k r, find_array arrays a = some k ∧ arrays[k]? = some r ∧ r.ptr.addr = a.addr
  | [], _, h => by obtain ⟨r, hr, _⟩ := h; cases hr
  | x :: rest, a, h => by
    unfold find_array
    by_cases hx : x.ptr.addr = a.addr
    · exact ⟨0, x, by simp [hx], by simp, hx⟩
    · obtain ⟨r, hr, hra⟩ := h
      rcases List.mem_cons.1 hr with h1 | h1
      · subst h1; exact absurd hra hx
      · obtain ⟨k, r1, hk, hget, haddr⟩ := find_array_found rest a ⟨r, h1, hra⟩
        exact ⟨k + 1, r1, by simp [hx, hk], by simpa using hget, haddr⟩

theorem find_value_found :
    ∀ (values : List upb_value) (m : upb_msg), (∃ v ∈ values, is_msg_at v m = true) →
      ∃ k v, find_value values m = some k ∧ values[k]? = some v ∧ is_msg_at v m = true
  | [], _, h => by obtain ⟨r, hr, _⟩ := h; cases hr
  | x :: rest, m, h => by
    unfold find_value
    by_cases hx : is_msg_at x m = true
    · exact ⟨0, x, by simp [hx], by simp, hx⟩
    · obtain ⟨r, hr, hra⟩ := h
      rcases List.mem_cons.1 hr with h1 | h1
      · subst h1; exact absurd hra hx
      · obtain ⟨k, r1, hk, hget, haddr⟩ := find_value_found rest m ⟨r, h1, hra⟩
        exact ⟨k + 1, r1, by simp [hx, hk], by simpa using hget, haddr⟩

theorem is_msg_at_self (m : upb_msg) : is_msg_at (.msg m) m = true := by
  simp [is_msg_at]

theorem is_msg_at_addr (v : upb_value) (m : upb_msg) (h : is_msg_at v m = true) :
    msg_addr v = some m.addr := by
  cases v with
  | msg y => simpa [is_msg_at, msg_addr] using h
  | _ => simp [is_msg_at] at h

/-- In a list whose addresses are pairwise different, two values with the same
address are the same value. -/
theorem filterMap_nodup_inj {α β : Type} (g : α → Option β) :
    ∀ (l : List α), (l.filterMap g).Nodup → ∀ a ∈ l, ∀ b ∈ l, ∀ n,
      g a = some n → g b = some n → a = b
  | [], _, _, ha, _, _, _, _, _ => nomatch ha
  | x :: rest, hn, a, ha, b, hb, n, hga, hgb => by
    cases hgx : g x with
    | none =>
      rw [List.filterMap_cons_none hgx] at hn
      rcases List.mem_cons.1 ha with h1 | h1
      · subst h1; rw [hgx] at hga; cases hga
      · rcases List.mem_cons.1 hb with h2 | h2
        · subst h2; rw [hgx] at hgb; cases hgb
        · exact filterMap_nodup_inj g rest hn a h1 b h2 n hga hgb
    | some y =>
      rw [List.filterMap_cons_some hgx, List.nodup_cons] at hn
      have hmem : ∀ c ∈ rest, g c = some y → False := by
        intro c hc hgc
        exact hn.1 (List.mem_filterMap.2 ⟨c, hc, hgc⟩)
      rcases List.mem_cons.1 ha with h1 | h1
      · rcases List.mem_cons.1 hb with h2 | h2
        · rw [h1, h2]
        · exfalso
          subst h1
          rw [hgx] at hga
          cases hga
          exact hmem b h2 hgb
      · rcases List.mem_cons.1 hb with h2 | h2
        · exfalso
          subst h2
          rw [hgx] at hgb
          cases hgb
          exact hmem a h1 hga
        · exact filterMap_nodup_inj g rest hn.2 a h1 b h2 n hga hgb

theorem issubmsg_not_isstring (f : upb_fielddef) (h : upb_issubmsg f = true) :
    upb_isstring f = false := by
  unfold upb_issubmsg at h
  unfold upb_isstring upb_isstringtype
  simp only [Bool.or_eq_true, beq_iff_eq] at h
  rcases h with h | h <;> simp [h]

theorem values_of_mem (t : List typetable_entry) (e : typetable_entry) (h : keys_nodup t)
    (he : e ∈ t) : values_of t e.key = e.values ∧ arrays_of t e.key = e.arrays := by
  simp [values_of, arrays_of, types_lookup_of_mem t e h he]

theorem types_lookup_of_values (t : List typetable_entry) (k : Bytes) (v : upb_value)
    (h : v ∈ values_of t k) : ∃ e, types_lookup t k = some e ∧ v ∈ e.values := by
  unfold values_of at h
  cases hl : types_lookup t k with
  | none => simp [hl] at h
  | some e => exact ⟨e, rfl, by simpa [hl] using h⟩

theorem types_lookup_of_arrays (t : List typetable_entry) (k : Bytes) (r : array)
    (h : r ∈ arrays_of t k) : ∃ e, types_lookup t k = some e ∧ r ∈ e.arrays := by
  unfold arrays_of at h
  cases hl : types_lookup t k with
  | none => simp [hl] at h
  | some e => exact ⟨e, rfl, by simpa [hl] using h⟩

/-! ### The lookups of the emission pass succeed -/

/-- After the walk over the strings and the traversal of a conforming instance
tree, every value of the type table is a message, and the lookups for each of
its present fields succeed and find what the field holds. -/
theorem gather_resolves (ctype : Nat → Bytes) (msg : upb_msg)
    (strings0 : List strtable_entry) (types : List typetable_entry)
    (hc : conforms msg = true) (htree : instance_tree msg)
    (hs : add_strings_from_msg msg [] = some strings0)
    (ht : gather_types ctype msg = some types) :
    ∀ k v, v ∈ values_of types k →
      ∃ x, v = upb_value.msg x ∧
        ∀ fd ∈ x.fields, field_resolves ctype (str_entries strings0) types fd := by
  intro k v hv
  obtain ⟨x, hx, hclosed⟩ := gather_types_closed ctype msg types ht k v hv
  obtain ⟨hfromv, hfroma⟩ := gather_types_from ctype msg types ht
  refine ⟨x, hx, ?_⟩
  intro fd hfd hset
  have hstr : strings_among (present_strings msg) x := by
    obtain ⟨h1, h2⟩ := conforms_strings msg hc
    have := hfromv k v hv
    rw [hx] at this
    rcases List.mem_cons.1 this with h3 | h3
    · cases h3; exact h1
    · exact h2 x h3
  obtain ⟨hcl1, hcl2⟩ := hclosed fd hfd hset
  refine ⟨?_, ?_, ?_⟩
  · intro h1 h2
    obtain ⟨s, hp, hmem⟩ := hstr fd hfd hset h1 h2
    obtain ⟨e, he⟩ := strtable_lookup_of_mem_keys (str_entries strings0) s
      (((str_entries_keys msg strings0 hs).2 s).2 hmem)
    exact ⟨s, e, hp, he, (strtable_lookup_some_key he).1⟩
  · intro h1 h2
    obtain ⟨a, hp, r, hr, hra⟩ := hcl1 h2 h1
    obtain ⟨e, he, hre⟩ := types_lookup_of_arrays types _ r hr
    obtain ⟨k1, r1, hk1, hget, haddr⟩ := find_array_found e.arrays a
      ⟨r, hre, by rw [hra]⟩
    refine ⟨a, e, k1, r1, hp, get_or_insert_found ctype types fd.1 e he, hk1, hget, ?_⟩
    have hr1 : r1 ∈ arrays_of types (type_name ctype fd.1) := by
      simp only [arrays_of, he]
      exact List.getElem?_mem hget
    have w1 := hfroma _ r1 hr1
    have w2 := hfroma _ r hr
    rw [hra] at w2
    have := filterMap_nodup_inj arr_addr (walked msg) htree.2 _ w1 _ w2 a.addr
      (by simp [arr_addr, haddr]) (by simp [arr_addr])
    cases this
    rfl
  · intro h1 h2
    obtain ⟨m, hp, hmem⟩ := hcl2 h1 h2
    obtain ⟨e, he, hme⟩ := types_lookup_of_values types _ _ hmem
    obtain ⟨k1, v1, hk1, hget, hat⟩ := find_value_found e.values m
      ⟨.msg m, hme, is_msg_at_self m⟩
    refine ⟨m, e, k1, hp, get_or_insert_found ctype types fd.1 e he, hk1, ?_⟩
    have hv1 : v1 ∈ values_of types (type_name ctype fd.1) := by
      simp only [values_of, he]
      exact List.getElem?_mem hget
    have w1 := hfromv _ v1 hv1
    have w2 := hfromv _ _ hmem
    have := filterMap_nodup_inj msg_addr _ htree.1 _ w1 _ w2 m.addr
      (is_msg_at_addr v1 m hat) (by simp [msg_addr])
    rw [hget, this]

/-- After the walk over the strings and the traversal of a conforming instance,
every value of the type table is a message, and the lookups for each of its
present fields succeed. -/
theorem gather_found (ctype : Nat → Bytes) (msg : upb_msg)
    (strings0 : List strtable_entry) (types : List typetable_entry)
    (hc : conforms msg = true)
    (hs : add_strings_from_msg msg [] = some strings0)
    (ht : gather_types ctype msg = some types) :
    ∀ k v, v ∈ values_of types k →
      ∃ x, v = upb_value.msg x ∧
        ∀ fd ∈ x.fields, field_found ctype (str_entries strings0) types fd := by
  intro k v hv
  obtain ⟨x, hx, hclosed⟩ := gather_types_closed ctype msg types ht k v hv
  obtain ⟨hfromv, _⟩ := gather_types_from ctype msg types ht
  refine ⟨x, hx, ?_⟩
  intro fd hfd hset
  have hstr : strings_among (present_strings msg) x := by
    obtain ⟨h1, h2⟩ := conforms_strings msg hc
    have := hfromv k v hv
    rw [hx] at this
    rcases List.mem_cons.1 this with h3 | h3
    · cases h3; exact h1
    · exact h2 x h3
  obtain ⟨hcl1, hcl2⟩ := hclosed fd hfd hset
  refine ⟨?_, ?_, ?_⟩
  · intro h1 h2
    obtain ⟨s, hp, hmem⟩ := hstr fd hfd hset h1 h2
    obtain ⟨e, he⟩ := strtable_lookup_of_mem_keys (str_entries strings0) s
      (((str_entries_keys msg strings0 hs).2 s).2 hmem)
    exact ⟨s, e, hp, he⟩
  · intro h1 h2
    obtain ⟨a, hp, r, hr, hra⟩ := hcl1 h2 h1
    obtain ⟨e, he, hre⟩ := types_lookup_of_arrays types _ r hr
    obtain ⟨k1, r1, hk1, _, _⟩ := find_array_found e.arrays a ⟨r, hre, by rw [hra]⟩
    exact ⟨a, e, k1, hp, get_or_insert_found ctype types fd.1 e he, hk1⟩
  · intro h1 h2
    obtain ⟨m, hp, hmem⟩ := hcl2 h1 h2
    obtain ⟨e, he, hme⟩ := types_lookup_of_values types _ _ hmem
    obtain ⟨k1, v1, hk1, _, _⟩ := find_value_found e.values m
      ⟨.msg m, hme, is_msg_at_self m⟩
    exact ⟨m, e, k1, hp, get_or_insert_found ctype types fd.1 e he, hk1⟩

/-! ### How the emission pass ends -/

/-- A loop of the emission pass whose body keeps an invariant and either goes
on or stops with the message about string arrays: the loop stops with that
message exactly when the body does for some element. -/
theorem emit_each_status {α : Type} (body : α → emitter → emitter) (Inv : emitter → Prop)
    (bad : α → Bool) :
    ∀ (l : List α),
      (∀ x ∈ l, ∀ s, Inv s → s.status = .ok →
        Inv (body x s) ∧ (body x s).status = if bad x then .unsupported else .ok) →
      ∀ s, Inv s → s.status = .ok →
        Inv (emit_each body l s) ∧
        (emit_each body l s).status = if l.any bad then .unsupported else .ok
  | [], _, s, hi, hs => by simp [emit_each_nil, hi, hs]
  | x :: rest, hbody, s, hi, hs => by
    rw [emit_each_cons_ok body x rest s hs]
    obtain ⟨h1, h2⟩ := hbody x (List.mem_cons_self _ _) s hi hs
    cases hb : bad x with
    | true =>
      simp only [hb, if_true] at h2
      rw [emit_each_stopped body rest _ (by rw [h2]; simp)]
      exact ⟨h1, by simp [h2, hb]⟩
    | false =>
      simp only [hb, Bool.false_eq_true, if_false] at h2
      obtain ⟨h3, h4⟩ := emit_each_status body Inv bad rest
        (fun y hy => hbody y (List.mem_cons_of_mem _ hy)) _ h1 h2
      exact ⟨h3, by simp [h4, hb]⟩

theorem emit_field_resolved (ctype : Nat → Bytes) (strings : List strtable_entry)
    (types : List typetable_entry) (fd : upb_fielddef × Bool × upb_value) (s : emitter)
    (hr : field_found ctype strings types fd) (ht : s.types = types) (hs : s.status = .ok) :
    ((emit_field ctype strings fd s).types = types ∧
        stopped_at_field (emit_field ctype strings fd s)) ∧
      (emit_field ctype strings fd s).status =
        if unsupported_field fd then .unsupported else .ok := by
  have key : (emit_field ctype strings fd s).types = types ∧
      (emit_field ctype strings fd s).status =
        (if unsupported_field fd then .unsupported else .ok) ∧
      (unsupported_field fd = true →
        (emit_field ctype strings fd s).stream = s.stream ++ [.field_name fd.1.name]) := by
    unfold emit_field unsupported_field
    simp only [upb_value_read]
    cases hset : fd.2.1 with
    | false => simp [emitter.put, ht, hs]
    | true =>
      obtain ⟨ra, rb, rc⟩ := hr hset
      simp only [Bool.not_true, Bool.false_eq_true, if_false, Bool.true_and]
      cases hstr : upb_isstring fd.1 with
      | true =>
        cases harr : upb_isarray fd.1 with
        | true => simp [emitter.put, emitter.stop, ht]
        | false =>
          obtain ⟨str, str_e, hp, hl⟩ := ra hstr harr
          simp [hp, hl, emitter.put, ht, hs]
      | false =>
        simp only [Bool.false_eq_true, if_false, Bool.false_and]
        cases harr : upb_isarray fd.1 with
        | true =>
          obtain ⟨a, type_e, k, hp, hg, hf⟩ := rb hstr harr
          have hg2 : get_or_insert_typeentry ctype s.types fd.1 = (types, type_e) := by
            rw [ht]; exact hg
          simp [hp, hg2, hf, emitter.put, emitter.set_types, hs]
        | false =>
          simp only [Bool.false_eq_true, if_false]
          cases hsub : upb_issubmsg fd.1 with
          | true =>
            obtain ⟨m, type_e, k, hp, hg, hf⟩ := rc harr hsub
            have hg2 : get_or_insert_typeentry ctype s.types fd.1 = (types, type_e) := by
              rw [ht]; exact hg
            simp [hp, hg2, hf, emitter.put, emitter.set_types, hs]
          | false => simp [emitter.put, ht, hs]
  obtain ⟨k1, k2, k3⟩ := key
  refine ⟨⟨k1, ?_⟩, k2⟩
  intro hst
  cases hu : unsupported_field fd with
  | false => rw [k2, hu] at hst; simp at hst
  | true => exact ⟨fd, hu, by rw [k3 hu]; simp⟩

theorem emit_flags_status (l : List (upb_fielddef × Bool × upb_value)) (s : emitter) :
    (emit_each emit_flag l s).status = s.status :=
  emit_each_rel (fun a b => b.status = a.status) (fun _ => rfl)
    (fun _ _ _ h1 h2 => h2.trans h1) emit_flag (fun _ _ => rfl) l s

theorem stopped_at_field_ok (s : emitter) (h : s.status = .ok) : stopped_at_field s := by
  intro hc
  rw [h] at hc
  cases hc

theorem emit_value_resolved (ctype : Nat → Bytes) (strings : List strtable_entry)
    (types : List typetable_entry) (field : upb_fielddef) (v : upb_value) (s : emitter)
    (hv : ∃ x, v = upb_value.msg x ∧ ∀ fd ∈ x.fields, field_found ctype strings types fd)
    (ht : s.types = types) (hs : s.status = .ok) :
    ((emit_value ctype strings field v s).types = types ∧
        stopped_at_field (emit_value ctype strings field v s)) ∧
      (emit_value ctype strings field v s).status =
        if unsupported_value field v then .unsupported else .ok := by
  obtain ⟨x, hx, hres⟩ := hv
  subst hx
  unfold emit_value unsupported_value
  cases hf : upb_issubmsg field with
  | false =>
    simp only [Bool.false_eq_true, if_false, Bool.false_and]
    split
    · exact ⟨⟨ht, stopped_at_field_ok _ hs⟩, hs⟩
    · exact ⟨⟨ht, stopped_at_field_ok _ hs⟩, hs⟩
  | true =>
    simp only [if_true, Bool.true_and]
    have h0 : ((emit_each emit_flag x.fields (s.put .flags_begin)).put .flags_end).types =
        types := by
      show (emit_each emit_flag x.fields (s.put .flags_begin)).types = types
      rw [emit_flags_types]; exact ht
    have h1 : ((emit_each emit_flag x.fields (s.put .flags_begin)).put .flags_end).status =
        .ok := by
      show (emit_each emit_flag x.fields (s.put .flags_begin)).status = .ok
      rw [emit_flags_status]; exact hs
    obtain ⟨h2, h3⟩ := emit_each_status (emit_field ctype strings)
      (fun s => s.types = types ∧ stopped_at_field s) unsupported_field x.fields
      (fun fd hfd s hi hs => emit_field_resolved ctype strings types fd s (hres fd hfd) hi.1 hs)
      _ ⟨h0, stopped_at_field_ok _ h1⟩ h1
    cases hany : x.fields.any unsupported_field with
    | true =>
      rw [hany] at h3
      simp only [if_true] at h3 ⊢
      rw [h3]
      exact ⟨h2, h3⟩
    | false =>
      rw [hany] at h3
      simp only [Bool.false_eq_true, if_false] at h3 ⊢
      rw [h3]
      exact ⟨⟨h2.1, stopped_at_field_ok _ h3⟩, h3⟩

theorem emit_def_resolved (ctype : Nat → Bytes) (strings : List strtable_entry)
    (types : List typetable_entry) (e : typetable_entry) (s : emitter)
    (hv : ∀ v ∈ e.values,
      ∃ x, v = upb_value.msg x ∧ ∀ fd ∈ x.fields, field_found ctype strings types fd)
    (ht : s.types = types) (hs : s.status = .ok) :
    ((emit_def ctype strings e s).types = types ∧
        stopped_at_field (emit_def ctype strings e s)) ∧
      (emit_def ctype strings e s).status =
        if unsupported_entry e then .unsupported else .ok := by
  unfold emit_def unsupported_entry
  obtain ⟨h2, h3⟩ := emit_each_status (emit_value ctype strings e.field)
    (fun s => s.types = types ∧ stopped_at_field s) (unsupported_value e.field) e.values
    (fun v hmem s hi hs =>
      emit_value_resolved ctype strings types e.field v s (hv v hmem) hi.1 hs)
    (s.put (.values_begin e.cident e.values_len)) ⟨ht, stopped_at_field_ok _ hs⟩ hs
  cases hany : e.values.any (unsupported_value e.field) with
  | true =>
    rw [hany] at h3
    simp only [if_true] at h3 ⊢
    rw [h3]
    exact ⟨h2, h3⟩
  | false =>
    rw [hany] at h3
    simp only [Bool.false_eq_true, if_false] at h3 ⊢
    rw [h3]
    exact ⟨⟨h2.1, stopped_at_field_ok _ h3⟩, h3⟩

theorem emit_decl_status (e : typetable_entry) (s : emitter) :
    (emit_decl e s).status = s.status := by
  unfold emit_decl
  simp only [emitter.put]
  split <;> rfl

theorem emit_decls_status (l : List typetable_entry) (s : emitter) :
    (emit_each emit_decl l s).status = s.status :=
  emit_each_rel (fun a b => b.status = a.status) (fun _ => rfl)
    (fun _ _ _ h1 h2 => h2.trans h1) emit_decl emit_decl_status l s

theorem emit_root_found (ctype : Nat → Bytes) (msg : upb_msg) (cident : Bytes) (s : emitter)
    (e : typetable_entry) (he : types_lookup s.types msg.fqname = some e)
    (hst : stopped_at_field s) :
    (emit_root ctype msg cident s).types = s.types ∧
      (emit_root ctype msg cident s).status = s.status ∧
      stopped_at_field (emit_root ctype msg cident s) := by
  unfold emit_root
  split
  · next hok =>
    rw [get_or_insert_found ctype s.types (fake_field msg) e
      (by rw [type_name_fake_field]; exact he)]
    refine ⟨by simp [emitter.put, emitter.set_types], by simp [emitter.put, emitter.set_types, hok],
      stopped_at_field_ok _ (by simp [emitter.put, emitter.set_types, hok])⟩
  · exact ⟨rfl, rfl, hst⟩

/-- How `write_message_c` ends for a conforming instance whose walk over the
strings and traversal return: the type table is the one the traversal built,
and the run returns unless a message that is printed has a present repeated
string field, in which case it stops with the message about string arrays, the
name of such a field being the last thing written. -/
theorem write_message_c_status (ctype : Nat → Bytes) (msg : upb_msg) (cident hfile_name : Bytes)
    (argv : List Bytes) (infile_name : Bytes) (strings0 : List strtable_entry)
    (types : List typetable_entry)
    (hc : conforms msg = true)
    (hs : add_strings_from_msg msg [] = some strings0)
    (ht : gather_types ctype msg = some types) :
    (write_message_c ctype msg cident hfile_name argv infile_name).types = types ∧
      (write_message_c ctype msg cident hfile_name argv infile_name).status =
        (if types.any unsupported_entry then .unsupported else .ok) ∧
      stopped_at_field (write_message_c ctype msg cident hfile_name argv infile_name) := by
  unfold write_message_c
  simp only [hs, ht]
  generalize hs2 : (emit_strings (str_entries strings0)
    { types := [], stream := [item.prologue argv infile_name hfile_name],
      status := run_status.ok }).set_types types = s2
  have ht2 : s2.types = types := by rw [← hs2]; rfl
  have hst2 : s2.status = .ok := by rw [← hs2]; rfl
  have hnd := gather_types_keys_nodup ctype msg types ht
  have hd := (emit_decls_status types s2).trans hst2
  obtain ⟨h1, h2⟩ := emit_each_status (emit_def ctype (str_entries strings0))
    (fun s => s.types = types ∧ stopped_at_field s) unsupported_entry types
    (fun e he s hi hs1 => emit_def_resolved ctype (str_entries strings0) types e s
      (fun v hv => gather_found ctype msg strings0 types hc hs ht e.key v
        (by rw [(values_of_mem types e hnd he).1]; exact hv)) hi.1 hs1)
    (emit_each emit_decl types s2)
    ⟨(emit_decls_types types s2).trans ht2, stopped_at_field_ok _ hd⟩ hd
  obtain ⟨e, he, _⟩ := gather_types_root ctype msg types ht
  obtain ⟨h3, h4, h5⟩ := emit_root_found ctype msg cident
    (emit_each (emit_def ctype (str_entries strings0)) types (emit_each emit_decl types s2)) e
    (by rw [h1.1]; exact he) h1.2
  rw [h3, h4]
  exact ⟨h1.1, h2, h5⟩

/-! ### The walks return on conforming instances -/

theorem add_strings_from_value_str (f : upb_fielddef) (s : Bytes) (t : List strtable_entry)
    (h : conforms_value f (.str s) = true) :
    add_strings_from_value (.str s) f t = some (intern t s) := by
  rw [conforms_value_str] at h
  rw [add_strings_from_value_eq]
  unfold upb_isstring at h
  simp [h]

theorem add_strings_from_value_scalar (f : upb_fielddef) (r : Int) (t : List strtable_entry)
    (h : conforms_value f (.scalar r) = true) :
    add_strings_from_value (.scalar r) f t = some t := by
  rw [conforms_value_scalar] at h
  rw [add_strings_from_value_eq]
  unfold upb_isstring at h
  simp only [Bool.and_eq_true, Bool.not_eq_true'] at h
  simp [h.1, h.2]

theorem add_strings_from_value_msg (f : upb_fielddef) (m : upb_msg) (t : List strtable_entry)
    (h : conforms_value f (.msg m) = true) :
    add_strings_from_value (.msg m) f t = add_strings_from_msg m t ∧ conforms m = true := by
  rw [conforms_value_msg] at h
  rw [add_strings_from_value_eq]
  unfold upb_isstring at h
  simp only [Bool.and_eq_true, Bool.not_eq_true', decide_eq_true_eq] at h
  simp [h.1.1.1, h.1.1.2, h.2]

mutual
/-- On a conforming message `add_strings_from_msg` returns. -/
theorem add_strings_from_msg_total :
    ∀ (m : upb_msg) (t : List strtable_entry), conforms m = true →
      ∃ t1, add_strings_from_msg m t = some t1
  | .mk _ _ fields, t, h => by
    rw [conforms_mk] at h
    rw [add_strings_from_msg_mk]
    exact add_strings_from_fields_total fields t h
/-- The loop over the fields, likewise. -/
theorem add_strings_from_fields_total :
    ∀ (fs : List (upb_fielddef × Bool × upb_value)) (t : List strtable_entry),
      conforms_fields fs = true → ∃ t1, add_strings_from_fields fs t = some t1
  | [], t, _ => ⟨t, rfl⟩
  | (f, isset, .str s) :: rest, t, h => by
    rw [conforms_fields_cons, Bool.and_eq_true] at h
    rw [add_strings_from_fields_cons]
    cases hset : isset with
    | false => simpa using add_strings_from_fields_total rest t h.2
    | true =>
      have hc := h.1
      cases ha : upb_isarray f with
      | true => simp [hset, ha] at hc
      | false =>
        simp only [hset, ha, if_true, Bool.false_eq_true, if_false] at hc
        simp only [Bool.not_true, Bool.false_eq_true, if_false,
          add_strings_from_value_str f s t hc]
        exact add_strings_from_fields_total rest _ h.2
  | (f, isset, .scalar r) :: rest, t, h => by
    rw [conforms_fields_cons, Bool.and_eq_true] at h
    rw [add_strings_from_fields_cons]
    cases hset : isset with
    | false => simpa using add_strings_from_fields_total rest t h.2
    | true =>
      have hc := h.1
      cases ha : upb_isarray f with
      | true => simp [hset, ha] at hc
      | false =>
        simp only [hset, ha, if_true, Bool.false_eq_true, if_false] at hc
        simp only [Bool.not_true, Bool.false_eq_true, if_false,
          add_strings_from_value_scalar f r t hc]
        exact add_strings_from_fields_total rest _ h.2
  | (f, isset, .msg m) :: rest, t, h => by
    rw [conforms_fields_cons, Bool.and_eq_true] at h
    rw [add_strings_from_fields_cons]
    cases hset : isset with
    | false => simpa using add_strings_from_fields_total rest t h.2
    | true =>
      have hc := h.1
      cases ha : upb_isarray f with
      | true => simp [hset, ha] at hc
      | false =>
        simp only [hset, ha, if_true, Bool.false_eq_true, if_false] at hc
        obtain ⟨h1, h2⟩ := add_strings_from_value_msg f m t hc
        obtain ⟨t1, ht1⟩ := add_strings_from_msg_total m t h2
        simp only [Bool.not_true, Bool.false_eq_true, if_false, h1, ht1]
        exact add_strings_from_fields_total rest _ h.2
  | (f, isset, .arr (.mk addr elements)) :: rest, t, h => by
    rw [conforms_fields_cons, Bool.and_eq_true] at h
    rw [add_strings_from_fields_cons]
    cases hset : isset with
    | false => simpa using add_strings_from_fields_total rest t h.2
    | true =>
      have hc := h.1
      cases ha : upb_isarray f with
      | false => simp [hset, ha, conforms_value_arr] at hc
      | true =>
        simp only [hset, ha, if_true, upb_array.elements] at hc
        obtain ⟨t1, ht1⟩ := add_strings_from_elements_total elements f t hc
        simp only [Bool.not_true, Bool.false_eq_true, if_false, if_true, upb_array.elements,
          ht1]
        exact add_strings_from_fields_total rest _ h.2
/-- The loop over the elements of an array, likewise. -/
theorem add_strings_from_elements_total :
    ∀ (es : List upb_value) (f : upb_fielddef) (t : List strtable_entry),
      conforms_elements f es = true → ∃ t1, add_strings_from_elements es f t = some t1
  | [], _, t, _ => ⟨t, rfl⟩
  | .str s :: rest, f, t, h => by
    rw [conforms_elements_cons, Bool.and_eq_true] at h
    rw [add_strings_from_elements_cons, add_strings_from_value_str f s t h.1]
    exact add_strings_from_elements_total rest f _ h.2
  | .scalar r :: rest, f, t, h => by
    rw [conforms_elements_cons, Bool.and_eq_true] at h
    rw [add_strings_from_elements_cons, add_strings_from_value_scalar f r t h.1]
    exact add_strings_from_elements_total rest f _ h.2
  | .msg m :: rest, f, t, h => by
    rw [conforms_elements_cons, Bool.and_eq_true] at h
    obtain ⟨h1, h2⟩ := add_strings_from_value_msg f m t h.1
    obtain ⟨t1, ht1⟩ := add_strings_from_msg_total m t h2
    rw [add_strings_from_elements_cons, h1, ht1]
    exact add_strings_from_elements_total rest f _ h.2
  | .arr a :: rest, f, t, h => by
    rw [conforms_elements_cons, Bool.and_eq_true, conforms_value_arr] at h
    exact absurd h.1 (by simp)
end

theorem no_scalar_arrays_mk (a : Nat) (n : Bytes)
    (fields : List (upb_fielddef × Bool × upb_value)) :
    no_scalar_arrays (.mk a n fields) = no_scalar_arrays_fields fields := rfl

theorem no_scalar_arrays_fields_cons (f : upb_fielddef) (isset : Bool) (p : upb_value)
    (rest : List (upb_fielddef × Bool × upb_value)) :
    no_scalar_arrays_fields ((f, isset, p) :: rest) =
    ((if isset then
      if upb_isarray f then
        upb_isstring f ||
          (upb_issubmsg f &&
            match p with
            | .arr a => no_scalar_arrays_elements a.elements
            | _ => true)
      else
        match p with
        | .msg m => no_scalar_arrays m
        | _ => true
    else true) && no_scalar_arrays_fields rest) := by
  cases p with
  | arr a => cases a; rfl
  | _ => rfl

theorem no_scalar_arrays_elements_cons (p : upb_value) (rest : List upb_value) :
    no_scalar_arrays_elements (p :: rest) =
    ((match p with
      | .msg m => no_scalar_arrays m
      | _ => true) && no_scalar_arrays_elements rest) := by
  cases p <;> simp [no_scalar_arrays_elements]

theorem fields_submsg_add_value (ctype : Nat → Bytes) (p : upb_value) (f : upb_fielddef)
    (t : List typetable_entry) (hf : upb_issubmsg f = true) (h : fields_submsg t) :
    fields_submsg (add_value ctype p f t) := by
  intro k e he
  obtain ⟨⟨e1, hl, _, _, hfound, hnew⟩, ho⟩ := add_value_spec ctype p f t
  by_cases hk : k = type_name ctype f
  · subst hk
    rw [hl, Option.some.injEq] at he
    subst he
    cases hlk : types_lookup t (type_name ctype f) with
    | none => rw [(hnew hlk).1]; exact hf
    | some e0 => rw [(hfound e0 hlk).1]; exact h _ e0 hlk
  · rw [ho k hk] at he
    exact h k e he

theorem fields_submsg_add_array (ctype : Nat → Bytes) (arr : upb_array) (f : upb_fielddef)
    (t : List typetable_entry) (hf : upb_issubmsg f = true) (h : fields_submsg t) :
    fields_submsg (add_array ctype arr f t) := by
  intro k e he
  obtain ⟨⟨e1, hl, _, _, hfound, hnew⟩, ho⟩ := add_array_spec ctype arr f t
  by_cases hk : k = type_name ctype f
  · subst hk
    rw [hl, Option.some.injEq] at he
    subst he
    cases hlk : types_lookup t (type_name ctype f) with
    | none => rw [(hnew hlk).1]; exact hf
    | some e0 => rw [(hfound e0 hlk).1]; exact h _ e0 hlk
  · rw [ho k hk] at he
    exact h k e he

theorem fields_submsg_add_values (ctype : Nat → Bytes) (f : upb_fielddef)
    (hf : upb_issubmsg f = true) :
    ∀ (es : List upb_value) (t : List typetable_entry),
      fields_submsg t → fields_submsg (add_values ctype es f t)
  | [], _, h => h
  | p :: rest, t, h => by
    unfold add_values
    exact fields_submsg_add_values ctype f hf rest _ (fields_submsg_add_value ctype p f t hf h)

theorem isstring_not_issubmsg (f : upb_fielddef) (h : upb_isstring f = true) :
    upb_issubmsg f = false := by
  cases hm : upb_issubmsg f with
  | false => rfl
  | true => rw [issubmsg_not_isstring f hm] at h; cases h

mutual
/-- On a conforming message without arrays of scalars `add_submsgs` returns, and
every entry of the table is still one of a submessage field. -/
theorem add_submsgs_total (ctype : Nat → Bytes) :
    ∀ (m : upb_msg) (t : List typetable_entry), conforms m = true →
      no_scalar_arrays m = true → fields_submsg t →
      ∃ t1, add_submsgs ctype m t = some t1 ∧ fields_submsg t1
  | .mk _ _ fields, t, hc, hn, ht => by
    rw [conforms_mk] at hc
    rw [no_scalar_arrays_mk] at hn
    rw [add_submsgs_mk]
    exact add_submsgs_fields_total ctype fields t hc hn ht
/-- The loop over the fields, likewise. -/
theorem add_submsgs_fields_total (ctype : Nat → Bytes) :
    ∀ (fs : List (upb_fielddef × Bool × upb_value)) (t : List typetable_entry),
      conforms_fields fs = true → no_scalar_arrays_fields fs = true → fields_submsg t →
      ∃ t1, add_submsgs_fields ctype fs t = some t1 ∧ fields_submsg t1
  | [], t, _, _, ht => ⟨t, rfl, ht⟩
  | (f, isset, .str s) :: rest, t, hc, hn, ht => by
    rw [conforms_fields_cons, Bool.and_eq_true] at hc
    rw [no_scalar_arrays_fields_cons, Bool.and_eq_true] at hn
    rw [add_submsgs_fields_cons]
    cases hset : isset with
    | false => simpa using add_submsgs_fields_total ctype rest t hc.2 hn.2 ht
    | true =>
      have h1 := hc.1
      cases ha : upb_isarray f with
      | true => simp [hset, ha] at h1
      | false =>
        simp only [hset, ha, if_true, Bool.false_eq_true, if_false, conforms_value_str] at h1
        simp only [Bool.not_true, Bool.false_eq_true, if_false, isstring_not_issubmsg f h1,
          Bool.not_false, if_true]
        exact add_submsgs_fields_total ctype rest t hc.2 hn.2 ht
  | (f, isset, .scalar r) :: rest, t, hc, hn, ht => by
    rw [conforms_fields_cons, Bool.and_eq_true] at hc
    rw [no_scalar_arrays_fields_cons, Bool.and_eq_true] at hn
    rw [add_submsgs_fields_cons]
    cases hset : isset with
    | false => simpa using add_submsgs_fields_total ctype rest t hc.2 hn.2 ht
    | true =>
      have h1 := hc.1
      cases ha : upb_isarray f with
      | true => simp [hset, ha] at h1
      | false =>
        simp only [hset, ha, if_true, Bool.false_eq_true, if_false, conforms_value_scalar,
          Bool.and_eq_true, Bool.not_eq_true'] at h1
        simp only [Bool.not_true, Bool.false_eq_true, if_false, h1.2, Bool.not_false, if_true]
        exact add_submsgs_fields_total ctype rest t hc.2 hn.2 ht
  | (f, isset, .msg m) :: rest, t, hc, hn, ht => by
    rw [conforms_fields_cons, Bool.and_eq_true] at hc
    rw [no_scalar_arrays_fields_cons, Bool.and_eq_true] at hn
    rw [add_submsgs_fields_cons]
    cases hset : isset with
    | false => simpa using add_submsgs_fields_total ctype rest t hc.2 hn.2 ht
    | true =>
      have h1 := hc.1
      have h2 := hn.1
      cases ha : upb_isarray f with
      | true => simp [hset, ha] at h1
      | false =>
        simp only [hset, ha, if_true, Bool.false_eq_true, if_false, conforms_value_msg,
          Bool.and_eq_true, Bool.not_eq_true', decide_eq_true_eq] at h1 h2
        obtain ⟨t2, ht2, hs2⟩ := add_submsgs_total ctype m _ h1.2 h2
          (fields_submsg_add_value ctype (.msg m) f t h1.1.1.2 ht)
        simp only [Bool.not_true, Bool.false_eq_true, if_false, h1.1.1.2, ht2]
        exact add_submsgs_fields_total ctype rest t2 hc.2 hn.2 hs2
  | (f, isset, .arr (.mk addr elements)) :: rest, t, hc, hn, ht => by
    rw [conforms_fields_cons, Bool.and_eq_true] at hc
    rw [no_scalar_arrays_fields_cons, Bool.and_eq_true] at hn
    rw [add_submsgs_fields_cons]
    cases hset : isset with
    | false => simpa using add_submsgs_fields_total ctype rest t hc.2 hn.2 ht
    | true =>
      have h1 := hc.1
      have h2 := hn.1
      cases ha : upb_isarray f with
      | false => simp [hset, ha, conforms_value_arr] at h1
      | true =>
        simp only [hset, ha, if_true, upb_array.elements] at h1 h2
        cases hs : upb_isstring f with
        | true =>
          simp only [Bool.not_true, Bool.false_eq_true, if_false, if_true]
          exact add_submsgs_fields_total ctype rest t hc.2 hn.2 ht
        | false =>
          simp only [hs, Bool.false_or, Bool.and_eq_true] at h2
          obtain ⟨t3, ht3, hs3⟩ := add_submsgs_elements_total ctype elements f _ h1 h2.1 h2.2
            (fields_submsg_add_values ctype f h2.1 elements _
              (fields_submsg_add_array ctype (.mk addr elements) f t h2.1 ht))
          simp only [Bool.not_true, Bool.false_eq_true, if_false, if_true, upb_array.elements,
            ht3]
          exact add_submsgs_fields_total ctype rest t3 hc.2 hn.2 hs3
/-- The loop over the elements of an array of submessages, likewise. -/
theorem add_submsgs_elements_total (ctype : Nat → Bytes) :
    ∀ (es : List upb_value) (f : upb_fielddef) (t : List typetable_entry),
      conforms_elements f es = true → upb_issubmsg f = true →
      no_scalar_arrays_elements es = true → fields_submsg t →
      ∃ t1, add_submsgs_elements ctype es t = some t1 ∧ fields_submsg t1
  | [], _, t, _, _, _, ht => ⟨t, rfl, ht⟩
  | .msg m :: rest, f, t, hc, hf, hn, ht => by
    rw [conforms_elements_cons, Bool.and_eq_true] at hc
    rw [no_scalar_arrays_elements_cons, Bool.and_eq_true] at hn
    have h1 := hc.1
    simp only [conforms_value_msg, Bool.and_eq_true] at h1
    obtain ⟨t2, ht2, hs2⟩ := add_submsgs_total ctype m t h1.2 hn.1 ht
    rw [add_submsgs_elements_cons]
    simp only [ht2]
    exact add_submsgs_elements_total ctype rest f t2 hc.2 hf hn.2 hs2
  | .str s :: rest, f, t, hc, hf, _, _ => by
    rw [conforms_elements_cons, Bool.and_eq_true, conforms_value_str] at hc
    rw [issubmsg_not_isstring f hf] at hc
    exact absurd hc.1 (by simp)
  | .scalar r :: rest, f, t, hc, hf, _, _ => by
    rw [conforms_elements_cons, Bool.and_eq_true, conforms_value_scalar] at hc
    simp [hf] at hc
  | .arr a :: rest, f, t, hc, _, _, _ => by
    rw [conforms_elements_cons, Bool.and_eq_true, conforms_value_arr] at hc
    exact absurd hc.1 (by simp)
end

/-- The traversal of a conforming instance without arrays of scalars returns,
and every entry of its table is one of a submessage field. -/
theorem gather_types_total (ctype : Nat → Bytes) (msg : upb_msg)
    (hc : conforms msg = true) (hn : no_scalar_arrays msg = true) :
    ∃ types, gather_types ctype msg = some types ∧ fields_submsg types := by
  unfold gather_types
  exact add_submsgs_total ctype msg _ hc hn
    (fields_submsg_add_value ctype _ _ _ (by simp [fake_field, upb_issubmsg])
      (fun k e he => by simp [types_lookup] at he))

/-! ### Every message met by the traversal is registered -/

theorem array_backed_elements (values : List upb_value) (r : array)
    (h : array_backed values r) : ∀ p ∈ r.ptr.elements, p ∈ values := by
  intro p hp
  obtain ⟨j, hj⟩ := List.getElem?_of_mem hp
  have hlt : j < r.ptr.elements.length := by
    by_contra hc
    rw [List.getElem?_eq_none (by omega)] at hj
    cases hj
  have := h.2.2 j (by rw [h.2.1]; exact hlt)
  rw [hj] at this
  exact List.getElem?_mem this

mutual
/-- In a table where every value is a message whose present fields are
registered and every array record is backed by the values, every message the
traversal meets below a message with registered fields is a value of the
table. -/
theorem walked_registered (ctype : Nat → Bytes) (types : List typetable_entry)
    (hH : ∀ k v, v ∈ values_of types k →
      ∃ x, v = upb_value.msg x ∧ msg_closed ctype types x)
    (hinv : arrays_inv types) :
    ∀ (m : upb_msg), msg_closed ctype types m →
      ∀ x, upb_value.msg x ∈ walked m → ∃ k, upb_value.msg x ∈ values_of types k
  | .mk _ _ fields, hm, x, hx => by
    rw [walked_mk] at hx
    exact walked_fields_registered ctype types hH hinv fields hm x hx
/-- The same for a list of field slots. -/
theorem walked_fields_registered (ctype : Nat → Bytes) (types : List typetable_entry)
    (hH : ∀ k v, v ∈ values_of types k →
      ∃ x, v = upb_value.msg x ∧ msg_closed ctype types x)
    (hinv : arrays_inv types) :
    ∀ (fs : List (upb_fielddef × Bool × upb_value)),
      (∀ fd ∈ fs, field_closed ctype types fd) →
      ∀ x, upb_value.msg x ∈ walked_fields fs → ∃ k, upb_value.msg x ∈ values_of types k
  | [], _, x, hx => nomatch hx
  | (f, isset, .str s) :: rest, hm, x, hx => by
    rw [walked_fields_cons] at hx
    have : upb_value.msg x ∈ walked_fields rest := by
      rcases List.mem_append.1 hx with h1 | h1
      · split at h1
        · split at h1
          · split at h1 <;> simp at h1
          · split at h1 <;> simp at h1
        · simp at h1
      · exact h1
    exact walked_fields_registered ctype types hH hinv rest
      (fun fd hfd => hm fd (List.mem_cons_of_mem _ hfd)) x this
  | (f, isset, .scalar r) :: rest, hm, x, hx => by
    rw [walked_fields_cons] at hx
    have : upb_value.msg x ∈ walked_fields rest := by
      rcases List.mem_append.1 hx with h1 | h1
      · split at h1
        · split at h1
          · split at h1 <;> simp at h1
          · split at h1 <;> simp at h1
        · simp at h1
      · exact h1
    exact walked_fields_registered ctype types hH hinv rest
      (fun fd hfd => hm fd (List.mem_cons_of_mem _ hfd)) x this
  | (f, isset, .msg m) :: rest, hm, x, hx => by
    rw [walked_fields_cons] at hx
    rcases List.mem_append.1 hx with h1 | h1
    · cases hset : isset with
      | false => simp [hset] at h1
      | true =>
        cases ha : upb_isarray f with
        | true =>
          cases hs : upb_isstring f <;> simp [hset, ha, hs] at h1
        | false =>
          cases hsub : upb_issubmsg f with
          | false => simp [hset, ha, hsub] at h1
          | true =>
            simp only [hset, ha, hsub, if_true, Bool.false_eq_true, if_false] at h1
            obtain ⟨m1, hp, hmem⟩ := (hm _ (List.mem_cons_self _ _) hset).2 ha hsub
            cases hp
            rcases List.mem_cons.1 h1 with h2 | h2
            · cases h2; exact ⟨_, hmem⟩
            · obtain ⟨y, hy, hcl⟩ := hH _ _ hmem
              cases hy
              exact walked_registered ctype types hH hinv m hcl x h2
    · exact walked_fields_registered ctype types hH hinv rest
        (fun fd hfd => hm fd (List.mem_cons_of_mem _ hfd)) x h1
  | (f, isset, .arr (.mk addr elements)) :: rest, hm, x, hx => by
    rw [walked_fields_cons] at hx
    rcases List.mem_append.1 hx with h1 | h1
    · cases hset : isset with
      | false => simp [hset] at h1
      | true =>
        cases ha : upb_isarray f with
        | false =>
          cases hsub : upb_issubmsg f <;> simp [hset, ha, hsub] at h1
        | true =>
          cases hs : upb_isstring f with
          | true => simp [hset, ha, hs] at h1
          | false =>
            simp only [hset, ha, hs, if_true, Bool.false_eq_true, if_false,
              upb_array.elements] at h1
            obtain ⟨a1, hp, r, hr, hra⟩ := (hm _ (List.mem_cons_self _ _) hset).1 ha hs
            cases hp
            have hback := (hinv (type_name ctype f)).1 r hr
            have hel : ∀ p ∈ elements, p ∈ values_of types (type_name ctype f) := by
              intro p hp
              have := array_backed_elements _ r hback p (by rw [hra]; exact hp)
              exact this
            rcases List.mem_cons.1 h1 with h2 | h2
            · cases h2
            · rcases List.mem_append.1 h2 with h3 | h3
              · exact ⟨_, hel _ h3⟩
              · exact walked_elements_registered ctype types hH hinv elements
                  (fun p hp => ⟨_, hel p hp⟩) x h3
    · exact walked_fields_registered ctype types hH hinv rest
        (fun fd hfd => hm fd (List.mem_cons_of_mem _ hfd)) x h1
/-- The same for the elements of an array whose elements are values of the
table. -/
theorem walked_elements_registered (ctype : Nat → Bytes) (types : List typetable_entry)
    (hH : ∀ k v, v ∈ values_of types k →
      ∃ x, v = upb_value.msg x ∧ msg_closed ctype types x)
    (hinv : arrays_inv types) :
    ∀ (es : List upb_value), (∀ p ∈ es, ∃ k, p ∈ values_of types k) →
      ∀ x, upb_value.msg x ∈ walked_elements es → ∃ k, upb_value.msg x ∈ values_of types k
  | [], _, x, hx => nomatch hx
  | .msg m :: rest, hreg, x, hx => by
    rw [walked_elements_cons] at hx
    rcases List.mem_append.1 hx with h1 | h1
    · obtain ⟨k, hk⟩ := hreg _ (List.mem_cons_self _ _)
      obtain ⟨y, hy, hcl⟩ := hH _ _ hk
      cases hy
      exact walked_registered ctype types hH hinv m hcl x h1
    · exact walked_elements_registered ctype types hH hinv rest
        (fun p hp => hreg p (List.mem_cons_of_mem _ hp)) x h1
  | .str s :: rest, hreg, x, hx => by
    rw [walked_elements_cons] at hx
    rcases List.mem_append.1 hx with h1 | h1
    · simp at h1
    · exact walked_elements_registered ctype types hH hinv rest
        (fun p hp => hreg p (List.mem_cons_of_mem _ hp)) x h1
  | .scalar r :: rest, hreg, x, hx => by
    rw [walked_elements_cons] at hx
    rcases List.mem_append.1 hx with h1 | h1
    · simp at h1
    · exact walked_elements_registered ctype types hH hinv rest
        (fun p hp => hreg p (List.mem_cons_of_mem _ hp)) x h1
  | .arr a :: rest, hreg, x, hx => by
    rw [walked_elements_cons] at hx
    rcases List.mem_append.1 hx with h1 | h1
    · simp at h1
    · exact walked_elements_registered ctype types hH hinv rest
        (fun p hp => hreg p (List.mem_cons_of_mem _ hp)) x h1
end

/-- After the traversal, the root and every message met below it are values of
the type table. -/
theorem gather_types_registered (ctype : Nat → Bytes) (msg : upb_msg)
    (types : List typetable_entry) (h : gather_types ctype msg = some types) :
    ∀ x, upb_value.msg x ∈ upb_value.msg msg :: walked msg →
      ∃ k, upb_value.msg x ∈ values_of types k := by
  intro x hx
  obtain ⟨e, he, hv⟩ := gather_types_root ctype msg types h
  have hroot : upb_value.msg msg ∈ values_of types msg.fqname := by
    simp only [values_of, he]
    exact List.getElem?_mem hv
  have hH := gather_types_closed ctype msg types h
  rcases List.mem_cons.1 hx with h1 | h1
  · cases h1; exact ⟨_, hroot⟩
  · obtain ⟨y, hy, hcl⟩ := hH _ _ hroot
    cases hy
    exact walked_registered ctype types hH (gather_types_arrays_inv ctype msg types h) msg hcl x h1

/-! ### What has been written stays written -/

theorem emit_field_initial (ctype : Nat → Bytes) (strings : List strtable_entry)
    (fd : upb_fielddef × Bool × upb_value) (s : emitter) :
    s.stream <+: (emit_field ctype strings fd s).stream := by
  obtain ⟨chunk, h, _⟩ := emit_field_stream ctype strings fd s
  exact ⟨chunk, h.symm⟩

theorem emit_each_initial {α : Type} (body : α → emitter → emitter)
    (hbody : ∀ x s, s.stream <+: (body x s).stream) (l : List α) (s : emitter) :
    s.stream <+: (emit_each body l s).stream :=
  emit_each_rel (fun a b => a.stream <+: b.stream) (fun _ => List.prefix_refl _)
    (fun _ _ _ h1 h2 => h1.trans h2) body hbody l s

theorem put_initial (s : emitter) (i : item) : s.stream <+: (s.put i).stream :=
  List.prefix_append _ _

theorem emit_value_initial (ctype : Nat → Bytes) (strings : List strtable_entry)
    (field : upb_fielddef) (v : upb_value) (s : emitter) :
    s.stream <+: (emit_value ctype strings field v s).stream := by
  unfold emit_value
  split
  · split
    · next m =>
      have h1 := (put_initial s .flags_begin).trans
        (emit_each_initial emit_flag (fun fd s => put_initial s _) m.fields _)
      have h2 := h1.trans (put_initial _ .flags_end)
      have h3 := h2.trans
        (emit_each_initial (emit_field ctype strings) (emit_field_initial ctype strings)
          m.fields _)
      simp only []
      split
      · exact h3.trans (put_initial _ _)
      · exact h3
    · exact List.prefix_refl _
  · split
    · exact List.prefix_refl _
    · exact put_initial _ _

theorem emit_def_initial (ctype : Nat → Bytes) (strings : List strtable_entry)
    (e : typetable_entry) (s : emitter) :
    s.stream <+: (emit_def ctype strings e s).stream := by
  unfold emit_def
  have h1 := (put_initial s (.values_begin e.cident e.values_len)).trans
    (emit_each_initial (emit_value ctype strings e.field)
      (emit_value_initial ctype strings e.field) e.values _)
  simp only []
  split
  · exact h1.trans (put_initial _ _)
  · exact h1

theorem emit_decl_initial (e : typetable_entry) (s : emitter) :
    s.stream <+: (emit_decl e s).stream := by
  unfold emit_decl
  simp only []
  split
  · exact ((put_initial _ _).trans (put_initial _ _)).trans (put_initial _ _)
  · exact put_initial _ _

theorem emit_root_initial (ctype : Nat → Bytes) (msg : upb_msg) (cident : Bytes) (s : emitter) :
    s.stream <+: (emit_root ctype msg cident s).stream := by
  unfold emit_root
  split
  · exact put_initial _ _
  · exact List.prefix_refl _

/-- When the walk over the strings returns, the stream of `write_message_c`
begins with the prologue, the string data and the string table, however the
run ends. -/
theorem write_message_c_initial (ctype : Nat → Bytes) (msg : upb_msg) (cident hfile_name : Bytes)
    (argv : List Bytes) (infile_name : Bytes) (strings0 : List strtable_entry)
    (hs : add_strings_from_msg msg [] = some strings0) :
    [item.prologue argv infile_name hfile_name,
      item.strdata ((str_entries strings0).flatMap (fun e => e.key)),
      item.strings ((str_entries strings0).map (fun e => (e.offset, e.key.length)))] <+:
      (write_message_c ctype msg cident hfile_name argv infile_name).stream := by
  unfold write_message_c
  simp only [hs]
  cases hg : gather_types ctype msg with
  | none => exact List.prefix_refl _
  | some types =>
    simp only []
    have h1 := emit_each_initial emit_decl emit_decl_initial types
      ((emit_strings (str_entries strings0)
        { types := [], stream := [item.prologue argv infile_name hfile_name],
          status := run_status.ok }).set_types types)
    have h2 := emit_each_initial (emit_def ctype (str_entries strings0))
      (emit_def_initial ctype (str_entries strings0)) types
      (emit_each emit_decl types ((emit_strings (str_entries strings0)
        { types := [], stream := [item.prologue argv infile_name hfile_name],
          status := run_status.ok }).set_types types))
    exact (h1.trans h2).trans (emit_root_initial ctype msg cident _)

/-- C7, as stated, fails: for the message `{tags = ["x"]}` the run stops with
the message about string arrays, but nine groups of writes have gone to the
stream of the data file before (prologue, string data, string table, forward
declaration, the opening of the values, the set flags and the name of the
field): a data file is produced, truncated. -/
theorem unsupported_repeated_string_counterexample :
    (write_message_c c_types string_array_msg [] [] [] []).status = .unsupported ∧
      (write_message_c c_types string_array_msg [] [] [] []).stream =
        [.prologue [] [] [],
         .strdata [120],
         .strings [(0, 1)],
         .forward_decl [77] 1,
         .values_begin [77] 1,
         .flags_begin,
         .flag [116, 97, 103, 115] true,
         .flags_end,
         .field_name [116, 97, 103, 115]] ∧
      (write_message_c c_types string_array_msg [] [] [] []).stream ≠ [] :=
  ⟨by decide, rfl, by
    have h : (write_message_c c_types string_array_msg [] [] [] []).stream.length = 9 := by
      decide
    intro hc
    rw [hc] at h
    cases h⟩

/-- C7, amended (unsupported repeated string). Compiling a conforming
instance, all of whose present repeated fields are string fields or submessage
fields, in which the root or a message below it has a present repeated string
field: the run stops with the message about string arrays (`exit(1)`, the
compile fails) and does not return; what has been written to the data file by
then begins with the prologue, the string data and the string table and ends
with the name of a present repeated string field, the externally visible
definition not being written. -/
theorem unsupported_repeated_string (ctype : Nat → Bytes) (msg : upb_msg)
    (cident hfile_name : Bytes) (argv : List Bytes) (infile_name : Bytes)
    (hc : conforms msg = true) (hn : no_scalar_arrays msg = true)
    (hx : ∃ x, upb_value.msg x ∈ upb_value.msg msg :: walked msg ∧
      x.fields.any unsupported_field = true) :
    (write_message_c ctype msg cident hfile_name argv infile_name).status = .unsupported ∧
    (∃ strings : List strtable_entry,
      [item.prologue argv infile_name hfile_name,
        item.strdata (strings.flatMap (fun e => e.key)),
        item.strings (strings.map (fun e => (e.offset, e.key.length)))] <+:
        (write_message_c ctype msg cident hfile_name argv infile_name).stream) ∧
    (∃ fd, unsupported_field fd = true ∧
      (write_message_c ctype msg cident hfile_name argv infile_name).stream.getLast? =
        some (item.field_name fd.1.name)) := by
  obtain ⟨strings0, hs⟩ := add_strings_from_msg_total msg [] hc
  obtain ⟨types, ht, hsub⟩ := gather_types_total ctype msg hc hn
  obtain ⟨_, h2, h3⟩ := write_message_c_status ctype msg cident hfile_name argv infile_name
    strings0 types hc hs ht
  obtain ⟨x, hxm, hxu⟩ := hx
  obtain ⟨k, hk⟩ := gather_types_registered ctype msg types ht x hxm
  obtain ⟨e, he, hme⟩ := types_lookup_of_values types k _ hk
  have hany : types.any unsupported_entry = true := by
    rw [List.any_eq_true]
    refine ⟨e, types_lookup_mem he, ?_⟩
    unfold unsupported_entry
    rw [List.any_eq_true]
    refine ⟨_, hme, ?_⟩
    simp [unsupported_value, hsub k e he, hxu]
  rw [hany] at h2
  simp only [if_true] at h2
  exact ⟨h2, ⟨_, write_message_c_initial ctype msg cident hfile_name argv infile_name
    strings0 hs⟩, h3 h2⟩

/-- C7, amended, at the message `{tags = ["x"]}`. -/
theorem unsupported_repeated_string_witness :
    (write_message_c c_types string_array_msg [] [] [] []).status = .unsupported ∧
    (∃ strings : List strtable_entry,
      [item.prologue [] [] [],
        item.strdata (strings.flatMap (fun e => e.key)),
        item.strings (strings.map (fun e => (e.offset, e.key.length)))] <+:
        (write_message_c c_types string_array_msg [] [] [] []).stream) ∧
    (∃ fd, unsupported_field fd = true ∧
      (write_message_c c_types string_array_msg [] [] [] []).stream.getLast? =
        some (item.field_name fd.1.name)) :=
  unsupported_repeated_string c_types string_array_msg [] [] [] [] (by decide) (by decide)
    ⟨string_array_msg, List.mem_cons_self _ _, by decide⟩

/-- The second loop of the array branch of `add_submsgs` reads an element that
is not a message as a message pointer: the traversal does not return. -/
theorem add_submsgs_elements_scalar (ctype : Nat → Bytes) (r : Int) (rest : List upb_value)
    (t : List typetable_entry) :
    add_submsgs_elements ctype (.scalar r :: rest) t = none := by
  rw [add_submsgs_elements_cons]

/-- C1, at the failing input `{f = [7]}` (a conforming instance tree with no
repeated string field): the traversal records the array and adds its element,
then reads the element `7` as a message pointer and descends; the traversal
does not return, `write_message_c` stops with a fault after the string table,
and no type table and no values are written from which the instance could be
read back. -/
theorem scalar_array_fault (ctype : Nat → Bytes) (cident hfile_name : Bytes)
    (argv : List Bytes) (infile_name : Bytes) :
    conforms int32_array_msg = true ∧ instance_tree int32_array_msg ∧
    int32_array_msg.fields.any unsupported_field = false ∧
    gather_types ctype int32_array_msg = none ∧
    (write_message_c ctype int32_array_msg cident hfile_name argv infile_name).status =
      .fault ∧
    (write_message_c ctype int32_array_msg cident hfile_name argv infile_name).stream =
      [.prologue argv infile_name hfile_name, .strdata [], .strings []] := by
  have hg : gather_types ctype int32_array_msg = none := by
    unfold gather_types
    rw [add_submsgs_eq]
    show add_submsgs_fields ctype [(example_int32s, true, .arr (.mk 2 [.scalar 7]))] _ = none
    rw [add_submsgs_fields_cons]
    simp [example_int32s, upb_isarray, upb_isstring, upb_isstringtype, upb_array.elements,
      add_submsgs_elements_scalar]
  have hs : add_strings_from_msg int32_array_msg [] = some [] := by decide
  refine ⟨by decide, by decide, by decide, hg, ?_, ?_⟩
  · unfold write_message_c
    simp only [hs, hg, emitter.stop]
  · unfold write_message_c
    simp only [hs, hg, emitter.stop, emit_strings, emitter.put, str_entries, strtable_to_array,
      qsort_entries, List.insertionSort, assign_offsets, List.flatMap_nil, List.map_nil,
      List.cons_append, List.nil_append]

/-! ## The claims about the string pool -/

theorem str_entries_dedup (msg : upb_msg) (strings0 : List strtable_entry)
    (h : add_strings_from_msg msg [] = some strings0) :
    (∀ s ∈ present_strings msg,
      ∃ e, upb_strtable_lookup (str_entries strings0) s = some e ∧ e.key = s ∧
        (str_entries strings0)[e.num]? = some e) ∧
    (∀ s1 ∈ present_strings msg, ∀ s2 ∈ present_strings msg, ∀ e1 e2,
      upb_strtable_lookup (str_entries strings0) s1 = some e1 →
      upb_strtable_lookup (str_entries strings0) s2 = some e2 →
        (e1.num = e2.num ↔ s1 = s2)) ∧
    (str_entries strings0).length = (present_strings msg).dedup.length := by
  obtain ⟨hn, hm⟩ := str_entries_keys msg strings0 h
  refine ⟨?_, ?_, ?_⟩
  · intro s hs
    obtain ⟨e, he⟩ := strtable_lookup_of_mem_keys _ s ((hm s).2 hs)
    obtain ⟨hk, hmem⟩ := strtable_lookup_some_key he
    exact ⟨e, he, hk, str_entries_num strings0 e hmem⟩
  · intro s1 _ s2 _ e1 e2 h1 h2
    obtain ⟨hk1, hm1⟩ := strtable_lookup_some_key h1
    obtain ⟨hk2, hm2⟩ := strtable_lookup_some_key h2
    constructor
    · intro hnum
      have a1 := str_entries_num strings0 e1 hm1
      have a2 := str_entries_num strings0 e2 hm2
      rw [hnum, a2, Option.some.injEq] at a1
      rw [← hk1, ← hk2, a1]
    · intro hs
      subst hs
      rw [h1, Option.some.injEq] at h2
      rw [h2]
  · have hp : ((str_entries strings0).map (fun e => e.key)).Perm (present_strings msg).dedup :=
      (List.perm_ext_iff_of_nodup hn (List.nodup_dedup _)).2
        (fun s => by rw [hm s, List.mem_dedup])
    simpa using hp.length_eq

/-- C2 (string dedup). For every conforming instance `add_strings_from_msg`
returns, and after it and the sort and numbering of `write_message_c`: the
content of every present string field is found by `upb_strtable_lookup`, the
entry found has that content and sits at the index `num` of the pool; two
present string fields resolve to the same `num` exactly when their contents
are equal; and the pool has as many entries as there are distinct contents
among the present string fields. -/
theorem string_dedup (msg : upb_msg) (hc : conforms msg = true) :
    ∃ strings0, add_strings_from_msg msg [] = some strings0 ∧
      (∀ s ∈ present_strings msg,
        ∃ e, upb_strtable_lookup (str_entries strings0) s = some e ∧ e.key = s ∧
          (str_entries strings0)[e.num]? = some e) ∧
      (∀ s1 ∈ present_strings msg, ∀ s2 ∈ present_strings msg, ∀ e1 e2,
        upb_strtable_lookup (str_entries strings0) s1 = some e1 →
        upb_strtable_lookup (str_entries strings0) s2 = some e2 →
          (e1.num = e2.num ↔ s1 = s2)) ∧
      (str_entries strings0).length = (present_strings msg).dedup.length := by
  obtain ⟨strings0, hs⟩ := add_strings_from_msg_total msg [] hc
  exact ⟨strings0, hs, str_entries_dedup msg strings0 hs⟩

/-- C2, at the scenario `Person`, where two fields hold `Alice`. -/
theorem string_dedup_witness :
    ∃ strings0, add_strings_from_msg person_root [] = some strings0 ∧
      (∀ s ∈ present_strings person_root,
        ∃ e, upb_strtable_lookup (str_entries strings0) s = some e ∧ e.key = s ∧
          (str_entries strings0)[e.num]? = some e) ∧
      (∀ s1 ∈ present_strings person_root, ∀ s2 ∈ present_strings person_root, ∀ e1 e2,
        upb_strtable_lookup (str_entries strings0) s1 = some e1 →
        upb_strtable_lookup (str_entries strings0) s2 = some e2 →
          (e1.num = e2.num ↔ s1 = s2)) ∧
      (str_entries strings0).length = (present_strings person_root).dedup.length :=
  string_dedup person_root (by decide)

/-- C3, as stated, fails: for the message `{a = "", b = "a"}` the pool is
`""` at offset 0 followed by `"a"` at offset 0, so the offsets are not strictly
increasing. -/
theorem pool_ordering_counterexample :
    add_strings_from_msg empty_string_msg [] =
        some [{ key := [], offset := 0, num := 0 }, { key := [97], offset := 0, num := 0 }] ∧
      (str_entries
        [{ key := [], offset := 0, num := 0 }, { key := [97], offset := 0, num := 0 }]).map
          (fun e => e.offset) = [0, 0] ∧
      ¬ offsets_strictly_increasing (str_entries
        [{ key := [], offset := 0, num := 0 }, { key := [97], offset := 0, num := 0 }]) := by
  refine ⟨by decide, by decide, ?_⟩
  unfold offsets_strictly_increasing
  decide

theorem str_entries_ordering (msg : upb_msg) (strings0 : List strtable_entry)
    (h : add_strings_from_msg msg [] = some strings0) :
    (str_entries strings0).Pairwise (fun a b => upb_strcmp a.key b.key < 0) ∧
      ((str_entries strings0).map (fun e => e.offset)).Pairwise (fun a b => a ≤ b) ∧
      offsets_strictly_increasing (str_entries strings0).tail ∧
      (∀ (i : Nat) (hi : i + 1 < (str_entries strings0).length),
        (str_entries strings0)[i + 1].offset =
          (str_entries strings0)[i].offset + (str_entries strings0)[i].key.length) := by
  refine ⟨str_entries_sorted msg strings0 h, ?_, ?_, fun i hi =>
    str_entries_consecutive strings0 i hi⟩
  · rw [List.pairwise_iff_getElem]
    intro i j hi hj hij
    simp only [List.length_map] at hi hj
    simp only [List.getElem_map]
    exact str_entries_offset_mono strings0 i j (by omega) hj
  · unfold offsets_strictly_increasing
    rw [List.pairwise_iff_getElem]
    intro i j hi hj hij
    simp only [List.length_map, List.length_tail] at hi hj
    simp only [List.getElem_map, List.getElem_tail]
    have h1 := str_entries_consecutive strings0 (i + 1) (by omega)
    have h2 := str_entries_tail_nonempty msg strings0 h i (by omega)
    have h3 := str_entries_offset_mono strings0 (i + 1 + 1) (j + 1) (by omega) (by omega)
    omega

/-- C3, amended (pool ordering). For every conforming instance the walk over
the strings returns, and the finished pool is sorted by content, with no
content twice; its offsets never decrease and are strictly increasing from the
second entry on (only the first entry can be the empty string); and every
offset is the offset before plus the length before. -/
theorem pool_ordering (msg : upb_msg) (hc : conforms msg = true) :
    ∃ strings0, add_strings_from_msg msg [] = some strings0 ∧
      (str_entries strings0).Pairwise (fun a b => upb_strcmp a.key b.key < 0) ∧
      ((str_entries strings0).map (fun e => e.offset)).Pairwise (fun a b => a ≤ b) ∧
      offsets_strictly_increasing (str_entries strings0).tail ∧
      (∀ (i : Nat) (hi : i + 1 < (str_entries strings0).length),
        (str_entries strings0)[i + 1].offset =
          (str_entries strings0)[i].offset + (str_entries strings0)[i].key.length) := by
  obtain ⟨strings0, hs⟩ := add_strings_from_msg_total msg [] hc
  exact ⟨strings0, hs, str_entries_ordering msg strings0 hs⟩

/-- C3, amended, at the message `{a = "", b = "a"}`. -/
theorem pool_ordering_witness :
    ∃ strings0, add_strings_from_msg empty_string_msg [] = some strings0 ∧
      (str_entries strings0).Pairwise (fun a b => upb_strcmp a.key b.key < 0) ∧
      ((str_entries strings0).map (fun e => e.offset)).Pairwise (fun a b => a ≤ b) ∧
      offsets_strictly_increasing (str_entries strings0).tail ∧
      (∀ (i : Nat) (hi : i + 1 < (str_entries strings0).length),
        (str_entries strings0)[i + 1].offset =
          (str_entries strings0)[i].offset + (str_entries strings0)[i].key.length) :=
  pool_ordering empty_string_msg (by decide)

/-! ## The claims about the type table -/

/-- C4 (array contiguity). The traversal (the root is added, then
`add_submsgs` runs) returns on every conforming instance without arrays of
scalars; and whenever it returns, for every array record of every entry: the
run `[offset, offset + len)` lies inside the values, `len` is the length of
the source array, the values of the run are the elements of the source array
in order, and the runs of two different records of the same entry share no
index. -/
theorem array_contiguity (ctype : Nat → Bytes) (msg : upb_msg) :
    (conforms msg = true → no_scalar_arrays msg = true →
      ∃ types, gather_types ctype msg = some types) ∧
    ∀ types, gather_types ctype msg = some types →
      ∀ e ∈ types,
        (∀ r ∈ e.arrays, r.offset + r.len ≤ e.values_len ∧ r.len = r.ptr.len ∧
          ∀ j, j < r.len → e.values[r.offset + j]? = r.ptr.elements[j]?) ∧
        (∀ (i j : Nat) (hi : i < e.arrays.length) (hj : j < e.arrays.length), i ≠ j →
          ∀ x, ¬ (e.arrays[i].offset ≤ x ∧ x < e.arrays[i].offset + e.arrays[i].len ∧
            e.arrays[j].offset ≤ x ∧ x < e.arrays[j].offset + e.arrays[j].len)) := by
  refine ⟨fun hc hn => ?_, ?_⟩
  · obtain ⟨types, ht, _⟩ := gather_types_total ctype msg hc hn
    exact ⟨types, ht⟩
  intro types h e he
  have hl := types_lookup_of_mem types e (gather_types_keys_nodup ctype msg types h) he
  obtain ⟨h1, h2⟩ := gather_types_arrays_inv ctype msg types h e.key
  simp only [arrays_of, values_of, hl] at h1 h2
  refine ⟨fun r hr => h1 r hr, ?_⟩
  intro i j hi hj hij x hx
  rw [List.pairwise_iff_getElem] at h2
  rcases Nat.lt_or_gt_of_ne hij with hlt | hgt
  · have := h2 i j hi hj hlt
    omega
  · have := h2 j i hj hi hgt
    omega

/-- C4, at the scenario `Person`: the array of the root is backed by the values
at the indices 1 and 2, although its elements are of the type of the root. -/
theorem array_contiguity_witness :
    gather_types c_types person_root = some person_types ∧
      ∀ e ∈ person_types,
        (∀ r ∈ e.arrays, r.offset + r.len ≤ e.values_len ∧ r.len = r.ptr.len ∧
          ∀ j, j < r.len → e.values[r.offset + j]? = r.ptr.elements[j]?) ∧
        (∀ (i j : Nat) (hi : i < e.arrays.length) (hj : j < e.arrays.length), i ≠ j →
          ∀ x, ¬ (e.arrays[i].offset ≤ x ∧ x < e.arrays[i].offset + e.arrays[i].len ∧
            e.arrays[j].offset ≤ x ∧ x < e.arrays[j].offset + e.arrays[j].len)) :=
  ⟨person_gather_types,
    (array_contiguity c_types person_root).2 person_types person_gather_types⟩

/-- C5 (root at zero). The traversal of `write_message_c` returns on every
conforming instance without arrays of scalars; whenever it returns, the entry
of the root's message type holds the root at index 0 of its values, also when
messages of the root's type occur deeper in the instance; and when
`write_message_c` returns, the last line written is the reference
`&<cident of that entry>_values[0]`, whose entry still holds the root at
index 0. -/
theorem root_at_zero (ctype : Nat → Bytes) (msg : upb_msg) (cident hfile_name : Bytes)
    (argv : List Bytes) (infile_name : Bytes) :
    (conforms msg = true → no_scalar_arrays msg = true →
      ∃ types, gather_types ctype msg = some types) ∧
    (∀ types, gather_types ctype msg = some types →
      ∃ e, types_lookup types msg.fqname = some e ∧ e.values[0]? = some (.msg msg)) ∧
    ((write_message_c ctype msg cident hfile_name argv infile_name).status = .ok →
      ∃ e, types_lookup (write_message_c ctype msg cident hfile_name argv infile_name).types
            msg.fqname = some e ∧
        e.values[0]? = some (.msg msg) ∧
        (write_message_c ctype msg cident hfile_name argv infile_name).stream.getLast? =
          some (.root e.cident cident)) := by
  refine ⟨fun hc hn => ?_, gather_types_root ctype msg, ?_⟩
  · obtain ⟨types, ht, _⟩ := gather_types_total ctype msg hc hn
    exact ⟨types, ht⟩
  unfold write_message_c
  simp only []
  cases hs : add_strings_from_msg msg [] with
  | none => simp [emitter.stop]
  | some strings0 =>
    simp only []
    cases hg : gather_types ctype msg with
    | none => simp [emitter.stop, emit_strings, emitter.put]
    | some types =>
      simp only []
      obtain ⟨e, he, hv⟩ := gather_types_root ctype msg types hg
      generalize hs2 : (emit_strings (str_entries strings0)
        { types := [], stream := [item.prologue argv infile_name hfile_name],
          status := run_status.ok }).set_types types = s2
      have ht2 : s2.types = types := by rw [← hs2]; rfl
      have hext := emit_defs_extends ctype (str_entries strings0) types
        (emit_each emit_decl types s2)
      rw [emit_decls_types, ht2] at hext
      obtain ⟨e1, he1, hpre, _, _, _⟩ := hext msg.fqname e he
      generalize emit_each (emit_def ctype (str_entries strings0)) types
        (emit_each emit_decl types s2) = s4 at he1 ⊢
      unfold emit_root
      split
      · intro _
        have hfound := get_or_insert_found ctype _ (fake_field msg) e1
          (by rw [type_name_fake_field]; exact he1)
        rw [hfound]
        refine ⟨e1, he1, prefix_getElem? hpre 0 _ hv, ?_⟩
        simp [emitter.put, emitter.set_types]
      · intro h; next hne => exact absurd h (by simpa using hne)

/-- C5, at the scenario `Person`, whose array holds two more messages of the
root's type. -/
theorem root_at_zero_witness :
    ∃ e, types_lookup (write_message_c c_types person_root [] [] [] []).types
          person_root.fqname = some e ∧
      e.values[0]? = some (.msg person_root) ∧
      (write_message_c c_types person_root [] [] [] []).stream.getLast? =
        some (.root e.cident []) :=
  (root_at_zero c_types person_root [] [] [] []).2.2 (by decide)

/-! ## The claim about the lookups of the emission pass -/

/-- C9 (resolver lookups never fail). For every conforming instance tree, the
run of `write_message_c` is never stopped by a failed `assert`. Moreover, when
the traversal returns (so that the emission pass is reached), the walk over
the strings has returned, and for every message value of every entry of the
type table (the values the emission pass prints) and every present field of
it: (a) the string of a singular string field is found in the string table,
(b) the array of a repeated field that is not a string field is found among
the array records of the entry of its type key, and the record found has that
very array as its source, (c) the message of a singular submessage field is
found among the values of the entry of its type key, and the slot found holds
that very message; none of these lookups changes the type table; the run is
not stopped by a fault either, and it returns when no printed message has a
present repeated string field. -/
theorem resolver_lookups (ctype : Nat → Bytes) (msg : upb_msg) (cident hfile_name : Bytes)
    (argv : List Bytes) (infile_name : Bytes)
    (hc : conforms msg = true) (htree : instance_tree msg) :
    (write_message_c ctype msg cident hfile_name argv infile_name).status ≠
      .assertion_failed ∧
    ∀ types, gather_types ctype msg = some types →
      ∃ strings0, add_strings_from_msg msg [] = some strings0 ∧
        (∀ e ∈ types, ∀ v ∈ e.values,
          ∃ x, v = upb_value.msg x ∧
            ∀ fd ∈ x.fields, field_resolves ctype (str_entries strings0) types fd) ∧
        (write_message_c ctype msg cident hfile_name argv infile_name).status ≠ .fault ∧
        (write_message_c ctype msg cident hfile_name argv infile_name).types = types ∧
        (types.any unsupported_entry = false →
          (write_message_c ctype msg cident hfile_name argv infile_name).status = .ok) := by
  obtain ⟨strings0, hs⟩ := add_strings_from_msg_total msg [] hc
  constructor
  · cases hg : gather_types ctype msg with
    | none =>
      unfold write_message_c
      simp only [hs, hg, emitter.stop]
      simp
    | some types =>
      obtain ⟨_, h2, _⟩ := write_message_c_status ctype msg cident hfile_name argv infile_name
        strings0 types hc hs hg
      rw [h2]; split <;> simp
  · intro types ht
    obtain ⟨h1, h2, _⟩ := write_message_c_status ctype msg cident hfile_name argv infile_name
      strings0 types hc hs ht
    have hnd := gather_types_keys_nodup ctype msg types ht
    refine ⟨strings0, hs, ?_, ?_, h1, ?_⟩
    · intro e he v hv
      exact gather_resolves ctype msg strings0 types hc htree hs ht e.key v
        (by rw [(values_of_mem types e hnd he).1]; exact hv)
    · rw [h2]; split <;> simp
    · intro hno
      rw [h2, hno]; simp

/-- C9, at the scenario `Person`. -/
theorem resolver_lookups_witness :
    (write_message_c c_types person_root [] [] [] []).status ≠ .assertion_failed ∧
    ∃ strings0, add_strings_from_msg person_root [] = some strings0 ∧
      (∀ e ∈ person_types, ∀ v ∈ e.values,
        ∃ x, v = upb_value.msg x ∧
          ∀ fd ∈ x.fields, field_resolves c_types (str_entries strings0) person_types fd) ∧
      (write_message_c c_types person_root [] [] [] []).status ≠ .fault ∧
      (write_message_c c_types person_root [] [] [] []).types = person_types ∧
      (person_types.any unsupported_entry = false →
        (write_message_c c_types person_root [] [] [] []).status = .ok) :=
  ⟨(resolver_lookups c_types person_root [] [] [] [] (by decide) (by decide)).1,
    (resolver_lookups c_types person_root [] [] [] [] (by decide) (by decide)).2
      person_types person_gather_types⟩

/-! ## The identifiers and the header of constants -/

theorem my_memrchr_loop_spec (data : Bytes) (c : Nat) :
    ∀ (off k : Nat), k ≤ off → (k = 0 ∨ data[k]? = some c) →
      (∀ j, k < j → j ≤ off → data[j]? ≠ some c) → my_memrchr_loop data c off = k
  | 0, k, hk, _, _ => by
    have : k = 0 := by omega
    subst this; rfl
  | off + 1, k, hk, hc, hlast => by
    unfold my_memrchr_loop
    by_cases h : k = off + 1
    · subst h
      rcases hc with h0 | h1
      · omega
      · rw [if_pos h1]
    · rw [if_neg (hlast (off + 1) (by omega) (Nat.le_refl _))]
      exact my_memrchr_loop_spec data c off k (by omega) hc
        (fun j hj1 hj2 => hlast j hj1 (by omega))

theorem scope_prefix_spec :
    ∀ (fq : Bytes) (k : Nat), fq[k]? = some UPB_SYMBOL_SEPARATOR →
      (∀ j, k < j → fq[j]? ≠ some UPB_SYMBOL_SEPARATOR) → scope_prefix fq = fq.take (k + 1)
  | [], k, h, _ => by simp at h
  | c :: rest, 0, h, hlast => by
    have hc : c = UPB_SYMBOL_SEPARATOR := by simpa using h
    have hn : UPB_SYMBOL_SEPARATOR ∉ rest := by
      intro hm
      obtain ⟨j, hj⟩ := List.getElem?_of_mem hm
      exact hlast (j + 1) (by omega) (by simpa using hj)
    unfold scope_prefix
    simp [hn, hc]
  | c :: rest, k + 1, h, hlast => by
    have hk : rest[k]? = some UPB_SYMBOL_SEPARATOR := by simpa using h
    have hm : UPB_SYMBOL_SEPARATOR ∈ rest := List.getElem?_mem hk
    unfold scope_prefix
    rw [if_pos hm, scope_prefix_spec rest k hk
      (fun j hj => by simpa using hlast (j + 1) (by omega))]
    rfl

theorem scope_prefix_none :
    ∀ (fq : Bytes), UPB_SYMBOL_SEPARATOR ∉ fq → scope_prefix fq = []
  | [], _ => rfl
  | c :: rest, h => by
    unfold scope_prefix
    rw [if_neg (fun hm => h (List.mem_cons_of_mem _ hm)),
      if_neg (fun hc => h (by rw [hc]; exact List.mem_cons_self _ _))]

theorem last_separator :
    ∀ (fq : Bytes), UPB_SYMBOL_SEPARATOR ∈ fq →
      ∃ k : Nat, fq[k]? = some UPB_SYMBOL_SEPARATOR ∧
        ∀ j : Nat, k < j → fq[j]? ≠ some UPB_SYMBOL_SEPARATOR
  | [], h => by simp at h
  | c :: rest, h => by
    by_cases hm : UPB_SYMBOL_SEPARATOR ∈ rest
    · obtain ⟨k, hk, hlast⟩ := last_separator rest hm
      refine ⟨k + 1, by simpa using hk, ?_⟩
      intro j hj
      cases j with
      | zero => omega
      | succ j => simpa using hlast j (by omega)
    · have hc : c = UPB_SYMBOL_SEPARATOR := by
        rcases List.mem_cons.1 h with h1 | h1
        · exact h1.symm
        · exact absurd h1 hm
      refine ⟨0, by simp [hc], ?_⟩
      intro j hj
      cases j with
      | zero => omega
      | succ j =>
        intro hj2
        exact hm (List.getElem?_mem (by simpa using hj2))

/-- For a name with a separator (shorter than `2^32` bytes) the prefix written
by `write_const_h` is the scope prefix, converted with `to_preproc`. -/
theorem enum_val_prefix_scoped (fqname : Bytes) (h : UPB_SYMBOL_SEPARATOR ∈ fqname)
    (hlen : fqname.length < 4294967296) :
    enum_val_prefix fqname = to_preproc ( scope_prefix fqname) := by
  obtain ⟨k, hk, hlast⟩ := last_separator fqname h
  have hkl : k < fqname.length := by
    by_contra hc
    rw [List.getElem?_eq_none (by omega)] at hk
    cases hk
  have hloop := my_memrchr_loop_spec fqname UPB_SYMBOL_SEPARATOR (fqname.length - 1) k
    (by omega) (Or.inr hk) (fun j hj _ => hlast j hj)
  unfold enum_val_prefix my_memrchr
  rw [if_neg (by omega), hloop, scope_prefix_spec fqname k hk hlast]
  simp only []
  congr 2
  omega

/-- For a name without a separator that is not empty the prefix written by `write_const_h` is the first byte of the name,
converted with `to_preproc`, while the scope prefix is empty. -/
theorem enum_val_prefix_unscoped (c : Nat) (rest : Bytes)
    (h : UPB_SYMBOL_SEPARATOR ∉ c :: rest) :
    enum_val_prefix (c :: rest) = to_preproc [c] ∧ scope_prefix (c :: rest) = [] := by
  refine ⟨?_, scope_prefix_none _ h⟩
  have hloop := my_memrchr_loop_spec (c :: rest) UPB_SYMBOL_SEPARATOR
    ((c :: rest).length - 1) 0 (by omega) (Or.inl rfl)
    (fun j _ _ hj => h (List.getElem?_mem hj))
  unfold enum_val_prefix my_memrchr
  rw [if_neg (by simp), hloop]
  rfl

theorem to_cident_getElem? (s : Bytes) (i : Nat) :
    (to_cident s)[i]? = (s[i]?).map (fun c => if c = 46 ∨ c = 47 then 95 else c) := by
  unfold to_cident
  rw [List.getElem?_map]

theorem to_cident_idem (s : Bytes) : to_cident (to_cident s) = to_cident s := by
  unfold to_cident
  rw [List.map_map]
  apply List.map_congr_left
  intro c _
  simp only [Function.comp]
  by_cases h : c = 46 ∨ c = 47
  · simp [h]
  · simp [h]

/-- C14 (identifier transformations). For every byte string `s`: `to_cident s`
is as long as `s`; at every position it holds `_` exactly when `s` holds `.`,
`/` or `_` there, and it holds the byte of `s` wherever that byte is neither
`.` nor `/`; `to_preproc s` is as long as `s` and holds at every position the
upper-cased byte of `to_cident s`; `foo.bar.Baz` becomes `foo_bar_Baz` and
`FOO_BAR_BAZ`; and `to_cident` is idempotent. -/
theorem identifier_transformations (s : Bytes) :
    (to_cident s).length = s.length ∧
    (∀ (i c : Nat), s[i]? = some c →
      ((to_cident s)[i]? = some 95 ↔ (c = 46 ∨ c = 47 ∨ c = 95)) ∧
      (c ≠ 46 → c ≠ 47 → (to_cident s)[i]? = some c)) ∧
    (to_preproc s).length = s.length ∧
    (∀ (i c : Nat), (to_cident s)[i]? = some c → (to_preproc s)[i]? = some (toupper c)) ∧
    to_cident foo_bar_baz = [102, 111, 111, 95, 98, 97, 114, 95, 66, 97, 122] ∧
    to_preproc foo_bar_baz = [70, 79, 79, 95, 66, 65, 82, 95, 66, 65, 90] ∧
    to_cident (to_cident s) = to_cident s := by
  refine ⟨by simp [to_cident], ?_, by simp [to_preproc, to_cident], ?_, by decide, by decide,
    to_cident_idem s⟩
  · intro i c hc
    rw [to_cident_getElem?, hc]
    simp only [Option.map_some', Option.some.injEq]
    constructor
    · by_cases h : c = 46 ∨ c = 47
      · simp only [h, if_true, true_iff]
        rcases h with h | h
        · exact Or.inl h
        · exact Or.inr (Or.inl h)
      · simp only [h, if_false]
        constructor
        · intro h1; exact Or.inr (Or.inr h1)
        · intro h1
          rcases h1 with h1 | h1 | h1
          · exact absurd (Or.inl h1) h
          · exact absurd (Or.inr h1) h
          · exact h1
    · intro h1 h2
      have : ¬ (c = 46 ∨ c = 47) := fun h => h.elim h1 h2
      simp [this]
  · intro i c hc
    unfold to_preproc
    rw [List.getElem?_map, hc]
    rfl

/-- C14, at `foo.bar.Baz`: the byte at index 3 is `.` and becomes `_`. -/
theorem identifier_transformations_witness :
    ((to_cident foo_bar_baz)[3]? = some 95 ↔ ((46 : Nat) = 46 ∨ (46 : Nat) = 47 ∨ (46 : Nat) = 95)) ∧
      ((46 : Nat) ≠ 46 → (46 : Nat) ≠ 47 → (to_cident foo_bar_baz)[3]? = some 46) :=
  (identifier_transformations foo_bar_baz).2.1 3 46 (by decide)

/-- C13, at the failing input, the enum `Color {RED = 0}` defined without a
package: the scope prefix of `Color` is empty, so the constant should be named
`RED`; `my_memrchr` finds no separator and returns 0, the length of the prefix
becomes 1, and `write_const_h` writes the constant as `C` followed by `RED`. -/
theorem enum_prefix_top_level :
    scope_prefix [67, 111, 108, 111, 114] = [] ∧
    my_memrchr [67, 111, 108, 111, 114] UPB_SYMBOL_SEPARATOR 5 = 0 ∧
    enum_val_prefix [67, 111, 108, 111, 114] = [67] ∧
    write_const_h [color_enum] [97, 46, 104] =
      some [.prologue [65, 95, 67], .enum_begin [67, 111, 108, 111, 114],
        .enum_value [67] [82, 69, 68] 0, .enum_end [67, 111, 108, 111, 114],
        .epilogue [65, 95, 67]] := by
  refine ⟨by decide, by decide, by decide, by decide⟩

/-! ## The pool does not depend on the order of the table -/

theorem assign_offsets_congr :
    ∀ (l l1 : List strtable_entry) (offset i : Nat),
      l.map (fun e => e.key) = l1.map (fun e => e.key) →
        assign_offsets l offset i = assign_offsets l1 offset i
  | [], [], _, _, _ => rfl
  | [], _ :: _, _, _, h => by simp at h
  | _ :: _, [], _, _, h => by simp at h
  | a :: l, b :: l1, offset, i, h => by
    simp only [List.map_cons, List.cons.injEq] at h
    unfold assign_offsets
    rw [h.1, assign_offsets_congr l l1 _ _ h.2]

theorem upb_strcmp_le_antisymm (a b : Bytes) (h1 : upb_strcmp a b ≤ 0)
    (h2 : upb_strcmp b a ≤ 0) : a = b := by
  apply upb_strcmp_eq_zero a b
  by_contra hne
  have hlt : upb_strcmp a b < 0 := by omega
  have := (upb_strcmp_antisymm b a).2 hlt
  omega

theorem sorted_keys_unique (s1 s2 : List strtable_entry)
    (hp : (s1.map (fun e => e.key)).Perm (s2.map (fun e => e.key)))
    (h1 : s1.Sorted entries_le) (h2 : s2.Sorted entries_le) :
    s1.map (fun e => e.key) = s2.map (fun e => e.key) := by
  haveI : IsAntisymm Bytes (fun a b => upb_strcmp a b ≤ 0) :=
    ⟨fun a b => upb_strcmp_le_antisymm a b⟩
  have k1 : (s1.map (fun e => e.key)).Sorted (fun a b => upb_strcmp a b ≤ 0) :=
    List.pairwise_map.2 h1
  have k2 : (s2.map (fun e => e.key)).Sorted (fun a b => upb_strcmp a b ≤ 0) :=
    List.pairwise_map.2 h2
  exact List.eq_of_perm_of_sorted hp k1 k2

/-- C11 (reproducible pool). When two enumerations `l1` and `l2` of the string
table hold the same contents (in any order, and whatever the fields `offset`
and `num` of their entries hold), the finalised pool is the same sequence of
(content, offset, num); and this does not depend on how `qsort` orders the
array: every ordering of `l1` and every ordering of `l2` that is sorted by
`compare_entries` gets from the numbering loop the same pool. -/
theorem pool_reproducible (l1 l2 : List strtable_entry)
    (hp : (l1.map (fun e => e.key)).Perm (l2.map (fun e => e.key))) :
    str_entries l1 = str_entries l2 ∧
    ∀ s1 s2 : List strtable_entry, s1.Perm (strtable_to_array l1) →
      s2.Perm (strtable_to_array l2) → s1.Sorted entries_le → s2.Sorted entries_le →
        assign_offsets s1 0 0 = assign_offsets s2 0 0 ∧
        assign_offsets s1 0 0 = str_entries l1 := by
  have key : ∀ s1 s2 : List strtable_entry, s1.Perm l1 → s2.Perm l2 →
      s1.Sorted entries_le → s2.Sorted entries_le →
        assign_offsets s1 0 0 = assign_offsets s2 0 0 := by
    intro s1 s2 hp1 hp2 hs1 hs2
    apply assign_offsets_congr
    apply sorted_keys_unique s1 s2 _ hs1 hs2
    exact ((hp1.map _).trans hp).trans (hp2.map _).symm
  refine ⟨key _ _ (qsort_entries_perm l1) (qsort_entries_perm l2) (qsort_entries_sorted l1)
    (qsort_entries_sorted l2), ?_⟩
  intro s1 s2 hp1 hp2 hs1 hs2
  refine ⟨key s1 s2 hp1 hp2 hs1 hs2, ?_⟩
  apply assign_offsets_congr
  apply sorted_keys_unique s1 _ _ hs1 (qsort_entries_sorted l1)
  exact (hp1.map _).trans ((qsort_entries_perm l1).map _).symm

/-- C11, at the table of the scenario `Person` enumerated in its two orders. -/
theorem pool_reproducible_witness :
    str_entries [{ key := alice, offset := 0, num := 0 }, { key := bob, offset := 0, num := 0 }] =
        str_entries
          [{ key := bob, offset := 0, num := 0 }, { key := alice, offset := 0, num := 0 }] ∧
    ∀ s1 s2 : List strtable_entry,
      s1.Perm (strtable_to_array
        [{ key := alice, offset := 0, num := 0 }, { key := bob, offset := 0, num := 0 }]) →
      s2.Perm (strtable_to_array
        [{ key := bob, offset := 0, num := 0 }, { key := alice, offset := 0, num := 0 }]) →
      s1.Sorted entries_le → s2.Sorted entries_le →
        assign_offsets s1 0 0 = assign_offsets s2 0 0 ∧
        assign_offsets s1 0 0 = str_entries
          [{ key := alice, offset := 0, num := 0 }, { key := bob, offset := 0, num := 0 }] :=
  pool_reproducible _ _ (List.Perm.swap _ _ _)

/-! ## The pool is addressed by offsets -/

theorem strdata_slice :
    ∀ (l : List strtable_entry) (i : Nat) (h : i < l.length),
      ((l.flatMap (fun e => e.key)).drop ((l.map (fun x => x.key.length)).take i).sum).take
        l[i].key.length = l[i].key
  | [], i, h => by simp at h
  | a :: rest, 0, _ => by
    simp only [List.flatMap_cons, List.take_zero, List.sum_nil, List.drop_zero,
      List.getElem_cons_zero]
    exact List.take_left' rfl
  | a :: rest, i + 1, h => by
    simp only [List.flatMap_cons, List.map_cons, List.take_succ_cons, List.sum_cons,
      List.getElem_cons_succ]
    rw [List.drop_append]
    exact strdata_slice rest i (by simpa using h)

/-! ## The entry of a type key is created once -/

theorem get_or_insert_new_table (ctype : Nat → Bytes) (t : List typetable_entry)
    (f : upb_fielddef) (h : types_lookup t (type_name ctype f) = none) :
    (get_or_insert_typeentry ctype t f).1 =
      t ++ [{ key := type_name ctype f, field := f, cident := to_cident (type_name ctype f),
              values := [], values_size := 0, arrays := [], arrays_size := 0 }] := by
  unfold get_or_insert_typeentry
  rw [h]
  simp only []
  split <;> rfl

/-- C15 (create-or-return bucket). `get_or_insert_typeentry(t, f)` returns the
entry whose key is the type key of `f` (the fully-qualified name of the message
definition for a submessage field, the C type name of `upb_type_info`
otherwise), and that entry is the one the table then holds for the key. When
`t` already has an entry for the key, `t` is unchanged and that entry is
returned. Otherwise the table afterwards is `t` followed by one new entry,
with no values and no arrays, and that entry is returned. A second call, for
any field with the same type key, changes nothing and returns the same
entry. -/
theorem create_or_return_bucket (ctype : Nat → Bytes) (t : List typetable_entry)
    (f : upb_fielddef) :
    (get_or_insert_typeentry ctype t f).2.key = type_name ctype f ∧
    (upb_issubmsg f = true → type_name ctype f = f.def_fqname) ∧
    (upb_issubmsg f = false → type_name ctype f = ctype f.type) ∧
    types_lookup (get_or_insert_typeentry ctype t f).1 (type_name ctype f) =
      some (get_or_insert_typeentry ctype t f).2 ∧
    (∀ e, types_lookup t (type_name ctype f) = some e →
      get_or_insert_typeentry ctype t f = (t, e)) ∧
    (types_lookup t (type_name ctype f) = none →
      (get_or_insert_typeentry ctype t f).1 = t ++ [(get_or_insert_typeentry ctype t f).2] ∧
      (get_or_insert_typeentry ctype t f).2.values = [] ∧
      (get_or_insert_typeentry ctype t f).2.arrays = [] ∧
      (get_or_insert_typeentry ctype t f).2.field = f ∧
      (get_or_insert_typeentry ctype t f).2.cident = to_cident (type_name ctype f)) ∧
    (∀ g, type_name ctype g = type_name ctype f →
      get_or_insert_typeentry ctype (get_or_insert_typeentry ctype t f).1 g =
        ((get_or_insert_typeentry ctype t f).1, (get_or_insert_typeentry ctype t f).2)) := by
  obtain ⟨hl, _⟩ := get_or_insert_spec ctype t f
  refine ⟨(get_or_insert_entry ctype t f).2.2.1, ?_, ?_, hl, ?_, ?_, ?_⟩
  · intro h; simp [type_name, h]
  · intro h; simp [type_name, h]
  · intro e he; exact get_or_insert_found ctype t f e he
  · intro hn
    rw [get_or_insert_new_table ctype t f hn, get_or_insert_new ctype t f hn]
    exact ⟨rfl, rfl, rfl, rfl, rfl⟩
  · intro g hg
    exact get_or_insert_found ctype _ g _ (by rw [hg]; exact hl)

/-- C15, at the scenario `Person`: the field `friends` and the fake field of
the root have the same type key, and the entry created for the first is the
entry returned for the second. -/
theorem create_or_return_bucket_witness :
    get_or_insert_typeentry c_types
        (get_or_insert_typeentry c_types [] (fake_field person_root)).1 person_friends =
      ((get_or_insert_typeentry c_types [] (fake_field person_root)).1,
        (get_or_insert_typeentry c_types [] (fake_field person_root)).2) :=
  (create_or_return_bucket c_types [] (fake_field person_root)).2.2.2.2.2.2 person_friends
    (by decide)

/-! ## The tables of arrays -/

theorem array_elems_cons (arr : array) (rest : List array) :
    array_elems (arr :: rest) =
      (List.range arr.len).map (fun j => arr.offset + j) ++ array_elems rest := by
  simp [array_elems]

theorem array_elems_length :
    ∀ (arrays : List array), (array_elems arrays).length = (arrays.map (fun a => a.len)).sum
  | [] => rfl
  | arr :: rest => by
    rw [array_elems_cons, List.length_append, array_elems_length rest]
    simp

theorem array_headers_length :
    ∀ (arrays : List array) (c : Nat), (array_headers arrays c).length = arrays.length
  | [], _ => rfl
  | arr :: rest, c => by
    simp [array_headers, array_headers_length rest]

theorem array_headers_getElem? :
    ∀ (arrays : List array) (c i : Nat) (h : i < arrays.length),
      (array_headers arrays c)[i]? =
        some (c + ((arrays.take i).map (fun a => a.len)).sum, arrays[i].len)
  | [], _, i, h => by simp at h
  | arr :: rest, c, 0, _ => by simp [array_headers]
  | arr :: rest, c, i + 1, h => by
    simp only [array_headers, List.getElem?_cons_succ, List.take_succ_cons, List.map_cons,
      List.sum_cons, List.getElem_cons_succ]
    rw [array_headers_getElem? rest (c + arr.len) i (by simpa using h)]
    simp only [Option.some.injEq, Prod.mk.injEq, and_true]
    omega

theorem array_elems_getElem? :
    ∀ (arrays : List array) (i : Nat) (h : i < arrays.length) (j : Nat),
      j < arrays[i].len →
        (array_elems arrays)[((arrays.take i).map (fun a => a.len)).sum + j]? =
          some (arrays[i].offset + j)
  | [], i, h, _, _ => by simp at h
  | arr :: rest, 0, _, j, hj => by
    simp only [List.getElem_cons_zero] at hj
    rw [array_elems_cons]
    simp only [List.take_zero, List.map_nil, List.sum_nil, Nat.zero_add,
      List.getElem_cons_zero]
    rw [List.getElem?_append_left (by simpa using hj)]
    simp [hj]
  | arr :: rest, i + 1, h, j, hj => by
    simp only [List.getElem_cons_succ] at hj
    rw [array_elems_cons]
    simp only [List.take_succ_cons, List.map_cons, List.sum_cons, List.getElem_cons_succ]
    rw [List.getElem?_append_right (by simp; omega)]
    have := array_elems_getElem? rest i (by simpa using h) j hj
    simp only [List.length_map, List.length_range]
    rw [← this]
    congr 1
    omega

/-- C19 (array tables). For an entry with at least one array record the loop
of the forward declarations writes, after the declaration of the values, the
element table and the table of headers. The element table has as many lines as
the sum of all `len`; the table of headers has one header per record; header
`i` is `{elements = &element_table[c_i], len = len_i}` where `c_i` is the sum
of the `len` of the records before `i`; and line `c_i + j` of the element
table, for `j < len_i`, refers to the value at index `arrays[i].offset + j`. -/
theorem array_tables (e : typetable_entry) (s : emitter) (h : 0 < e.arrays_len) :
    (emit_decl e s).stream =
      s.stream ++ [.forward_decl e.cident e.values_len,
        .array_elems e.cident (array_elems e.arrays),
        .arrays e.cident e.arrays_len (array_headers e.arrays 0)] ∧
    (array_elems e.arrays).length = (e.arrays.map (fun a => a.len)).sum ∧
    (array_headers e.arrays 0).length = e.arrays_len ∧
    ∀ (i : Nat) (hi : i < e.arrays.length),
      (array_headers e.arrays 0)[i]? =
        some (((e.arrays.take i).map (fun a => a.len)).sum, e.arrays[i].len) ∧
      ∀ j, j < e.arrays[i].len →
        (array_elems e.arrays)[((e.arrays.take i).map (fun a => a.len)).sum + j]? =
          some (e.arrays[i].offset + j) := by
  refine ⟨?_, array_elems_length _, array_headers_length _ _, ?_⟩
  · unfold emit_decl
    simp only [gt_iff_lt, h, if_true, emitter.put, List.append_assoc, List.cons_append,
      List.nil_append]
  · intro i hi
    refine ⟨?_, array_elems_getElem? e.arrays i hi⟩
    rw [array_headers_getElem? e.arrays 0 i hi, Nat.zero_add]

/-- C19, at the entry of the scenario `Person`: one header `{0, 2}`, and the two
lines of the element table refer to the values 1 and 2. -/
theorem array_tables_witness :
    (emit_decl (person_types.get ⟨0, by decide⟩) person_start).stream =
      [.forward_decl person_fqname 3, .array_elems person_fqname [1, 2],
        .arrays person_fqname 1 [(0, 2)]] ∧
    (array_headers (person_types.get ⟨0, by decide⟩).arrays 0)[0]? = some (0, 2) ∧
    (array_elems (person_types.get ⟨0, by decide⟩).arrays)[0 + 1]? = some (1 + 1) :=
  ⟨(array_tables (person_types.get ⟨0, by decide⟩) person_start (by decide)).1,
    ((array_tables (person_types.get ⟨0, by decide⟩) person_start (by decide)).2.2.2 0
      (by decide)).1,
    ((array_tables (person_types.get ⟨0, by decide⟩) person_start (by decide)).2.2.2 0
      (by decide)).2 1 (by decide)⟩

/-! ## Arrays of scalars -/

theorem add_values_other (ctype : Nat → Bytes) (f : upb_fielddef) (k : Bytes)
    (hk : k ≠ type_name ctype f) :
    ∀ (es : List upb_value) (t : List typetable_entry),
      types_lookup (add_values ctype es f t) k = types_lookup t k
  | [], _ => rfl
  | p :: rest, t => by
    unfold add_values
    rw [add_values_other ctype f k hk rest, (add_value_spec ctype p f t).2 k hk]

/-- The array branch of `add_submsgs` on a present repeated field that is not a
string field and whose array starts with a scalar: the record and the values
are added, then the first element is read as a message pointer. -/
theorem add_submsgs_scalar_array (ctype : Nat → Bytes) (f : upb_fielddef) (addr : Nat)
    (r : Int) (es : List upb_value) (rest : List (upb_fielddef × Bool × upb_value))
    (t : List typetable_entry) (ha : upb_isarray f = true) (hs : upb_isstring f = false) :
    add_submsgs_fields ctype ((f, true, .arr (.mk addr (.scalar r :: es))) :: rest) t = none := by
  rw [add_submsgs_fields_cons]
  simp [ha, hs, upb_array.elements, add_submsgs_elements_scalar]

/-- C18, at the failing input `{f = [7]}` (`f` a repeated `int32` field), from
any table `t`: the record `{offset = values_len before, len = 1, ptr}` and the
value 7 are added to the entry of the type key of `f` and no other entry is
touched, as the claim says; but then the element 7 is read as a message pointer
and descended into, and `add_submsgs` does not return. For the array without
elements, `{f = []}`, `add_submsgs` returns the table with the record added. -/
theorem scalar_array_descent (ctype : Nat → Bytes) (t : List typetable_entry) :
    arrays_of (add_values ctype [.scalar 7] example_int32s
        (add_array ctype (.mk 2 [.scalar 7]) example_int32s t))
        (type_name ctype example_int32s) =
      arrays_of t (type_name ctype example_int32s) ++
        [{ offset := (values_of t (type_name ctype example_int32s)).length, len := 1,
           ptr := .mk 2 [.scalar 7] }] ∧
    values_of (add_values ctype [.scalar 7] example_int32s
        (add_array ctype (.mk 2 [.scalar 7]) example_int32s t))
        (type_name ctype example_int32s) =
      values_of t (type_name ctype example_int32s) ++ [.scalar 7] ∧
    (∀ k, k ≠ type_name ctype example_int32s →
      types_lookup (add_values ctype [.scalar 7] example_int32s
        (add_array ctype (.mk 2 [.scalar 7]) example_int32s t)) k = types_lookup t k) ∧
    add_submsgs ctype int32_array_msg t = none ∧
    add_submsgs ctype empty_int32_array_msg t =
      some (add_array ctype (.mk 2 []) example_int32s t) := by
  refine ⟨?_, ?_, ?_, ?_, ?_⟩
  · rw [arrays_of_add_values, arrays_of_add_array, if_pos rfl]
    rfl
  · rw [values_of_add_values, if_pos rfl, values_of_add_array]
  · intro k hk
    rw [add_values_other ctype _ k hk, (add_array_spec ctype _ _ t).2 k hk]
  · rw [add_submsgs_eq]
    exact add_submsgs_scalar_array ctype example_int32s 2 7 [] [] t rfl rfl
  · rw [add_submsgs_eq]
    show add_submsgs_fields ctype [(example_int32s, true, .arr (.mk 2 []))] t = _
    rw [add_submsgs_fields_cons]
    simp [example_int32s, upb_isarray, upb_isstring, upb_isstringtype, upb_array.elements,
      add_submsgs_elements_nil, add_submsgs_fields_nil, add_values]

/-- C18, at the empty table and the C type names of `write_h`. -/
theorem scalar_array_descent_witness :
    types_lookup (add_values c_types [.scalar 7] example_int32s
        (add_array c_types (.mk 2 [.scalar 7]) example_int32s [])) person_fqname =
      types_lookup [] person_fqname ∧
    add_submsgs c_types int32_array_msg [] = none :=
  ⟨(scalar_array_descent c_types []).2.2.1 person_fqname (by decide),
    (scalar_array_descent c_types []).2.2.2.1⟩

/-! ## The traversal and repeated string fields -/

/-- The array branch of `add_submsgs` on a present repeated string field: the
field is skipped (`continue`). -/
theorem add_submsgs_skips_string_array (ctype : Nat → Bytes) (f : upb_fielddef)
    (isset : Bool) (p : upb_value) (rest : List (upb_fielddef × Bool × upb_value))
    (t : List typetable_entry) (ha : upb_isarray f = true) (hs : upb_isstring f = true) :
    add_submsgs_fields ctype ((f, isset, p) :: rest) t = add_submsgs_fields ctype rest t := by
  rw [add_submsgs_fields_cons]
  cases isset <;> simp [ha, hs]

/-- C17, as stated, fails: for the message `{tags = ["x"]}`, whose only field
is a present repeated string field, both walks of the traversal return:
`add_strings_from_msg` with the string `x` interned, the traversal of the types
with the entry of the root, in which the field has left nothing. -/
theorem walker_rejects_counterexample :
    string_array_msg.fields.any unsupported_field = true ∧
    add_strings_from_msg string_array_msg [] = some [{ key := [120], offset := 0, num := 0 }] ∧
    gather_types c_types string_array_msg =
      some [{ key := [77], field := fake_field string_array_msg, cident := [77],
              values := [.msg string_array_msg], values_size := 4,
              arrays := [], arrays_size := 0 }] :=
  ⟨by decide, by decide, rfl⟩

/-- C17, amended (the walker and repeated strings). For a conforming instance,
all of whose present repeated fields are string fields or submessage fields, in
which the root or a message below it has a present repeated string field: both
walks of the traversal return; `add_strings_from_msg` has interned the content
of every present string field, the elements of the repeated string fields
included; `add_submsgs` skips a repeated string field and goes on with the next
field; and the error is signalled afterwards, by the emission pass: the run of
`write_message_c` stops with the message about string arrays. -/
theorem walker_skips_repeated_strings (ctype : Nat → Bytes) (msg : upb_msg)
    (cident hfile_name : Bytes) (argv : List Bytes) (infile_name : Bytes)
    (hc : conforms msg = true) (hn : no_scalar_arrays msg = true)
    (hx : ∃ x, upb_value.msg x ∈ upb_value.msg msg :: walked msg ∧
      x.fields.any unsupported_field = true) :
    (∃ strings0, add_strings_from_msg msg [] = some strings0 ∧
      ∀ s ∈ present_strings msg, s ∈ strings0.map (fun e => e.key)) ∧
    (∃ types, gather_types ctype msg = some types) ∧
    (∀ (f : upb_fielddef) (isset : Bool) (p : upb_value)
        (rest : List (upb_fielddef × Bool × upb_value)) (t : List typetable_entry),
      upb_isarray f = true → upb_isstring f = true →
        add_submsgs_fields ctype ((f, isset, p) :: rest) t =
          add_submsgs_fields ctype rest t) ∧
    (write_message_c ctype msg cident hfile_name argv infile_name).status = .unsupported := by
  obtain ⟨strings0, hs⟩ := add_strings_from_msg_total msg [] hc
  obtain ⟨types, ht, hsub⟩ := gather_types_total ctype msg hc hn
  obtain ⟨_, h2, _⟩ := write_message_c_status ctype msg cident hfile_name argv infile_name
    strings0 types hc hs ht
  obtain ⟨x, hxm, hxu⟩ := hx
  obtain ⟨k, hk⟩ := gather_types_registered ctype msg types ht x hxm
  obtain ⟨e, he, hme⟩ := types_lookup_of_values types k _ hk
  have hany : types.any unsupported_entry = true := by
    rw [List.any_eq_true]
    refine ⟨e, types_lookup_mem he, ?_⟩
    unfold unsupported_entry
    rw [List.any_eq_true]
    refine ⟨_, hme, ?_⟩
    simp [unsupported_value, hsub k e he, hxu]
  rw [hany] at h2
  simp only [if_true] at h2
  refine ⟨⟨strings0, hs, ?_⟩, ⟨types, ht⟩, ?_, h2⟩
  · intro s hsm
    rw [← (str_entries_keys_perm strings0).mem_iff]
    exact ((str_entries_keys msg strings0 hs).2 s).2 hsm
  · intro f isset p rest t ha hstr
    exact add_submsgs_skips_string_array ctype f isset p rest t ha hstr

/-- C17, amended, at the message `{tags = ["x"]}`. -/
theorem walker_skips_repeated_strings_witness :
    (∃ strings0, add_strings_from_msg string_array_msg [] = some strings0 ∧
      ∀ s ∈ present_strings string_array_msg, s ∈ strings0.map (fun e => e.key)) ∧
    (∃ types, gather_types c_types string_array_msg = some types) ∧
    (∀ (f : upb_fielddef) (isset : Bool) (p : upb_value)
        (rest : List (upb_fielddef × Bool × upb_value)) (t : List typetable_entry),
      upb_isarray f = true → upb_isstring f = true →
        add_submsgs_fields c_types ((f, isset, p) :: rest) t =
          add_submsgs_fields c_types rest t) ∧
    (write_message_c c_types string_array_msg [] [] [] []).status = .unsupported :=
  walker_skips_repeated_strings c_types string_array_msg [] [] [] [] (by decide) (by decide)
    ⟨string_array_msg, List.mem_cons_self _ _, by decide⟩

/-! ## The emission pass does not change the type table -/

/-- C20 (emission is read-only on the registry). For a conforming instance:
the traversal returns when every present repeated field is a string field or a
submessage field; and whenever the traversal returns (so that the emission pass
is reached), the type table at the end of the run of `write_message_c` is the
table the traversal built, and every call of `get_or_insert_typeentry` the
emission pass makes (for the array of a present repeated field that is not a
string field and for the message of a present singular submessage field of
every message value it prints, and for the root type) finds an entry of that
table and returns the table unchanged. -/
theorem emission_read_only (ctype : Nat → Bytes) (msg : upb_msg) (cident hfile_name : Bytes)
    (argv : List Bytes) (infile_name : Bytes) (hc : conforms msg = true) :
    (no_scalar_arrays msg = true → ∃ types, gather_types ctype msg = some types) ∧
    ∀ types, gather_types ctype msg = some types →
      (write_message_c ctype msg cident hfile_name argv infile_name).types = types ∧
      (∀ e ∈ types, ∀ v ∈ e.values,
        ∃ x, v = upb_value.msg x ∧
          ∀ fd ∈ x.fields, fd.2.1 = true →
            (upb_isstring fd.1 = false → upb_isarray fd.1 = true →
              ∃ type_e ∈ types,
                get_or_insert_typeentry ctype types fd.1 = (types, type_e)) ∧
            (upb_isarray fd.1 = false → upb_issubmsg fd.1 = true →
              ∃ type_e ∈ types,
                get_or_insert_typeentry ctype types fd.1 = (types, type_e))) ∧
      (∃ type_e ∈ types,
        get_or_insert_typeentry ctype types (fake_field msg) = (types, type_e)) := by
  refine ⟨fun hn => ?_, ?_⟩
  · obtain ⟨types, ht, _⟩ := gather_types_total ctype msg hc hn
    exact ⟨types, ht⟩
  intro types ht
  obtain ⟨strings0, hs⟩ := add_strings_from_msg_total msg [] hc
  obtain ⟨h1, _, _⟩ := write_message_c_status ctype msg cident hfile_name argv infile_name
    strings0 types hc hs ht
  have hnd := gather_types_keys_nodup ctype msg types ht
  have hmem : ∀ (f : upb_fielddef) (type_e : typetable_entry),
      get_or_insert_typeentry ctype types f = (types, type_e) → type_e ∈ types := by
    intro f type_e hg
    have hl := (get_or_insert_spec ctype types f).1
    rw [hg] at hl
    exact types_lookup_mem hl
  refine ⟨h1, ?_, ?_⟩
  · intro e he v hv
    obtain ⟨x, hx, hf⟩ := gather_found ctype msg strings0 types hc hs ht e.key v
      (by rw [(values_of_mem types e hnd he).1]; exact hv)
    refine ⟨x, hx, ?_⟩
    intro fd hfd hset
    obtain ⟨_, h2, h3⟩ := hf fd hfd hset
    constructor
    · intro hstr harr
      obtain ⟨a, type_e, k, _, hg, _⟩ := h2 hstr harr
      exact ⟨type_e, hmem _ _ hg, hg⟩
    · intro harr hsub
      obtain ⟨m, type_e, k, _, hg, _⟩ := h3 harr hsub
      exact ⟨type_e, hmem _ _ hg, hg⟩
  · obtain ⟨e, he, _⟩ := gather_types_root ctype msg types ht
    exact ⟨e, types_lookup_mem he, get_or_insert_found ctype types (fake_field msg) e
      (by rw [type_name_fake_field]; exact he)⟩

/-- C20, at the scenario `Person`. -/
theorem emission_read_only_witness :
    (write_message_c c_types person_root [] [] [] []).types = person_types ∧
    (∀ e ∈ person_types, ∀ v ∈ e.values,
      ∃ x, v = upb_value.msg x ∧
        ∀ fd ∈ x.fields, fd.2.1 = true →
          (upb_isstring fd.1 = false → upb_isarray fd.1 = true →
            ∃ type_e ∈ person_types,
              get_or_insert_typeentry c_types person_types fd.1 = (person_types, type_e)) ∧
          (upb_isarray fd.1 = false → upb_issubmsg fd.1 = true →
            ∃ type_e ∈ person_types,
              get_or_insert_typeentry c_types person_types fd.1 = (person_types, type_e))) ∧
    (∃ type_e ∈ person_types,
      get_or_insert_typeentry c_types person_types (fake_field person_root) =
        (person_types, type_e)) :=
  (emission_read_only c_types person_root [] [] [] [] (by decide)).2 person_types
    person_gather_types

/-! ## The order of the entries -/

theorem same_order_set_types (s : emitter) (t : List typetable_entry) :
    same_order s (s.set_types t) := ⟨rfl, rfl⟩

/-- C24, at the failing input, a message type with a singular and a repeated
field of an enum type (field type number 14): `write_h` declares the singular
field as `int32_t`, whose array type is `struct upb_int32_array*`, and the
repeated field as `struct upb_uint32_array*`. Among the field types 1 to 18
with an entry, 14 is the only one whose two entries do not correspond. -/
theorem storage_mapping_enum :
    field_types.filter (fun t =>
      decide (c_types t ≠ []) && decide (c_types_repeated t ≠ array_type_of (c_types t))) =
        [14] ∧
    c_types 14 = [105, 110, 116, 51, 50, 95, 116] ∧
    array_type_of (c_types 14) =
      [115, 116, 114, 117, 99, 116, 32, 117, 112, 98, 95, 105, 110, 116, 51, 50, 95, 97, 114,
        114, 97, 121, 42] ∧
    c_types_repeated 14 =
      [115, 116, 114, 117, 99, 116, 32, 117, 112, 98, 95, 117, 105, 110, 116, 51, 50, 95, 97,
        114, 114, 97, 121, 42] ∧
    write_h [.msgdef enum_fields_msg] [97, 46, 104] none =
      some [.prologue [65, 95, 72] none, .forward [77], .struct_begin [77] 1,
        .has_bit [97] 1 [111, 112, 116, 105, 111, 110, 97, 108],
        .has_bit [98] 2 [114, 101, 112, 101, 97, 116, 101, 100],
        .has_end,
        .member [105, 110, 116, 51, 50, 95, 116] [97],
        .member [115, 116, 114, 117, 99, 116, 32, 117, 112, 98, 95, 117, 105, 110, 116, 51,
          50, 95, 97, 114, 114, 97, 121, 42] [98],
        .struct_end [77], .epilogue [65, 95, 72]] := by
  refine ⟨by decide, by decide, by decide, by decide, by decide⟩

/-! ## The length of the file base -/

theorem emit_output_files_spec (argv : List Bytes) (w : main_world) (a : main_args)
    (input_file h c hc : Bytes) :
    (emit_output_files argv w a input_file h c hc).exit ≠ .file_base_too_long ∧
      (emit_output_files argv w a input_file h c hc).opened <+: [h, hc, c] := by
  unfold emit_output_files
  repeat' split
  all_goals
    refine ⟨by simp, ?_⟩
    first
    | exact List.nil_prefix
    | exact List.prefix_refl _
    | exact ⟨[hc, c], rfl⟩
    | exact ⟨[c], rfl⟩

theorem parse_args_no_o :
    ∀ (l : List Bytes) (a a1 : main_args), parse_args l a = .ok a1 → [45, 111] ∉ l →
      a1.outfile_base = a.outfile_base
  | [], a, a1, h, _ => by
    simp only [parse_args] at h
    cases h; rfl
  | [arg], a, a1, h, hn => by
    have h1 : arg ≠ [45, 111] := fun hc => hn (by simp [hc])
    unfold parse_args at h
    simp only [h1, if_false] at h
    split at h
    · cases h
    · split at h
      · cases h
      · have h2 := parse_args_no_o [] _ a1 h (by simp)
        exact h2
  | arg :: b :: rest, a, a1, h, hn => by
    have h1 : arg ≠ [45, 111] := fun hc => hn (by simp [hc])
    unfold parse_args at h
    simp only [h1, if_false] at h
    split at h
    · split at h
      · cases h
      · have h2 := parse_args_no_o rest _ a1 h
          (fun hm => hn (List.mem_cons_of_mem _ (List.mem_cons_of_mem _ hm)))
        exact h2
    · split at h
      · cases h
      · have h2 := parse_args_no_o (b :: rest) _ a1 h
          (fun hm => hn (List.mem_cons_of_mem _ hm))
        exact h2

/-- C25 (output path length bound). For a command line the argument loop
accepts, with an input file that is read, parsed and added: the run ends with
`File base too long.` exactly when the file base is 248 bytes or longer, which
is exactly when one of the names `base.h`, `base.c`, `base_const.h` is longer
than 255 bytes; no output file has been opened by then; when the base is
shorter, every file the run opens is one of these three names; and the file
base is the name of the input file when `-o` is not among the arguments. -/
theorem file_base_length_bound (argv : List Bytes) (w : main_world) (a : main_args)
    (input_file : Bytes)
    (hp : parse_args argv.tail { outfile_base := none, input_file := none, cident := none } =
      .ok a)
    (hi : a.input_file = some input_file) (hr : w.readfile input_file = true)
    (hparse : w.parse_ok = true) (hadd : w.add_desc_ok = true) :
    ((main argv w).exit = .file_base_too_long ↔
      248 ≤ (a.outfile_base.getD input_file).length) ∧
    (248 ≤ (a.outfile_base.getD input_file).length ↔
      (255 < (a.outfile_base.getD input_file ++ [46, 104]).length ∨
        255 < (a.outfile_base.getD input_file ++ [46, 99]).length ∨
        255 < (a.outfile_base.getD input_file ++
          [95, 99, 111, 110, 115, 116, 46, 104]).length)) ∧
    ((main argv w).exit = .file_base_too_long → (main argv w).opened = []) ∧
    ((a.outfile_base.getD input_file).length < 248 →
      (main argv w).opened <+:
        [a.outfile_base.getD input_file ++ [46, 104],
          a.outfile_base.getD input_file ++ [95, 99, 111, 110, 115, 116, 46, 104],
          a.outfile_base.getD input_file ++ [46, 99]]) ∧
    ([45, 111] ∉ argv.tail → a.outfile_base.getD input_file = input_file) := by
  have hmain : main argv w =
      if 248 ≤ (a.outfile_base.getD input_file).length then
        { exit := .file_base_too_long, opened := [] }
      else emit_output_files argv w a input_file
        (snprintf maxsize (a.outfile_base.getD input_file) [46, 104]).1
        (snprintf maxsize (a.outfile_base.getD input_file) [46, 99]).1
        (snprintf maxsize (a.outfile_base.getD input_file)
          [95, 99, 111, 110, 115, 116, 46, 104]).1 := by
    unfold main
    simp only [hp, hi, hr, hparse, hadd, Bool.not_true, Bool.false_eq_true, if_false]
    by_cases hlen : 248 ≤ (a.outfile_base.getD input_file).length
    · rw [if_pos hlen, if_pos]
      simp only [snprintf, maxsize, List.length_append, List.length_cons, List.length_nil]
      omega
    · rw [if_neg hlen, if_neg]
      simp only [snprintf, maxsize, List.length_append, List.length_cons, List.length_nil]
      omega
  refine ⟨?_, ?_, ?_, ?_, ?_⟩
  · rw [hmain]
    by_cases hlen : 248 ≤ (a.outfile_base.getD input_file).length
    · simp [hlen]
    · simp only [hlen, if_false, iff_false]
      exact (emit_output_files_spec argv w a input_file _ _ _).1
  · simp only [List.length_append, List.length_cons, List.length_nil]
    omega
  · rw [hmain]
    by_cases hlen : 248 ≤ (a.outfile_base.getD input_file).length
    · simp [hlen]
    · simp only [hlen, if_false]
      intro h
      exact absurd h (emit_output_files_spec argv w a input_file _ _ _).1
  · intro hlen
    rw [hmain, if_neg (by omega)]
    have ht : ∀ suffix : Bytes, suffix.length ≤ 8 →
        (snprintf maxsize (a.outfile_base.getD input_file) suffix).1 =
          a.outfile_base.getD input_file ++ suffix := by
      intro suffix hs
      unfold snprintf maxsize
      exact List.take_of_length_le (by rw [List.length_append]; omega)
    rw [ht _ (by decide), ht _ (by decide), ht _ (by decide)]
    exact (emit_output_files_spec argv w a input_file _ _ _).2
  · intro hn
    have := parse_args_no_o argv.tail _ a hp hn
    simp only at this
    rw [this]
    rfl

/-- C25, at the command line `upbc d`, in a world where every outside step
succeeds: the files `d.h` and `d_const.h` are opened; and at the command line
`upbc d -o aaa...a` with a base of 248 bytes, where the run ends with
`File base too long.` -/
theorem file_base_length_bound_witness :
    ((main [[117, 112, 98, 99], [100]] example_world).exit = .file_base_too_long ↔
      248 ≤ ((none : Option Bytes).getD [100]).length) ∧
    (main [[117, 112, 98, 99], [100]] example_world).opened <+:
      [[100] ++ [46, 104], [100] ++ [95, 99, 111, 110, 115, 116, 46, 104], [100] ++ [46, 99]] ∧
    (main [[117, 112, 98, 99], [100], [45, 111], long_base] example_world).exit =
      .file_base_too_long :=
  ⟨(file_base_length_bound [[117, 112, 98, 99], [100]] example_world
      { outfile_base := none, input_file := some [100], cident := none } [100]
      rfl rfl rfl rfl rfl).1,
    (file_base_length_bound [[117, 112, 98, 99], [100]] example_world
      { outfile_base := none, input_file := some [100], cident := none } [100]
      rfl rfl rfl rfl rfl).2.2.2.1 (by decide),
    (file_base_length_bound [[117, 112, 98, 99], [100], [45, 111], long_base] example_world
      { outfile_base := some long_base, input_file := some [100], cident := none } [100]
      rfl rfl rfl rfl rfl).1.2
      (by rw [Option.getD_some, long_base, List.length_replicate])⟩

/-! ## The traversal terminates -/

theorem depth_mk (a : Nat) (n : Bytes) (fields : List (upb_fielddef × Bool × upb_value)) :
    depth (.mk a n fields) = depth_fields fields + 1 := rfl

theorem depth_fields_cons (f : upb_fielddef) (isset : Bool) (p : upb_value)
    (rest : List (upb_fielddef × Bool × upb_value)) :
    depth_fields ((f, isset, p) :: rest) = max (depth_value p) (depth_fields rest) := rfl

theorem depth_elements_cons (p : upb_value) (rest : List upb_value) :
    depth_elements (p :: rest) = max (depth_value p) (depth_elements rest) := rfl

theorem depth_value_msg (m : upb_msg) : depth_value (.msg m) = depth m := rfl

theorem depth_value_arr (a : Nat) (es : List upb_value) :
    depth_value (.arr (.mk a es)) = depth_elements es := rfl

theorem add_strings_from_msg_bounded_succ (n : Nat) (a : Nat) (nm : Bytes)
    (fields : List (upb_fielddef × Bool × upb_value)) (t : List strtable_entry) :
    add_strings_from_msg_bounded (n + 1) (.mk a nm fields) t =
      strings_fields_with (add_strings_from_msg_bounded n) fields t := rfl

theorem add_submsgs_bounded_succ (ctype : Nat → Bytes) (n : Nat) (a : Nat) (nm : Bytes)
    (fields : List (upb_fielddef × Bool × upb_value)) (t : List typetable_entry) :
    add_submsgs_bounded ctype (n + 1) (.mk a nm fields) t =
      submsgs_fields_with ctype (add_submsgs_bounded ctype n) fields t := rfl

mutual
/-- With a bound of at least the depth of the message, the bounded
`add_strings_from_msg` has the answer of the function. -/
theorem strings_bounded_msg :
    ∀ (m : upb_msg) (n : Nat) (t : List strtable_entry), depth m ≤ n →
      add_strings_from_msg_bounded n m t = some (add_strings_from_msg m t)
  | .mk a nm fields, n, t, h => by
    rw [depth_mk] at h
    obtain ⟨k, rfl⟩ : ∃ k, n = k + 1 := ⟨n - 1, by omega⟩
    rw [add_strings_from_msg_bounded_succ, add_strings_from_msg_mk]
    exact strings_bounded_fields fields k t (by omega)
/-- The loop over the fields, likewise. -/
theorem strings_bounded_fields :
    ∀ (fs : List (upb_fielddef × Bool × upb_value)) (n : Nat) (t : List strtable_entry),
      depth_fields fs ≤ n →
        strings_fields_with (add_strings_from_msg_bounded n) fs t =
          some (add_strings_from_fields fs t)
  | [], _, _, _ => rfl
  | (f, isset, .scalar r) :: rest, n, t, h => by
    rw [depth_fields_cons] at h
    have hr := fun t1 => strings_bounded_fields rest n t1 (by omega)
    rw [add_strings_from_fields_cons, add_strings_from_value_eq]
    simp only [strings_fields_with, strings_value_with]
    cases isset <;> by_cases h1 : upb_isarray f = true <;>
      by_cases h2 : upb_isstringtype f.type = true <;>
      by_cases h3 : upb_issubmsg f = true <;> simp [h1, h2, h3, hr]
  | (f, isset, .str s) :: rest, n, t, h => by
    rw [depth_fields_cons] at h
    have hr := fun t1 => strings_bounded_fields rest n t1 (by omega)
    rw [add_strings_from_fields_cons, add_strings_from_value_eq]
    simp only [strings_fields_with, strings_value_with, intern]
    cases isset <;> by_cases h1 : upb_isarray f = true <;>
      by_cases h2 : upb_isstringtype f.type = true <;>
      by_cases h3 : upb_issubmsg f = true <;>
      by_cases h4 : upb_strtable_lookup t s = none <;> simp [h1, h2, h3, h4, hr]
  | (f, isset, .msg m) :: rest, n, t, h => by
    rw [depth_fields_cons, depth_value_msg] at h
    have hr := fun t1 => strings_bounded_fields rest n t1 (by omega)
    have hm := strings_bounded_msg m n t (by omega)
    rw [add_strings_from_fields_cons, add_strings_from_value_eq]
    simp only [strings_fields_with, strings_value_with]
    cases isset <;> by_cases h1 : upb_isarray f = true <;>
      by_cases h2 : upb_isstringtype f.type = true <;>
      by_cases h3 : upb_issubmsg f = true <;> simp [h1, h2, h3, hr, hm]
    all_goals cases add_strings_from_msg m t <;> simp [hr]
  | (f, isset, .arr (.mk a es)) :: rest, n, t, h => by
    rw [depth_fields_cons, depth_value_arr] at h
    have hr := fun t1 => strings_bounded_fields rest n t1 (by omega)
    have he := strings_bounded_elements es n f t (by omega)
    rw [add_strings_from_fields_cons, add_strings_from_value_eq]
    simp only [strings_fields_with, strings_value_with, upb_array.elements]
    cases isset <;> by_cases h1 : upb_isarray f = true <;>
      by_cases h2 : upb_isstringtype f.type = true <;>
      by_cases h3 : upb_issubmsg f = true <;> simp [h1, h2, h3, hr, he]
    all_goals cases add_strings_from_elements es f t <;> simp [hr]
/-- The loop over the elements of an array, likewise. -/
theorem strings_bounded_elements :
    ∀ (es : List upb_value) (n : Nat) (f : upb_fielddef) (t : List strtable_entry),
      depth_elements es ≤ n →
        strings_elements_with (add_strings_from_msg_bounded n) es f t =
          some (add_strings_from_elements es f t)
  | [], _, _, _, _ => rfl
  | .scalar r :: rest, n, f, t, h => by
    rw [depth_elements_cons] at h
    have hr := fun t1 => strings_bounded_elements rest n f t1 (by omega)
    rw [add_strings_from_elements_cons, add_strings_from_value_eq]
    simp only [strings_elements_with, strings_value_with]
    by_cases h2 : upb_isstringtype f.type = true <;>
      by_cases h3 : upb_issubmsg f = true <;> simp [h2, h3, hr]
  | .str s :: rest, n, f, t, h => by
    rw [depth_elements_cons] at h
    have hr := fun t1 => strings_bounded_elements rest n f t1 (by omega)
    rw [add_strings_from_elements_cons, add_strings_from_value_eq]
    simp only [strings_elements_with, strings_value_with, intern]
    by_cases h2 : upb_isstringtype f.type = true <;>
      by_cases h3 : upb_issubmsg f = true <;>
      by_cases h4 : upb_strtable_lookup t s = none <;> simp [h2, h3, h4, hr]
  | .msg m :: rest, n, f, t, h => by
    rw [depth_elements_cons, depth_value_msg] at h
    have hr := fun t1 => strings_bounded_elements rest n f t1 (by omega)
    have hm := strings_bounded_msg m n t (by omega)
    rw [add_strings_from_elements_cons, add_strings_from_value_eq]
    simp only [strings_elements_with, strings_value_with]
    by_cases h2 : upb_isstringtype f.type = true <;>
      by_cases h3 : upb_issubmsg f = true <;> simp [h2, h3, hr, hm]
    all_goals cases add_strings_from_msg m t <;> simp [hr]
  | .arr a :: rest, n, f, t, h => by
    rw [depth_elements_cons] at h
    have hr := fun t1 => strings_bounded_elements rest n f t1 (by omega)
    rw [add_strings_from_elements_cons, add_strings_from_value_eq]
    simp only [strings_elements_with, strings_value_with]
    by_cases h2 : upb_isstringtype f.type = true <;>
      by_cases h3 : upb_issubmsg f = true <;> simp [h2, h3, hr]
end

mutual
/-- With a bound of at least the depth of the message, the bounded
`add_submsgs` has the answer of the function. -/
theorem submsgs_bounded_msg (ctype : Nat → Bytes) :
    ∀ (m : upb_msg) (n : Nat) (t : List typetable_entry), depth m ≤ n →
      add_submsgs_bounded ctype n m t = some (add_submsgs ctype m t)
  | .mk a nm fields, n, t, h => by
    rw [depth_mk] at h
    obtain ⟨k, rfl⟩ : ∃ k, n = k + 1 := ⟨n - 1, by omega⟩
    rw [add_submsgs_bounded_succ, add_submsgs_mk]
    exact submsgs_bounded_fields ctype fields k t (by omega)
/-- The loop over the fields, likewise. -/
theorem submsgs_bounded_fields (ctype : Nat → Bytes) :
    ∀ (fs : List (upb_fielddef × Bool × upb_value)) (n : Nat) (t : List typetable_entry),
      depth_fields fs ≤ n →
        submsgs_fields_with ctype (add_submsgs_bounded ctype n) fs t =
          some (add_submsgs_fields ctype fs t)
  | [], _, _, _ => rfl
  | (f, isset, .scalar r) :: rest, n, t, h => by
    rw [depth_fields_cons] at h
    have hr := fun t1 => submsgs_bounded_fields ctype rest n t1 (by omega)
    rw [add_submsgs_fields_cons]
    simp only [submsgs_fields_with]
    cases isset <;> by_cases h1 : upb_isarray f = true <;>
      by_cases h2 : upb_isstring f = true <;>
      by_cases h3 : upb_issubmsg f = true <;> simp [h1, h2, h3, hr]
  | (f, isset, .str s) :: rest, n, t, h => by
    rw [depth_fields_cons] at h
    have hr := fun t1 => submsgs_bounded_fields ctype rest n t1 (by omega)
    rw [add_submsgs_fields_cons]
    simp only [submsgs_fields_with]
    cases isset <;> by_cases h1 : upb_isarray f = true <;>
      by_cases h2 : upb_isstring f = true <;>
      by_cases h3 : upb_issubmsg f = true <;> simp [h1, h2, h3, hr]
  | (f, isset, .msg m) :: rest, n, t, h => by
    rw [depth_fields_cons, depth_value_msg] at h
    have hr := fun t1 => submsgs_bounded_fields ctype rest n t1 (by omega)
    have hm := fun t1 => submsgs_bounded_msg ctype m n t1 (by omega)
    rw [add_submsgs_fields_cons]
    simp only [submsgs_fields_with]
    cases isset <;> by_cases h1 : upb_isarray f = true <;>
      by_cases h2 : upb_isstring f = true <;>
      by_cases h3 : upb_issubmsg f = true <;> simp [h1, h2, h3, hr, hm]
    all_goals cases add_submsgs ctype m (add_value ctype (.msg m) f t) <;> simp [hr]
  | (f, isset, .arr (.mk a es)) :: rest, n, t, h => by
    rw [depth_fields_cons, depth_value_arr] at h
    have hr := fun t1 => submsgs_bounded_fields ctype rest n t1 (by omega)
    have he := fun t1 => submsgs_bounded_elements ctype es n t1 (by omega)
    rw [add_submsgs_fields_cons]
    simp only [submsgs_fields_with, upb_array.elements]
    cases isset <;> by_cases h1 : upb_isarray f = true <;>
      by_cases h2 : upb_isstring f = true <;>
      by_cases h3 : upb_issubmsg f = true <;> simp [h1, h2, h3, hr, he]
    all_goals
      cases add_submsgs_elements ctype es
        (add_values ctype es f (add_array ctype (.mk a es) f t)) <;> simp [hr]
/-- The second loop of the array branch, likewise. -/
theorem submsgs_bounded_elements (ctype : Nat → Bytes) :
    ∀ (es : List upb_value) (n : Nat) (t : List typetable_entry),
      depth_elements es ≤ n →
        submsgs_elements_with (add_submsgs_bounded ctype n) es t =
          some (add_submsgs_elements ctype es t)
  | [], _, _, _ => rfl
  | .scalar r :: rest, n, t, h => by
    rw [add_submsgs_elements_cons]
    simp [submsgs_elements_with]
  | .str s :: rest, n, t, h => by
    rw [add_submsgs_elements_cons]
    simp [submsgs_elements_with]
  | .arr a :: rest, n, t, h => by
    rw [add_submsgs_elements_cons]
    simp [submsgs_elements_with]
  | .msg m :: rest, n, t, h => by
    rw [depth_elements_cons, depth_value_msg] at h
    have hr := fun t1 => submsgs_bounded_elements ctype rest n t1 (by omega)
    have hm := submsgs_bounded_msg ctype m n t (by omega)
    rw [add_submsgs_elements_cons]
    simp only [submsgs_elements_with, hm]
    cases add_submsgs ctype m t <;> simp [hr]
end

/-- C22 (termination on recursive types). For every instance (a finite tree)
and every table, `add_strings_from_msg` and `add_submsgs` terminate: run with a
bound on the nesting of their calls equal to the depth of the instance, both
have an answer, the one of the function; a larger bound changes nothing. The
bound is the depth of the instance and does not depend on the types, so a type
that contains itself makes no difference. -/
theorem traversal_terminates (ctype : Nat → Bytes) (msg : upb_msg) (n : Nat)
    (strings : List strtable_entry) (types : List typetable_entry) (h : depth msg ≤ n) :
    add_strings_from_msg_bounded n msg strings = some (add_strings_from_msg msg strings) ∧
    add_submsgs_bounded ctype n msg types = some (add_submsgs ctype msg types) :=
  ⟨strings_bounded_msg msg n strings h, submsgs_bounded_msg ctype msg n types h⟩

/-- C22, at the scenario `Person`, whose type contains itself as a repeated
field, with the bound 2, the depth of the instance: both walks return. -/
theorem traversal_terminates_witness :
    person_friends.def_fqname = person_root.fqname ∧ depth person_root = 2 ∧
    add_strings_from_msg_bounded 2 person_root [] =
      some (some [{ key := alice, offset := 0, num := 0 }, { key := bob, offset := 0, num := 0 }]) ∧
    (add_submsgs_bounded c_types 2 person_root
      (add_value c_types (.msg person_root) (fake_field person_root) [])) =
        some (some person_types) :=
  ⟨rfl, by decide,
    ((traversal_terminates c_types person_root 2 [] [] (by decide)).1).trans
      (congrArg some person_root_strings),
    ((traversal_terminates c_types person_root 2 []
      (add_value c_types (.msg person_root) (fake_field person_root) []) (by decide)).2).trans
      (congrArg some person_gather_types)⟩

/-! ## Fields that are not present contribute nothing -/

theorem present_part_mk (a : Nat) (n : Bytes) (fields : List (upb_fielddef × Bool × upb_value)) :
    present_part (.mk a n fields) = .mk a n (present_part_fields fields) := rfl

theorem present_part_fields_cons (f : upb_fielddef) (isset : Bool) (p : upb_value)
    (rest : List (upb_fielddef × Bool × upb_value)) :
    present_part_fields ((f, isset, p) :: rest) =
      (f, isset, if isset then present_part_value p else .scalar 0) ::
        present_part_fields rest := rfl

theorem present_part_elements_cons (p : upb_value) (rest : List upb_value) :
    present_part_elements (p :: rest) = present_part_value p :: present_part_elements rest :=
  rfl

theorem present_part_value_msg (m : upb_msg) :
    present_part_value (.msg m) = .msg (present_part m) := rfl

theorem present_part_value_arr (a : Nat) (es : List upb_value) :
    present_part_value (.arr (.mk a es)) = .arr (.mk a (present_part_elements es)) := rfl

theorem present_part_fqname (m : upb_msg) : (present_part m).fqname = m.fqname := by
  cases m; rfl

theorem present_part_elements_length :
    ∀ (es : List upb_value), (present_part_elements es).length = es.length
  | [] => rfl
  | p :: rest => by
    rw [present_part_elements_cons, List.length_cons, List.length_cons,
      present_part_elements_length rest]

theorem present_part_elements_map :
    ∀ (es : List upb_value), present_part_elements es = es.map present_part_value
  | [] => rfl
  | p :: rest => by
    rw [present_part_elements_cons, List.map_cons, present_part_elements_map rest]

mutual
/-- The walk over the strings does not read the slot of a field that is not
present. -/
theorem add_strings_present_part :
    ∀ (m : upb_msg) (t : List strtable_entry),
      add_strings_from_msg (present_part m) t = add_strings_from_msg m t
  | .mk a nm fields, t => by
    rw [present_part_mk, add_strings_from_msg_mk, add_strings_from_msg_mk]
    exact add_strings_present_part_fields fields t
/-- The loop over the fields, likewise. -/
theorem add_strings_present_part_fields :
    ∀ (fs : List (upb_fielddef × Bool × upb_value)) (t : List strtable_entry),
      add_strings_from_fields (present_part_fields fs) t = add_strings_from_fields fs t
  | [], _ => rfl
  | (f, isset, .scalar r) :: rest, t => by
    have hr := fun t1 => add_strings_present_part_fields rest t1
    rw [present_part_fields_cons, add_strings_from_fields_cons, add_strings_from_fields_cons]
    cases isset <;> simp [hr, present_part_value, add_strings_from_value_eq]
  | (f, isset, .str s) :: rest, t => by
    have hr := fun t1 => add_strings_present_part_fields rest t1
    rw [present_part_fields_cons, add_strings_from_fields_cons, add_strings_from_fields_cons]
    cases isset <;> simp [hr, present_part_value, add_strings_from_value_eq]
  | (f, isset, .msg m) :: rest, t => by
    have hr := fun t1 => add_strings_present_part_fields rest t1
    have hm := add_strings_present_part m t
    rw [present_part_fields_cons, add_strings_from_fields_cons, add_strings_from_fields_cons]
    cases isset <;>
      simp [hr, present_part_value_msg, add_strings_from_value_eq, hm]
  | (f, isset, .arr (.mk a es)) :: rest, t => by
    have hr := fun t1 => add_strings_present_part_fields rest t1
    have he := add_strings_present_part_elements es f t
    rw [present_part_fields_cons, add_strings_from_fields_cons, add_strings_from_fields_cons]
    cases isset <;>
      simp [hr, present_part_value_arr, add_strings_from_value_eq, upb_array.elements, he]
/-- The loop over the elements of an array, likewise. -/
theorem add_strings_present_part_elements :
    ∀ (es : List upb_value) (f : upb_fielddef) (t : List strtable_entry),
      add_strings_from_elements (present_part_elements es) f t =
        add_strings_from_elements es f t
  | [], _, _ => rfl
  | .scalar r :: rest, f, t => by
    have hr := fun t1 => add_strings_present_part_elements rest f t1
    rw [present_part_elements_cons, add_strings_from_elements_cons,
      add_strings_from_elements_cons]
    simp [hr, present_part_value]
  | .str s :: rest, f, t => by
    have hr := fun t1 => add_strings_present_part_elements rest f t1
    rw [present_part_elements_cons, add_strings_from_elements_cons,
      add_strings_from_elements_cons]
    simp [hr, present_part_value]
  | .msg m :: rest, f, t => by
    have hr := fun t1 => add_strings_present_part_elements rest f t1
    have hm := add_strings_present_part m t
    rw [present_part_elements_cons, add_strings_from_elements_cons,
      add_strings_from_elements_cons, present_part_value_msg]
    simp [hr, add_strings_from_value_eq, hm]
  | .arr a :: rest, f, t => by
    have hr := fun t1 => add_strings_present_part_elements rest f t1
    rw [present_part_elements_cons, add_strings_from_elements_cons,
      add_strings_from_elements_cons]
    cases a
    simp [hr, present_part_value_arr, add_strings_from_value_eq]
end

theorem present_part_entry_key (e : typetable_entry) : (present_part_entry e).key = e.key := rfl

theorem types_lookup_present_part :
    ∀ (t : List typetable_entry) (k : Bytes),
      types_lookup (present_part_table t) k = (types_lookup t k).map present_part_entry
  | [], _ => rfl
  | x :: rest, k => by
    show types_lookup (present_part_entry x :: present_part_table rest) k = _
    rw [types_lookup_cons, types_lookup_cons, present_part_entry_key]
    by_cases h : x.key = k
    · simp [h]
    · simp only [h, if_false]
      exact types_lookup_present_part rest k

theorem types_store_present_part :
    ∀ (t : List typetable_entry) (e : typetable_entry),
      types_store (present_part_table t) (present_part_entry e) =
        present_part_table (types_store t e)
  | [], _ => rfl
  | x :: rest, e => by
    show types_store (present_part_entry x :: present_part_table rest) (present_part_entry e) = _
    unfold types_store
    rw [present_part_entry_key, present_part_entry_key]
    by_cases h : x.key = e.key
    · simp only [h, if_true]; rfl
    · simp only [h, if_false]
      rw [types_store_present_part rest e]; rfl

theorem get_or_insert_present_part (ctype : Nat → Bytes) (t : List typetable_entry)
    (f : upb_fielddef) :
    get_or_insert_typeentry ctype (present_part_table t) f =
      (present_part_table (get_or_insert_typeentry ctype t f).1,
        present_part_entry (get_or_insert_typeentry ctype t f).2) := by
  cases h : types_lookup t (type_name ctype f) with
  | some e =>
    rw [get_or_insert_found ctype t f e h]
    exact get_or_insert_found ctype _ f _ (by rw [types_lookup_present_part, h]; rfl)
  | none =>
    have h1 : types_lookup (present_part_table t) (type_name ctype f) = none := by
      rw [types_lookup_present_part, h]; rfl
    have e1 := get_or_insert_new_table ctype t f h
    have e2 := get_or_insert_new ctype t f h
    have e3 := get_or_insert_new_table ctype (present_part_table t) f h1
    have e4 := get_or_insert_new ctype (present_part_table t) f h1
    rw [Prod.ext_iff]
    refine ⟨?_, ?_⟩
    · rw [e3, e1]
      simp [present_part_table, present_part_entry]
    · rw [e4, e2]
      simp [present_part_entry]

theorem push_value_present_part (e : typetable_entry) (v : upb_value) :
    push_value (grow_values (present_part_entry e)) (present_part_value v) =
      present_part_entry (push_value (grow_values e) v) := by
  unfold push_value grow_values
  simp only [typetable_entry.values_len, present_part_entry, List.length_map]
  split <;> simp

theorem push_array_present_part (e : typetable_entry) (addr : Nat) (es : List upb_value) :
    push_array (grow_arrays (present_part_entry e)) (.mk addr (present_part_elements es)) =
      present_part_entry (push_array (grow_arrays e) (.mk addr es)) := by
  unfold push_array grow_arrays
  simp only [typetable_entry.arrays_len, typetable_entry.values_len, present_part_entry,
    List.length_map, upb_array.len, upb_array.elements, present_part_elements_length]
  split <;> simp [present_part_array]

theorem add_value_present_part (ctype : Nat → Bytes) (p : upb_value) (f : upb_fielddef)
    (t : List typetable_entry) :
    add_value ctype (present_part_value p) f (present_part_table t) =
      present_part_table (add_value ctype p f t) := by
  unfold add_value
  simp only [get_or_insert_present_part, upb_value_read]
  rw [push_value_present_part, types_store_present_part]

theorem add_array_present_part (ctype : Nat → Bytes) (addr : Nat) (es : List upb_value)
    (f : upb_fielddef) (t : List typetable_entry) :
    add_array ctype (.mk addr (present_part_elements es)) f (present_part_table t) =
      present_part_table (add_array ctype (.mk addr es) f t) := by
  unfold add_array
  simp only [get_or_insert_present_part]
  rw [push_array_present_part, types_store_present_part]

theorem add_values_present_part (ctype : Nat → Bytes) (f : upb_fielddef) :
    ∀ (es : List upb_value) (t : List typetable_entry),
      add_values ctype (present_part_elements es) f (present_part_table t) =
        present_part_table (add_values ctype es f t)
  | [], _ => rfl
  | p :: rest, t => by
    rw [present_part_elements_cons]
    unfold add_values
    rw [add_value_present_part, add_values_present_part ctype f rest]

mutual
/-- The traversal does not read the slot of a field that is not present: on
the blanked instance and table it builds the blanked table. -/
theorem add_submsgs_present_part (ctype : Nat → Bytes) :
    ∀ (m : upb_msg) (t : List typetable_entry),
      add_submsgs ctype (present_part m) (present_part_table t) =
        (add_submsgs ctype m t).map present_part_table
  | .mk a nm fields, t => by
    rw [present_part_mk, add_submsgs_mk, add_submsgs_mk]
    exact add_submsgs_present_part_fields ctype fields t
/-- The loop over the fields, likewise. -/
theorem add_submsgs_present_part_fields (ctype : Nat → Bytes) :
    ∀ (fs : List (upb_fielddef × Bool × upb_value)) (t : List typetable_entry),
      add_submsgs_fields ctype (present_part_fields fs) (present_part_table t) =
        (add_submsgs_fields ctype fs t).map present_part_table
  | [], _ => rfl
  | (f, isset, .scalar r) :: rest, t => by
    have hr := fun t1 => add_submsgs_present_part_fields ctype rest t1
    rw [present_part_fields_cons, add_submsgs_fields_cons, add_submsgs_fields_cons]
    cases isset <;> by_cases h1 : upb_isarray f = true <;>
      by_cases h2 : upb_isstring f = true <;>
      by_cases h3 : upb_issubmsg f = true <;> simp [h1, h2, h3, hr, present_part_value]
  | (f, isset, .str s) :: rest, t => by
    have hr := fun t1 => add_submsgs_present_part_fields ctype rest t1
    rw [present_part_fields_cons, add_submsgs_fields_cons, add_submsgs_fields_cons]
    cases isset <;> by_cases h1 : upb_isarray f = true <;>
      by_cases h2 : upb_isstring f = true <;>
      by_cases h3 : upb_issubmsg f = true <;> simp [h1, h2, h3, hr, present_part_value]
  | (f, isset, .msg m) :: rest, t => by
    have hr := fun t1 => add_submsgs_present_part_fields ctype rest t1
    have hm := add_submsgs_present_part ctype m (add_value ctype (.msg m) f t)
    have hv := add_value_present_part ctype (.msg m) f t
    rw [present_part_value_msg] at hv
    rw [present_part_fields_cons, add_submsgs_fields_cons, add_submsgs_fields_cons]
    cases isset <;> by_cases h1 : upb_isarray f = true <;>
      by_cases h2 : upb_isstring f = true <;>
      by_cases h3 : upb_issubmsg f = true <;>
      simp [h1, h2, h3, hr, present_part_value_msg, hv, hm]
    all_goals cases add_submsgs ctype m (add_value ctype (.msg m) f t) <;> simp [hr]
  | (f, isset, .arr (.mk a es)) :: rest, t => by
    have hr := fun t1 => add_submsgs_present_part_fields ctype rest t1
    have he := add_submsgs_present_part_elements ctype es
      (add_values ctype es f (add_array ctype (.mk a es) f t))
    have hv := add_values_present_part ctype f es (add_array ctype (.mk a es) f t)
    rw [← add_array_present_part] at hv
    rw [present_part_fields_cons, add_submsgs_fields_cons, add_submsgs_fields_cons]
    cases isset <;> by_cases h1 : upb_isarray f = true <;>
      by_cases h2 : upb_isstring f = true <;>
      by_cases h3 : upb_issubmsg f = true <;>
      simp [h1, h2, h3, hr, present_part_value_arr, upb_array.elements, hv, he]
    all_goals
      cases add_submsgs_elements ctype es
        (add_values ctype es f (add_array ctype (.mk a es) f t)) <;> simp [hr]
/-- The second loop of the array branch, likewise. -/
theorem add_submsgs_present_part_elements (ctype : Nat → Bytes) :
    ∀ (es : List upb_value) (t : List typetable_entry),
      add_submsgs_elements ctype (present_part_elements es) (present_part_table t) =
        (add_submsgs_elements ctype es t).map present_part_table
  | [], _ => rfl
  | .scalar r :: rest, t => by
    rw [present_part_elements_cons, add_submsgs_elements_cons, add_submsgs_elements_cons]
    simp [present_part_value]
  | .str s :: rest, t => by
    rw [present_part_elements_cons, add_submsgs_elements_cons, add_submsgs_elements_cons]
    simp [present_part_value]
  | .arr a :: rest, t => by
    rw [present_part_elements_cons, add_submsgs_elements_cons, add_submsgs_elements_cons]
    cases a
    simp [present_part_value_arr]
  | .msg m :: rest, t => by
    have hr := fun t1 => add_submsgs_present_part_elements ctype rest t1
    have hm := add_submsgs_present_part ctype m t
    rw [present_part_elements_cons, add_submsgs_elements_cons, add_submsgs_elements_cons,
      present_part_value_msg]
    simp only [hm]
    cases add_submsgs ctype m t <;> simp [hr]
end

theorem gather_types_present_part (ctype : Nat → Bytes) (msg : upb_msg) :
    gather_types ctype (present_part msg) = (gather_types ctype msg).map present_part_table := by
  unfold gather_types
  have hf : fake_field (present_part msg) = fake_field msg := by
    unfold fake_field; rw [present_part_fqname]
  have hv := add_value_present_part ctype (.msg msg) (fake_field msg) []
  rw [present_part_value_msg] at hv
  rw [hf, ← add_submsgs_present_part, ← hv]
  rfl

theorem add_strings_none_present :
    ∀ (fs : List (upb_fielddef × Bool × upb_value)) (t : List strtable_entry),
      (∀ fd ∈ fs, fd.2.1 = false) → add_strings_from_fields fs t = some t
  | [], _, _ => rfl
  | (f, isset, p) :: rest, t, h => by
    have h1 : isset = false := h (f, isset, p) (List.mem_cons_self _ _)
    subst h1
    rw [add_strings_from_fields_cons]
    simp only [Bool.not_false, if_true]
    exact add_strings_none_present rest t (fun fd hfd => h fd (List.mem_cons_of_mem _ hfd))

theorem add_submsgs_none_present (ctype : Nat → Bytes) :
    ∀ (fs : List (upb_fielddef × Bool × upb_value)) (t : List typetable_entry),
      (∀ fd ∈ fs, fd.2.1 = false) → add_submsgs_fields ctype fs t = some t
  | [], _, _ => rfl
  | (f, isset, p) :: rest, t, h => by
    have h1 : isset = false := h (f, isset, p) (List.mem_cons_self _ _)
    subst h1
    rw [add_submsgs_fields_cons]
    simp only [Bool.not_false, if_true]
    exact add_submsgs_none_present ctype rest t
      (fun fd hfd => h fd (List.mem_cons_of_mem _ hfd))

/-- C21 (absent fields contribute nothing). When two instances agree on which
fields are present and on what the present fields hold (they are the same once
the slots of the fields that are not present are blanked), the walk over the
strings gives the same table for both, hence the same pool, and the traversal
of the types gives for both the same table of entries, values and array records
(the values being the messages of the one and of the other instance, which
differ in those slots only). And a visit of a message none of whose fields is
present leaves the string table and the type table as they are. -/
theorem absent_fields_contribute_nothing (ctype : Nat → Bytes) (m1 m2 : upb_msg)
    (h : present_part m1 = present_part m2) :
    add_strings_from_msg m1 [] = add_strings_from_msg m2 [] ∧
    (add_strings_from_msg m1 []).map str_entries =
      (add_strings_from_msg m2 []).map str_entries ∧
    (gather_types ctype m1).map present_part_table =
      (gather_types ctype m2).map present_part_table ∧
    (∀ (a : Nat) (n : Bytes) (fs : List (upb_fielddef × Bool × upb_value)),
      (∀ fd ∈ fs, fd.2.1 = false) →
        ∀ (strings : List strtable_entry) (types : List typetable_entry),
          add_strings_from_msg (.mk a n fs) strings = some strings ∧
          add_submsgs ctype (.mk a n fs) types = some types) := by
  have hs : add_strings_from_msg m1 [] = add_strings_from_msg m2 [] := by
    rw [← add_strings_present_part m1, ← add_strings_present_part m2, h]
  refine ⟨hs, by rw [hs], ?_, ?_⟩
  · rw [← gather_types_present_part, ← gather_types_present_part, h]
  · intro a n fs hfs strings types
    rw [add_strings_from_msg_mk, add_submsgs_mk]
    exact ⟨add_strings_none_present fs strings hfs, add_submsgs_none_present ctype fs types hfs⟩

/-- C21, at the scenario `Person` and the instance that differs from it in the
slots of the fields that are not present. -/
theorem absent_fields_contribute_nothing_witness :
    add_strings_from_msg person_root [] = add_strings_from_msg person_root_other [] ∧
    (gather_types c_types person_root).map present_part_table =
      (gather_types c_types person_root_other).map present_part_table :=
  ⟨(absent_fields_contribute_nothing c_types person_root person_root_other rfl).1,
    (absent_fields_contribute_nothing c_types person_root person_root_other rfl).2.2.1⟩

/-! ## Every message is registered exactly once -/

theorem instances_of_append (k : Bytes) (l1 l2 : List upb_value) :
    instances_of k (l1 ++ l2) = instances_of k l1 ++ instances_of k l2 :=
  List.filter_append _ _

theorem instances_of_arr (k : Bytes) (a : upb_array) (l : List upb_value) :
    instances_of k (.arr a :: l) = instances_of k l := by
  simp [instances_of, List.filter_cons, has_fqname]

theorem instances_of_msg (k : Bytes) (m : upb_msg) (l : List upb_value) :
    instances_of k (.msg m :: l) =
      (if m.fqname = k then [.msg m] else []) ++ instances_of k l := by
  by_cases h : m.fqname = k <;> simp [instances_of, List.filter_cons, has_fqname, h]

theorem walked_fields_skip (f : upb_fielddef) (isset : Bool) (p : upb_value)
    (rest : List (upb_fielddef × Bool × upb_value))
    (h : isset = false ∨ (upb_isarray f = true ∧ upb_isstring f = true) ∨
      (upb_isarray f = false ∧ upb_issubmsg f = false)) :
    walked_fields ((f, isset, p) :: rest) = walked_fields rest := by
  rw [walked_fields_cons]
  rcases h with h | ⟨h1, h2⟩ | ⟨h1, h2⟩
  · simp [h]
  · cases isset <;> simp [h1, h2]
  · cases isset <;> simp [h1, h2]

theorem add_submsgs_elements_msgs (ctype : Nat → Bytes) :
    ∀ (es : List upb_value) (t t1 : List typetable_entry),
      add_submsgs_elements ctype es t = some t1 → ∀ e ∈ es, ∃ m, e = upb_value.msg m
  | [], _, _, _, e, he => by simp at he
  | p :: rest, t, t1, h, e, he => by
    obtain ⟨m, t2, hp, _, h2⟩ := add_submsgs_elements_cons_some ctype t t1 p rest h
    rcases List.mem_cons.1 he with h1 | h1
    · exact ⟨m, h1.trans hp⟩
    · exact add_submsgs_elements_msgs ctype rest t2 t1 h2 e h1

theorem instances_of_elements (ctype : Nat → Bytes) (f : upb_fielddef) (k : Bytes) :
    ∀ (es : List upb_value), conforms_elements f es = true →
      (∀ e ∈ es, ∃ m, e = upb_value.msg m) →
        instances_of k es = if k = type_name ctype f then es else []
  | [], _, _ => by simp [instances_of]
  | p :: rest, hc, hm => by
    obtain ⟨m, rfl⟩ := hm p (List.mem_cons_self _ _)
    rw [conforms_elements_cons, Bool.and_eq_true, conforms_value_msg] at hc
    simp only [Bool.and_eq_true, Bool.not_eq_true', decide_eq_true_eq] at hc
    obtain ⟨⟨⟨⟨_, hsub⟩, hfq⟩, _⟩, hrest⟩ := hc
    have ih := instances_of_elements ctype f k rest hrest
      (fun e he => hm e (List.mem_cons_of_mem _ he))
    have hkey : type_name ctype f = m.fqname := by simp [type_name, hsub, hfq]
    rw [instances_of_msg, ih, hkey]
    by_cases hk : k = m.fqname
    · simp [hk]
    · have hk2 : ¬ m.fqname = k := fun h => hk h.symm
      simp [hk, hk2]

mutual
/-- On a conforming message a returning `add_submsgs` appends to the values of
every key the messages of that type it meets, in the order in which it meets
them. -/
theorem add_submsgs_values (ctype : Nat → Bytes) :
    ∀ (m : upb_msg) (t t1 : List typetable_entry), conforms m = true →
      add_submsgs ctype m t = some t1 →
        ∀ k, values_of t1 k = values_of t k ++ instances_of k (walked m)
  | .mk a nm fields, t, t1, hc, h => by
    rw [conforms_mk] at hc
    rw [add_submsgs_mk] at h
    rw [walked_mk]
    exact add_submsgs_fields_values ctype fields t t1 hc h
/-- The loop over the fields, likewise. -/
theorem add_submsgs_fields_values (ctype : Nat → Bytes) :
    ∀ (fs : List (upb_fielddef × Bool × upb_value)) (t t1 : List typetable_entry),
      conforms_fields fs = true → add_submsgs_fields ctype fs t = some t1 →
        ∀ k, values_of t1 k = values_of t k ++ instances_of k (walked_fields fs)
  | [], t, t1, _, h => by
    rw [add_submsgs_fields_nil, Option.some.injEq] at h
    subst h
    intro k
    simp [walked_fields_nil, instances_of]
  | (f, isset, .scalar r) :: rest, t, t1, hc, h => by
    rw [conforms_fields_cons, Bool.and_eq_true] at hc
    rcases add_submsgs_fields_cons_some ctype t t1 f isset _ rest h with
      ⟨hskip, h1⟩ | ⟨_, _, _, a, _, hp, _⟩ | ⟨_, _, _, m, _, hp, _⟩
    · rw [walked_fields_skip f isset _ rest hskip]
      exact add_submsgs_fields_values ctype rest t t1 hc.2 h1
    · cases hp
    · cases hp
  | (f, isset, .str s) :: rest, t, t1, hc, h => by
    rw [conforms_fields_cons, Bool.and_eq_true] at hc
    rcases add_submsgs_fields_cons_some ctype t t1 f isset _ rest h with
      ⟨hskip, h1⟩ | ⟨_, _, _, a, _, hp, _⟩ | ⟨_, _, _, m, _, hp, _⟩
    · rw [walked_fields_skip f isset _ rest hskip]
      exact add_submsgs_fields_values ctype rest t t1 hc.2 h1
    · cases hp
    · cases hp
  | (f, isset, .msg m) :: rest, t, t1, hc, h => by
    rw [conforms_fields_cons, Bool.and_eq_true] at hc
    rcases add_submsgs_fields_cons_some ctype t t1 f isset _ rest h with
      ⟨hskip, h1⟩ | ⟨_, _, _, a, _, hp, _⟩ | ⟨hset, harr, hsub, m1, t2, hp, h2, h3⟩
    · rw [walked_fields_skip f isset _ rest hskip]
      exact add_submsgs_fields_values ctype rest t t1 hc.2 h1
    · cases hp
    · cases hp
      have hv := hc.1
      simp only [hset, harr, if_true, Bool.false_eq_true, if_false, conforms_value_msg,
        Bool.and_eq_true, Bool.not_eq_true', decide_eq_true_eq] at hv
      obtain ⟨⟨⟨_, _⟩, hfq⟩, hcm⟩ := hv
      have ih1 := add_submsgs_values ctype m _ t2 hcm h2
      have ih2 := add_submsgs_fields_values ctype rest t2 t1 hc.2 h3
      have hkey : type_name ctype f = m.fqname := by simp [type_name, hsub, hfq]
      intro k
      rw [ih2 k, ih1 k, values_of_add_value, walked_fields_cons]
      simp only [hset, harr, hsub, if_true, Bool.false_eq_true, if_false]
      rw [List.cons_append, instances_of_msg, instances_of_append, hkey]
      by_cases hk : k = m.fqname
      · simp [hk]
      · have hk2 : ¬ m.fqname = k := fun h => hk h.symm
        simp [hk, hk2]
  | (f, isset, .arr (.mk a es)) :: rest, t, t1, hc, h => by
    rw [conforms_fields_cons, Bool.and_eq_true] at hc
    rcases add_submsgs_fields_cons_some ctype t t1 f isset _ rest h with
      ⟨hskip, h1⟩ | ⟨hset, harr, hstr, a1, t3, hp, h2, h3⟩ | ⟨_, _, _, m, _, hp, _⟩
    · rw [walked_fields_skip f isset _ rest hskip]
      exact add_submsgs_fields_values ctype rest t t1 hc.2 h1
    · cases hp
      have hv := hc.1
      simp only [hset, harr, if_true, upb_array.elements] at hv
      simp only [upb_array.elements] at h2
      have ih1 := add_submsgs_elements_values ctype es f _ t3 hv h2
      have ih2 := add_submsgs_fields_values ctype rest t3 t1 hc.2 h3
      have hes := instances_of_elements ctype f
      have hmsgs := add_submsgs_elements_msgs ctype es _ t3 h2
      intro k
      rw [ih2 k, ih1 k, values_of_add_values, values_of_add_array, walked_fields_cons]
      simp only [hset, harr, hstr, if_true, Bool.false_eq_true, if_false, upb_array.elements]
      rw [List.cons_append, instances_of_arr, instances_of_append, instances_of_append,
        hes k es hv hmsgs]
      by_cases hk : k = type_name ctype f <;> simp [hk]
    · cases hp
/-- The second loop of the array branch, likewise. -/
theorem add_submsgs_elements_values (ctype : Nat → Bytes) :
    ∀ (es : List upb_value) (f : upb_fielddef) (t t1 : List typetable_entry),
      conforms_elements f es = true → add_submsgs_elements ctype es t = some t1 →
        ∀ k, values_of t1 k = values_of t k ++ instances_of k (walked_elements es)
  | [], _, t, t1, _, h => by
    rw [add_submsgs_elements_nil, Option.some.injEq] at h
    subst h
    intro k
    simp [walked_elements, instances_of]
  | .scalar r :: rest, _, t, t1, _, h => by
    obtain ⟨m, _, hp, _⟩ := add_submsgs_elements_cons_some ctype t t1 _ rest h
    cases hp
  | .str s :: rest, _, t, t1, _, h => by
    obtain ⟨m, _, hp, _⟩ := add_submsgs_elements_cons_some ctype t t1 _ rest h
    cases hp
  | .arr a :: rest, _, t, t1, _, h => by
    obtain ⟨m, _, hp, _⟩ := add_submsgs_elements_cons_some ctype t t1 _ rest h
    cases hp
  | .msg m :: rest, f, t, t1, hc, h => by
    obtain ⟨m1, t2, hp, h2, h3⟩ := add_submsgs_elements_cons_some ctype t t1 _ rest h
    cases hp
    rw [conforms_elements_cons, Bool.and_eq_true, conforms_value_msg] at hc
    simp only [Bool.and_eq_true, Bool.not_eq_true', decide_eq_true_eq] at hc
    have ih1 := add_submsgs_values ctype m t t2 hc.1.2 h2
    have ih2 := add_submsgs_elements_values ctype rest f t2 t1 hc.2 h3
    intro k
    rw [ih2 k, ih1 k, walked_elements_cons]
    simp only []
    rw [instances_of_append, List.append_assoc]
end

/-- After the traversal the values of every key are the messages of that type
in the instance, in the order in which the traversal meets them. -/
theorem gather_types_values (ctype : Nat → Bytes) (msg : upb_msg)
    (types : List typetable_entry) (hc : conforms msg = true)
    (h : gather_types ctype msg = some types) :
    ∀ k, values_of types k = instances_of k (tree_nodes msg) := by
  intro k
  unfold gather_types at h
  rw [add_submsgs_values ctype msg _ types hc h k, values_of_add_value, type_name_fake_field]
  unfold tree_nodes
  rw [instances_of_msg]
  by_cases hk : k = msg.fqname
  · simp [hk, values_of, types_lookup]
  · have hk2 : ¬ msg.fqname = k := fun h => hk h.symm
    simp [hk, hk2, values_of, types_lookup]

theorem walked_fields_scalar (f : upb_fielddef) (isset : Bool) (r : Int)
    (rest : List (upb_fielddef × Bool × upb_value)) :
    walked_fields ((f, isset, .scalar r) :: rest) = walked_fields rest := by
  rw [walked_fields_cons]
  cases isset <;> by_cases h1 : upb_isarray f = true <;>
    by_cases h2 : upb_isstring f = true <;>
    by_cases h3 : upb_issubmsg f = true <;> simp [h1, h2, h3]

theorem walked_fields_str (f : upb_fielddef) (isset : Bool) (s : Bytes)
    (rest : List (upb_fielddef × Bool × upb_value)) :
    walked_fields ((f, isset, .str s) :: rest) = walked_fields rest := by
  rw [walked_fields_cons]
  cases isset <;> by_cases h1 : upb_isarray f = true <;>
    by_cases h2 : upb_isstring f = true <;>
    by_cases h3 : upb_issubmsg f = true <;> simp [h1, h2, h3]

theorem walked_fields_msg (f : upb_fielddef) (isset : Bool) (m : upb_msg)
    (rest : List (upb_fielddef × Bool × upb_value)) :
    walked_fields ((f, isset, .msg m) :: rest) =
      (if isset = true ∧ upb_isarray f = false ∧ upb_issubmsg f = true then
        .msg m :: walked m else []) ++ walked_fields rest := by
  rw [walked_fields_cons]
  cases isset <;> by_cases h1 : upb_isarray f = true <;>
    by_cases h2 : upb_isstring f = true <;>
    by_cases h3 : upb_issubmsg f = true <;> simp [h1, h2, h3]

theorem walked_fields_arr (f : upb_fielddef) (isset : Bool) (a : Nat) (es : List upb_value)
    (rest : List (upb_fielddef × Bool × upb_value)) :
    walked_fields ((f, isset, .arr (.mk a es)) :: rest) =
      (if isset = true ∧ upb_isarray f = true ∧ upb_isstring f = false then
        .arr (.mk a es) :: (es ++ walked_elements es) else []) ++ walked_fields rest := by
  rw [walked_fields_cons]
  cases isset <;> by_cases h1 : upb_isarray f = true <;>
    by_cases h2 : upb_isstring f = true <;>
    by_cases h3 : upb_issubmsg f = true <;> simp [h1, h2, h3, upb_array.elements]

theorem walked_elements_msg (m : upb_msg) (rest : List upb_value) :
    walked_elements (.msg m :: rest) = walked m ++ walked_elements rest := by
  rw [walked_elements_cons]

theorem walked_elements_sub :
    ∀ (es : List upb_value) (x : upb_msg), upb_value.msg x ∈ es →
      ∀ v ∈ walked x, v ∈ walked_elements es
  | [], _, h, _, _ => by simp at h
  | p :: rest, x, h, v, hv => by
    rw [walked_elements_cons]
    rcases List.mem_cons.1 h with h1 | h1
    · subst h1
      exact List.mem_append_left _ hv
    · exact List.mem_append_right _ (walked_elements_sub rest x h1 v hv)

mutual
/-- A message the traversal meets below `m` is met before everything the
traversal meets below that message. -/
theorem walked_split :
    ∀ (m x : upb_msg), upb_value.msg x ∈ walked m →
      ∃ pre post, walked m = pre ++ upb_value.msg x :: post ∧ ∀ v ∈ walked x, v ∈ post
  | .mk a nm fields, x, h => by
    rw [walked_mk] at h ⊢
    exact walked_fields_split fields x h
/-- The same below a list of field slots. -/
theorem walked_fields_split :
    ∀ (fs : List (upb_fielddef × Bool × upb_value)) (x : upb_msg),
      upb_value.msg x ∈ walked_fields fs →
        ∃ pre post, walked_fields fs = pre ++ upb_value.msg x :: post ∧
          ∀ v ∈ walked x, v ∈ post
  | [], x, h => by simp [walked_fields_nil] at h
  | (f, isset, .scalar r) :: rest, x, h => by
    rw [walked_fields_scalar] at h ⊢
    exact walked_fields_split rest x h
  | (f, isset, .str s) :: rest, x, h => by
    rw [walked_fields_str] at h ⊢
    exact walked_fields_split rest x h
  | (f, isset, .msg m) :: rest, x, h => by
    rw [walked_fields_msg] at h ⊢
    rcases List.mem_append.1 h with h1 | h1
    · split at h1
      · rw [if_pos (by assumption)]
        rcases List.mem_cons.1 h1 with h2 | h2
        · have hx : x = m := upb_value.msg.inj h2
          subst hx
          exact ⟨[], walked x ++ walked_fields rest, rfl,
            fun v hv => List.mem_append_left _ hv⟩
        · obtain ⟨pre, post, he, hsub⟩ := walked_split m x h2
          refine ⟨.msg m :: pre, post ++ walked_fields rest, ?_,
            fun v hv => List.mem_append_left _ (hsub v hv)⟩
          rw [he]; simp
      · simp at h1
    · obtain ⟨pre, post, he, hsub⟩ := walked_fields_split rest x h1
      refine ⟨(if isset = true ∧ upb_isarray f = false ∧ upb_issubmsg f = true then
        .msg m :: walked m else []) ++ pre, post, ?_, hsub⟩
      rw [he, List.append_assoc]
  | (f, isset, .arr (.mk a es)) :: rest, x, h => by
    rw [walked_fields_arr] at h ⊢
    rcases List.mem_append.1 h with h1 | h1
    · split at h1
      · rw [if_pos (by assumption)]
        rcases List.mem_cons.1 h1 with h2 | h2
        · cases h2
        · rcases List.mem_append.1 h2 with h3 | h3
          · obtain ⟨e1, e2, he⟩ := List.append_of_mem h3
            have key : ∀ W : List upb_value,
                es ++ W = e1 ++ upb_value.msg x :: (e2 ++ W) := by
              intro W
              rw [he]
              simp
            refine ⟨.arr (.mk a es) :: e1, e2 ++ (walked_elements es ++ walked_fields rest), ?_,
              fun v hv => List.mem_append_right _
                (List.mem_append_left _ (walked_elements_sub es x h3 v hv))⟩
            simp only [List.cons_append, List.append_assoc]
            exact congrArg _ (key _)
          · obtain ⟨pre, post, he, hsub⟩ := walked_elements_split es x h3
            refine ⟨.arr (.mk a es) :: (es ++ pre), post ++ walked_fields rest, ?_,
              fun v hv => List.mem_append_left _ (hsub v hv)⟩
            rw [he]; simp
      · simp at h1
    · obtain ⟨pre, post, he, hsub⟩ := walked_fields_split rest x h1
      refine ⟨(if isset = true ∧ upb_isarray f = true ∧ upb_isstring f = false then
        .arr (.mk a es) :: (es ++ walked_elements es) else []) ++ pre, post, ?_, hsub⟩
      rw [he, List.append_assoc]
/-- The same below the elements of an array. -/
theorem walked_elements_split :
    ∀ (es : List upb_value) (x : upb_msg), upb_value.msg x ∈ walked_elements es →
      ∃ pre post, walked_elements es = pre ++ upb_value.msg x :: post ∧
        ∀ v ∈ walked x, v ∈ post
  | [], x, h => by simp [walked_elements] at h
  | .scalar r :: rest, x, h => by
    rw [walked_elements_cons] at h ⊢
    simp only [List.nil_append] at h ⊢
    exact walked_elements_split rest x h
  | .str s :: rest, x, h => by
    rw [walked_elements_cons] at h ⊢
    simp only [List.nil_append] at h ⊢
    exact walked_elements_split rest x h
  | .arr a :: rest, x, h => by
    rw [walked_elements_cons] at h ⊢
    simp only [List.nil_append] at h ⊢
    exact walked_elements_split rest x h
  | .msg m :: rest, x, h => by
    rw [walked_elements_msg] at h ⊢
    rcases List.mem_append.1 h with h1 | h1
    · obtain ⟨pre, post, he, hsub⟩ := walked_split m x h1
      refine ⟨pre, post ++ walked_elements rest, ?_,
        fun v hv => List.mem_append_left _ (hsub v hv)⟩
      rw [he]; simp
    · obtain ⟨pre, post, he, hsub⟩ := walked_elements_split rest x h1
      refine ⟨walked m ++ pre, post, ?_, hsub⟩
      rw [he, List.append_assoc]
end

theorem instances_of_nodup (k : Bytes) :
    ∀ (l : List upb_value), (l.filterMap msg_addr).Nodup → (instances_of k l).Nodup
  | [], _ => by simp [instances_of]
  | .scalar r :: rest, h => by
    have h1 : (rest.filterMap msg_addr).Nodup := by simpa [msg_addr] using h
    simpa [instances_of, has_fqname] using instances_of_nodup k rest h1
  | .str s :: rest, h => by
    have h1 : (rest.filterMap msg_addr).Nodup := by simpa [msg_addr] using h
    simpa [instances_of, has_fqname] using instances_of_nodup k rest h1
  | .arr a :: rest, h => by
    have h1 : (rest.filterMap msg_addr).Nodup := by simpa [msg_addr] using h
    simpa [instances_of, has_fqname] using instances_of_nodup k rest h1
  | .msg m :: rest, h => by
    have h0 : (m.addr :: rest.filterMap msg_addr).Nodup := by simpa [msg_addr] using h
    obtain ⟨hn, h1⟩ := List.nodup_cons.1 h0
    have ih := instances_of_nodup k rest h1
    rw [instances_of_msg]
    by_cases hk : m.fqname = k
    · simp only [hk, if_true, List.singleton_append]
      refine List.nodup_cons.2 ⟨?_, ih⟩
      intro hm
      have hm1 : upb_value.msg m ∈ rest := (List.mem_filter.1 hm).1
      exact hn (List.mem_filterMap.2 ⟨_, hm1, rfl⟩)
    · simpa [hk] using ih

theorem tree_nodes_split (msg x : upb_msg) (h : upb_value.msg x ∈ tree_nodes msg) :
    ∃ pre post, tree_nodes msg = pre ++ upb_value.msg x :: post ∧ ∀ v ∈ walked x, v ∈ post := by
  unfold tree_nodes at h ⊢
  rcases List.mem_cons.1 h with h1 | h1
  · have hx : x = msg := upb_value.msg.inj h1
    subst hx
    exact ⟨[], walked x, rfl, fun v hv => hv⟩
  · obtain ⟨pre, post, he, hsub⟩ := walked_split msg x h1
    exact ⟨.msg msg :: pre, post, by rw [he]; rfl, hsub⟩

theorem instances_of_mem (k : Bytes) (l : List upb_value) (x : upb_msg) :
    upb_value.msg x ∈ instances_of k l ↔ upb_value.msg x ∈ l ∧ x.fqname = k := by
  simp [instances_of, List.mem_filter, has_fqname]

/-- In the list of the messages of one type, a message comes before every
message of that type the traversal meets below it. -/
theorem instances_of_order (k : Bytes) (msg : upb_msg)
    (hn : (instances_of k (tree_nodes msg)).Nodup) (i j : Nat) (x y : upb_msg)
    (hi : (instances_of k (tree_nodes msg))[i]? = some (upb_value.msg x))
    (hj : (instances_of k (tree_nodes msg))[j]? = some (upb_value.msg y))
    (hy : upb_value.msg y ∈ walked x) : i < j := by
  have hxm := (instances_of_mem k _ x).1 (List.getElem?_mem hi)
  have hym := (instances_of_mem k _ y).1 (List.getElem?_mem hj)
  obtain ⟨pre, post, he, hsub⟩ := tree_nodes_split msg x hxm.1
  have hV : instances_of k (tree_nodes msg) =
      instances_of k pre ++ (upb_value.msg x :: instances_of k post) := by
    rw [he, instances_of_append, instances_of_msg, if_pos hxm.2]
    rfl
  rw [hV] at hi hj hn
  have hilt : i < (instances_of k pre ++ (upb_value.msg x :: instances_of k post)).length := by
    by_contra hc
    rw [List.getElem?_eq_none (by omega)] at hi
    cases hi
  have hjlt : j < (instances_of k pre ++ (upb_value.msg x :: instances_of k post)).length := by
    by_contra hc
    rw [List.getElem?_eq_none (by omega)] at hj
    cases hj
  have hx0 : (instances_of k pre ++ (upb_value.msg x :: instances_of k post))[
      (instances_of k pre).length]? = some (upb_value.msg x) := by
    rw [List.getElem?_append_right (Nat.le_refl _)]
    simp
  have hieq : i = (instances_of k pre).length :=
    List.getElem?_inj hilt hn (hi.trans hx0.symm)
  have hyp : upb_value.msg y ∈ instances_of k post :=
    (instances_of_mem k post y).2 ⟨hsub _ hy, hym.2⟩
  obtain ⟨j1, hj1⟩ := List.getElem?_of_mem hyp
  have hy0 : (instances_of k pre ++ (upb_value.msg x :: instances_of k post))[
      (instances_of k pre).length + 1 + j1]? = some (upb_value.msg y) := by
    rw [List.getElem?_append_right (by omega)]
    have : (instances_of k pre).length + 1 + j1 - (instances_of k pre).length = j1 + 1 := by
      omega
    rw [this, List.getElem?_cons_succ]
    exact hj1
  have hjeq : j = (instances_of k pre).length + 1 + j1 :=
    List.getElem?_inj hjlt hn (hj.trans hy0.symm)
  omega

/-- C23 (every message registered exactly once). For a conforming instance
tree: the traversal (the root is added, then `add_submsgs` runs) returns when
every present repeated field is a string field or a submessage field; and
whenever it returns, the values of the entry of every type are the messages of
that type in the instance (the root, the message of every present singular
submessage field, the elements of every present array of messages, and so on
below them), each once, so `values_len` is their number; every message of the
instance is at exactly one index of the values of its own type and among the
values of no other key; and a message is at a smaller index than every message
of its type the traversal meets below it. -/
theorem registered_exactly_once (ctype : Nat → Bytes) (msg : upb_msg)
    (hc : conforms msg = true) (htree : instance_tree msg) :
    (no_scalar_arrays msg = true → ∃ types, gather_types ctype msg = some types) ∧
    ∀ types, gather_types ctype msg = some types →
      (∀ e ∈ types, e.values = instances_of e.key (tree_nodes msg) ∧
        e.values.Nodup ∧ e.values_len = (instances_of e.key (tree_nodes msg)).length) ∧
      (∀ k, values_of types k = instances_of k (tree_nodes msg)) ∧
      (∀ x, upb_value.msg x ∈ tree_nodes msg →
        (∃ i : Nat, (values_of types x.fqname)[i]? = some (upb_value.msg x) ∧
          ∀ j : Nat, (values_of types x.fqname)[j]? = some (upb_value.msg x) → j = i) ∧
        ∀ k, k ≠ x.fqname → upb_value.msg x ∉ values_of types k) ∧
      (∀ (k : Bytes) (i j : Nat) (x y : upb_msg),
        (values_of types k)[i]? = some (upb_value.msg x) →
        (values_of types k)[j]? = some (upb_value.msg y) →
        upb_value.msg y ∈ walked x → i < j) := by
  refine ⟨fun hn => ?_, ?_⟩
  · obtain ⟨types, ht, _⟩ := gather_types_total ctype msg hc hn
    exact ⟨types, ht⟩
  intro types ht
  have hv := gather_types_values ctype msg types hc ht
  have hnd : ∀ k, (instances_of k (tree_nodes msg)).Nodup :=
    fun k => instances_of_nodup k (tree_nodes msg) htree.1
  have hkeys := gather_types_keys_nodup ctype msg types ht
  refine ⟨?_, hv, ?_, ?_⟩
  · intro e he
    have h1 := (values_of_mem types e hkeys he).1
    rw [hv] at h1
    refine ⟨h1.symm, ?_, ?_⟩
    · rw [← h1]; exact hnd e.key
    · unfold typetable_entry.values_len
      rw [← h1]
  · intro x hx
    constructor
    · have hm : upb_value.msg x ∈ values_of types x.fqname := by
        rw [hv]; exact (instances_of_mem _ _ x).2 ⟨hx, rfl⟩
      obtain ⟨i, hi⟩ := List.getElem?_of_mem hm
      refine ⟨i, hi, ?_⟩
      intro j hj
      have hjlt : j < (values_of types x.fqname).length := by
        by_contra hcon
        rw [List.getElem?_eq_none (by omega)] at hj
        cases hj
      exact List.getElem?_inj hjlt (by rw [hv]; exact hnd _) (hj.trans hi.symm)
    · intro k hk hm
      rw [hv] at hm
      exact hk ((instances_of_mem k _ x).1 hm).2.symm
  · intro k i j x y hi hj hy
    rw [hv] at hi hj
    exact instances_of_order k msg (hnd k) i j x y hi hj hy

/-- C23, at the scenario `Person`: the root is at index 0, and `Bob`, an
element of its array, at a larger index of the same entry. -/
theorem registered_exactly_once_witness :
    (∀ e ∈ person_types, e.values = instances_of e.key (tree_nodes person_root) ∧
      e.values.Nodup ∧ e.values_len = (instances_of e.key (tree_nodes person_root)).length) ∧
    (∀ (k : Bytes) (i j : Nat) (x y : upb_msg),
      (values_of person_types k)[i]? = some (upb_value.msg x) →
      (values_of person_types k)[j]? = some (upb_value.msg y) →
      upb_value.msg y ∈ walked x → i < j) :=
  ⟨((registered_exactly_once c_types person_root (by decide) (by decide)).2 person_types
      person_gather_types).1,
    ((registered_exactly_once c_types person_root (by decide) (by decide)).2 person_types
      person_gather_types).2.2.2⟩

/-! ## The order in which the entries are written -/

theorem write_message_c_by_id :
    write_message_c_by id = write_message_c := rfl

/-- In every finalised pool the entry 0 has offset 0, the offset of entry `i`
is the sum of the byte lengths of the entries before `i`, the bytes handed to
`fputc` are the contents of the entries one after the other, and the
`byte_len(i)` of them from `offset(i)` on are the content of entry `i`. -/
theorem str_pool_offsets (strings : List strtable_entry) (s : emitter) :
    (∀ e, (str_entries strings)[0]? = some e → e.offset = 0) ∧
    (∀ (i : Nat) (h : i < (str_entries strings).length),
      (str_entries strings)[i].offset =
        (((str_entries strings).take i).map (fun x => x.key.length)).sum) ∧
    (emit_strings (str_entries strings) s).stream =
      s.stream ++ [.strdata ((str_entries strings).flatMap (fun e => e.key)),
        .strings ((str_entries strings).map (fun e => (e.offset, e.key.length)))] ∧
    (∀ (i : Nat) (h : i < (str_entries strings).length),
      (((str_entries strings).flatMap (fun e => e.key)).drop
        (str_entries strings)[i].offset).take (str_entries strings)[i].key.length =
          (str_entries strings)[i].key) := by
  refine ⟨?_, ?_, ?_, ?_⟩
  · intro e he
    have h0 : 0 < (str_entries strings).length := by
      by_contra hc
      rw [List.getElem?_eq_none (by omega)] at he
      cases he
    have := str_entries_offset strings 0 h0
    rw [List.getElem?_eq_getElem h0, Option.some.injEq] at he
    rw [← he, this]
    rfl
  · intro i h
    rw [str_entries_offset strings i h, List.map_take]
  · simp [emit_strings, emitter.put]
  · intro i h
    rw [str_entries_offset strings i h]
    exact strdata_slice (str_entries strings) i h

theorem c_scan_cons (m : c_mode) (c : Nat) (rest : Bytes) :
    c_scan m (c :: rest) =
      match c_step m c with
      | none => none
      | some r => (c_scan r.1 rest).map (fun out => r.2 ++ out) := by
  cases m <;> rfl

theorem c_step_inside_plain (c : Nat) (h : plain_byte c = true) :
    c_step_inside c = some (.inside, [c]) := by
  unfold plain_byte at h
  simp only [Bool.and_eq_true, bne_iff_ne, ne_eq] at h
  unfold c_step_inside
  simp [h.1.1, h.1.2, h.2]

theorem c_scan_outside_newline (rest : Bytes) :
    c_scan .outside (10 :: rest) = c_scan .outside rest := by
  rw [c_scan_cons]
  simp [c_step]

theorem c_scan_outside_blank (rest : Bytes) :
    c_scan .outside (32 :: rest) = c_scan .outside rest := by
  rw [c_scan_cons]
  simp [c_step]

theorem c_scan_outside_quote (rest : Bytes) :
    c_scan .outside (34 :: rest) = c_scan .inside rest := by
  rw [c_scan_cons]
  simp [c_step]

theorem c_scan_inside_quote (rest : Bytes) :
    c_scan .inside (34 :: rest) = c_scan .outside rest := by
  rw [c_scan_cons]
  simp [c_step, c_step_inside]

theorem c_scan_inside_plain (c : Nat) (rest : Bytes) (h : plain_byte c = true) :
    c_scan .inside (c :: rest) = (c_scan .inside rest).map (fun out => c :: out) := by
  rw [c_scan_cons]
  simp [c_step, c_step_inside_plain c h]

/-- The text of the string data, read as C reads it, denotes the bytes written
when none of them needs an escape; the line breaks add nothing. -/
theorem c_scan_strdata_chars :
    ∀ (bytes : Bytes) (col : Nat), (∀ c ∈ bytes, plain_byte c = true) →
      c_scan .inside (strdata_chars bytes col ++ [34]) = some bytes
  | [], _, _ => by
    show c_scan .inside [34] = some []
    decide
  | c :: rest, col, h => by
    have hc := h c (List.mem_cons_self _ _)
    have hr := fun col1 => c_scan_strdata_chars rest col1
      (fun x hx => h x (List.mem_cons_of_mem _ hx))
    unfold strdata_chars
    by_cases hcol : col + 1 = 80
    · rw [if_pos hcol]
      simp only [List.cons_append, List.nil_append]
      rw [c_scan_inside_quote, c_scan_outside_newline, c_scan_outside_blank,
        c_scan_outside_blank, c_scan_outside_quote, c_scan_inside_plain c _ hc, hr]
      rfl
    · rw [if_neg hcol]
      simp only [List.cons_append]
      rw [c_scan_inside_plain c _ hc, hr]
      rfl

theorem c_char_array_plain (strings : List strtable_entry)
    (h : ∀ c ∈ strings.flatMap (fun e => e.key), plain_byte c = true) :
    c_char_array (strdata_initializer strings) =
      some (strings.flatMap (fun e => e.key) ++ [0]) := by
  unfold c_char_array strdata_initializer
  simp only [List.cons_append, List.nil_append, List.append_assoc]
  rw [c_scan_outside_newline, c_scan_outside_blank, c_scan_outside_blank,
    c_scan_outside_quote, c_scan_strdata_chars _ 2 h]
  rfl

theorem record_bytes_append (l z k : Bytes) (a n : Nat) (h : (l.drop a).take n = k)
    (hk : k.length = n) : record_bytes (l ++ z) a n = k := by
  unfold record_bytes
  have hlen : n ≤ (l.drop a).length := by
    have := congrArg List.length h
    rw [List.length_take, hk] at this
    omega
  by_cases ha : a ≤ l.length
  · rw [List.drop_append_of_le_length ha, List.take_append_of_le_length hlen]
    exact h
  · rw [List.length_drop] at hlen
    have hn : n = 0 := by omega
    subst hn
    rw [List.take_zero] at h ⊢
    exact h

/-- When no byte of the pool needs an escape, the array `strdata` the emitted
literal defines holds the contents of the entries one after the other, and
every emitted record denotes the content of its entry. -/
theorem strdata_records_plain (strings : List strtable_entry)
    (h : ∀ c ∈ (str_entries strings).flatMap (fun e => e.key), plain_byte c = true) :
    ∃ strdata, c_char_array (strdata_initializer (str_entries strings)) = some strdata ∧
      ∀ (i : Nat) (hi : i < (str_entries strings).length),
        record_bytes strdata (str_entries strings)[i].offset
          (str_entries strings)[i].key.length = (str_entries strings)[i].key := by
  refine ⟨_, c_char_array_plain _ h, ?_⟩
  intro i hi
  refine record_bytes_append _ _ _ _ _ ?_ rfl
  rw [str_entries_offset strings i hi]
  exact strdata_slice (str_entries strings) i hi

/-- C16, at the failing input `{a = "\n", b = "z"}`, where `a` holds the two
bytes backslash and `n`: the pool is `\n` at offset 0 and `z` at offset 2, as
the claim says; the bytes are written into the literal as they are, so the text
of the definition is `"\nz"`, which defines the array of the three bytes
newline, `z`, zero; the emitted record `{&strdata[0], 2}` of the first entry
denotes newline and `z`, and the record `{&strdata[2], 1}` of `z` denotes the
terminating zero. -/
theorem strdata_literal_unescaped :
    (add_strings_from_msg backslash_msg []).map str_entries =
      some [{ key := [92, 110], offset := 0, num := 0 }, { key := [122], offset := 2, num := 1 }] ∧
    (write_message_c c_types backslash_msg [] [] [] []).stream.take 3 =
      [.prologue [] [] [], .strdata [92, 110, 122], .strings [(0, 2), (2, 1)]] ∧
    strdata_initializer
        [{ key := [92, 110], offset := 0, num := 0 }, { key := [122], offset := 2, num := 1 }] =
      [10, 32, 32, 34, 92, 110, 122, 34] ∧
    c_char_array [10, 32, 32, 34, 92, 110, 122, 34] = some [10, 122, 0] ∧
    record_bytes [10, 122, 0] 0 2 = [10, 122] ∧
    record_bytes [10, 122, 0] 2 1 = [0] ∧
    record_bytes [10, 122, 0] 0 2 ≠ [92, 110] ∧
    record_bytes [10, 122, 0] 2 1 ≠ [122] := by
  refine ⟨by decide, rfl, by decide, by decide, by decide, by decide, by decide, by decide⟩

end Upbc
